import Mathlib

/-!
Shallow embedding of the UniValue JSON library (value model, tokenizer,
explicit-stack parser, serializer, strict getters) and proofs about it.

Conventions:
* JSON text is modelled as a byte sequence `List Nat` (each element < 256).
  The C++ code reads NUL-terminated buffers; reading past the end of the
  list is modelled as reading the byte 0, via `peek`.
* `std::string` contents (number literals, string payloads, object keys)
  are also byte sequences `List Nat`.
* Machine integers are modelled as `Nat`/`Int` with explicit bounds.
* Throwing getters are modelled with `Except String`.
-/

/-- Byte at the cursor of a NUL-terminated buffer: the head of the remaining
byte list, or the terminating NUL (0) when the list is exhausted. -/
def peek (l : List Nat) : Nat := l.headD 0

/-- `json_isdigit` from the source: ch >= '0' && ch <= '9'. -/
def json_isdigit (c : Nat) : Bool := 48 ≤ c && c ≤ 57

/-- `json_isspace` from the source: space (0x20), tab (0x09), LF (0x0a), CR (0x0d). -/
def json_isspace (c : Nat) : Bool := c == 0x20 || c == 0x09 || c == 0x0a || c == 0x0d

/-- ASCII bytes of a Lean string literal (used only with ASCII literals in
statements; `Char.toNat` is the codepoint, which equals the byte for ASCII). -/
def abytes (s : String) : List Nat := s.toList.map Char.toNat

mutual
/-- The UniValue value model: exactly one active representation, one of
null/false/true, a number (stored as its literal text), a string, an
object (ordered key/value sequence), or an array (ordered value sequence).
Mirrors `UniValue` with its `VType typ` tag and `val`/`entries`/`values`
payloads. Object entries and array elements use the bespoke sequence types
`Entries`/`Values` (isomorphic to `List`) so that all recursive functions
are structurally recursive and evaluate inside the kernel. -/
inductive UniValue where
  | vnull : UniValue
  | vfalse : UniValue
  | vtrue : UniValue
  | vnum (val : List Nat) : UniValue
  | vstr (val : List Nat) : UniValue
  | vobj (entries : Entries) : UniValue
  | varr (values : Values) : UniValue

/-- Ordered sequence of (key, value) pairs of a JSON object
(`UniValue::Object`, a vector of pairs; duplicate keys permitted). -/
inductive Entries where
  | nil : Entries
  | cons (key : List Nat) (val : UniValue) (rest : Entries) : Entries

/-- Ordered sequence of values of a JSON array (`UniValue::Array`). -/
inductive Values where
  | nil : Values
  | cons (val : UniValue) (rest : Values) : Values
end

open UniValue

/-- Append one entry at the back (`entries.emplace_back`). -/
def Entries.snoc : Entries → List Nat → UniValue → Entries
  | .nil, k, v => .cons k v .nil
  | .cons k' v' r, k, v => .cons k' v' (r.snoc k v)

/-- Replace the value of the last entry (`entries.rbegin()->second = v`).
The parser only does this when the object is non-empty (a key was just
appended); on an empty sequence this is C++ UB and unreachable, modelled
as the identity. -/
def Entries.setLast : Entries → UniValue → Entries
  | .nil, _ => .nil
  | .cons k _ .nil, v => .cons k v .nil
  | .cons k v' (.cons k2 v2 r), v => .cons k v' ((Entries.cons k2 v2 r).setLast v)

/-- Append one value at the back (`values.emplace_back`). -/
def Values.snoc : Values → UniValue → Values
  | .nil, v => .cons v .nil
  | .cons v' r, v => .cons v' (r.snoc v)

mutual
/-- Structural equality mirroring `UniValue::operator==`: tags must be equal;
objects/arrays compare their sequences pairwise and order-sensitively;
numbers and strings compare their literal text byte-for-byte; null/false/true
compare equal by tag alone. -/
def ueq : UniValue → UniValue → Bool
  | .vnull, .vnull => true
  | .vfalse, .vfalse => true
  | .vtrue, .vtrue => true
  | .vnum a, .vnum b => a == b
  | .vstr a, .vstr b => a == b
  | .vobj a, .vobj b => ueqEntries a b
  | .varr a, .varr b => ueqValues a b
  | _, _ => false

/-- Pairwise, order-sensitive equality of object entry sequences
(`std::vector<std::pair> ==`). -/
def ueqEntries : Entries → Entries → Bool
  | .nil, .nil => true
  | .cons k v r, .cons k' v' r' => k == k' && ueq v v' && ueqEntries r r'
  | _, _ => false

/-- Pairwise, order-sensitive equality of array value sequences. -/
def ueqValues : Values → Values → Bool
  | .nil, .nil => true
  | .cons v r, .cons v' r' => ueq v v' && ueqValues r r'
  | _, _ => false
end

/-! ## UTF-8 / UTF-16 surrogate filter (`JSONUTF8StringFilter`) -/

/-- State of `JSONUTF8StringFilter`: the output string being built, the
validity flag, the codepoint under assembly, the number of pending
continuation bits (`state`, a multiple of 6), and the pending first half of
a UTF-16 surrogate pair (`surpair`, or 0). -/
structure JSONUTF8StringFilter where
  str : List Nat
  is_valid : Bool
  codepoint : Nat
  state : Nat
  surpair : Nat

/-- Fresh filter around an initial output string (the constructor takes the
string by reference; the tokenizer may have pre-filled it on the fast path). -/
def JSONUTF8StringFilter.init (s : List Nat) : JSONUTF8StringFilter :=
  ⟨s, true, 0, 0, 0⟩

/-- `append_codepoint`: emit a codepoint as 1-4 UTF-8 bytes depending on its
magnitude; codepoints above 0x1FFFFF emit nothing. -/
def JSONUTF8StringFilter.append_codepoint (f : JSONUTF8StringFilter) (cp : Nat) :
    JSONUTF8StringFilter :=
  if cp ≤ 0x7f then { f with str := f.str ++ [cp] }
  else if cp ≤ 0x7FF then
    { f with str := f.str ++ [0xC0 ||| (cp >>> 6), 0x80 ||| (cp &&& 0x3F)] }
  else if cp ≤ 0xFFFF then
    { f with str := f.str ++ [0xE0 ||| (cp >>> 12), 0x80 ||| ((cp >>> 6) &&& 0x3F),
                              0x80 ||| (cp &&& 0x3F)] }
  else if cp ≤ 0x1FFFFF then
    { f with str := f.str ++ [0xF0 ||| (cp >>> 18), 0x80 ||| ((cp >>> 12) &&& 0x3F),
                              0x80 ||| ((cp >>> 6) &&& 0x3F), 0x80 ||| (cp &&& 0x3F)] }
  else f

/-- `push_back_u`: accept a full codepoint, collating UTF-16 surrogate pairs;
a first half is held pending in `surpair`, a second half must complete a
pending first half, anything else is appended directly. -/
def JSONUTF8StringFilter.push_back_u (f : JSONUTF8StringFilter) (cp : Nat) :
    JSONUTF8StringFilter :=
  let f := if f.state ≠ 0 then { f with is_valid := false } else f
  if 0xD800 ≤ cp ∧ cp < 0xDC00 then
    if f.surpair ≠ 0 then { f with is_valid := false }
    else { f with surpair := cp }
  else if 0xDC00 ≤ cp ∧ cp < 0xE000 then
    if f.surpair ≠ 0 then
      { f.append_codepoint (0x10000 ||| ((f.surpair - 0xD800) <<< 10) ||| (cp - 0xDC00))
        with surpair := 0 }
    else { f with is_valid := false }
  else
    if f.surpair ≠ 0 then { f with is_valid := false }
    else f.append_codepoint cp

/-- `push_back`: accept one raw byte, advancing the UTF-8 decoding state
machine; ASCII passes straight through, sequence leads open a multi-byte
codepoint, continuation bytes fill it in; whenever the machine returns to
state 0 the assembled codepoint goes through `push_back_u`. -/
def JSONUTF8StringFilter.push_back (f : JSONUTF8StringFilter) (ch : Nat) :
    JSONUTF8StringFilter :=
  if f.state = 0 then
    if ch < 0x80 then { f with str := f.str ++ [ch] }
    else if ch < 0xc0 then { f with is_valid := false }
    else if ch < 0xe0 then { f with codepoint := (ch &&& 0x1f) <<< 6, state := 6 }
    else if ch < 0xf0 then { f with codepoint := (ch &&& 0x0f) <<< 12, state := 12 }
    else if ch < 0xf8 then { f with codepoint := (ch &&& 0x07) <<< 18, state := 18 }
    else { f with is_valid := false }
  else
    let f := if (ch &&& 0xc0) ≠ 0x80 then { f with is_valid := false } else f
    let st := f.state - 6
    let cp := f.codepoint ||| ((ch &&& 0x3f) <<< st)
    let f := { f with state := st, codepoint := cp }
    if st = 0 then f.push_back_u cp else f

/-- `finalize`: valid only if no multi-byte sequence and no surrogate pair is
left open. -/
def JSONUTF8StringFilter.finalize (f : JSONUTF8StringFilter) : Bool :=
  if f.state ≠ 0 ∨ f.surpair ≠ 0 then false else f.is_valid

/-! ## Tokenizer (`getJsonToken` and helpers) -/

/-- `jtokentype` from the source. `tEOF` is `JTOK_NONE` (the NUL terminator)
and `tErr` is `JTOK_ERR`. -/
inductive Jtok where
  | tErr | tEOF
  | tObjOpen | tObjClose | tArrOpen | tArrClose
  | tColon | tComma
  | tKwNull | tKwTrue | tKwFalse
  | tNumber | tString
  deriving DecidableEq, Repr

open Jtok

/-- `jsonTokenIsValue`: keyword/number/string tokens are values. -/
def jsonTokenIsValue : Jtok → Bool
  | tKwNull | tKwTrue | tKwFalse | tNumber | tString => true
  | _ => false

/-- Result of one `getJsonToken` call: the token kind, the extracted token
text (`tokenVal`, empty unless number/string), and the advanced cursor. -/
structure TokRes where
  tok : Jtok
  val : List Nat
  rest : List Nat
  deriving Repr

/-- `hatoui`: consume exactly 4 hex characters and return their value; fails
on any non-hex character (including hitting the end of the buffer, whose
implicit NUL is not hex). -/
def hexDigitVal (c : Nat) : Option Nat :=
  if json_isdigit c then some (c - 48)
  else if 97 ≤ c ∧ c ≤ 102 then some (c - 97 + 10)
  else if 65 ≤ c ∧ c ≤ 70 then some (c - 65 + 10)
  else none

/-- `hatoui` on the byte list; returns the codepoint and the rest. -/
def hatoui (l : List Nat) : Option (Nat × List Nat) :=
  match l with
  | a :: b :: c :: d :: r =>
    match hexDigitVal a, hexDigitVal b, hexDigitVal c, hexDigitVal d with
    | some va, some vb, some vc, some vd => some (((va * 16 + vb) * 16 + vc) * 16 + vd, r)
    | _, _, _, _ => none
  | _ => none

/-- Fast-path scan for simple strings (`FastPathParseSimpleString`):
0 = Processed (rest begins with the closing quote), 1 = NotFullyProcessed
(rest begins with a backslash or a byte ≥ 0x80), 2 = Error (unescaped
control character or premature end). The middle component is the simple
prefix scanned so far. -/
def fastPath : List Nat → Nat × List Nat × List Nat
  | [] => (2, [], [])
  | c :: r =>
    if c = 0 then (2, [], c :: r)
    else if c = 34 then (0, [], c :: r)
    else if c = 92 then (1, [], c :: r)
    else if c < 0x20 then (2, [], c :: r)
    else if 0x80 ≤ c then (1, [], c :: r)
    else
      let (st, pre, rest) := fastPath r
      (st, c :: pre, rest)

/-- Consuming 4 hex characters shortens the buffer by exactly 4. -/
theorem hatoui_length {l r : List Nat} {v : Nat} (h : hatoui l = some (v, r)) :
    r.length + 4 = l.length := by
  match l with
  | [] | [_] | [_, _] | [_, _, _] => simp [hatoui] at h
  | a :: b :: c :: d :: rr =>
    simp only [hatoui] at h
    split at h
    · simp only [Option.some.injEq, Prod.mk.injEq] at h
      simp [← h.2]
    · exact absurd h (by simp)

/-- Slow-path string scan, fuelled so that it is structurally recursive (and
hence evaluates inside the kernel): one byte at a time through the UTF-8
filter, decoding the short escapes and `\uXXXX`; stops at the closing quote
and checks `finalize`. Returns the token text and the cursor past the quote.
Each step consumes at least one byte, so any fuel above the buffer length is
enough (`slowStringF_enough`); running out of fuel (which never happens when
called via `slowString`) returns `none`. -/
def slowStringF : Nat → JSONUTF8StringFilter → List Nat → Option (List Nat × List Nat)
  | 0, _, _ => none
  | _ + 1, _, [] => none
  | fuel + 1, f, c :: r =>
    if c < 0x20 then none
    else if c = 92 then
      match r with
      | [] => none
      | e :: r2 =>
        if e = 34 then slowStringF fuel (f.push_back 34) r2
        else if e = 92 then slowStringF fuel (f.push_back 92) r2
        else if e = 47 then slowStringF fuel (f.push_back 47) r2
        else if e = 98 then slowStringF fuel (f.push_back 8) r2
        else if e = 102 then slowStringF fuel (f.push_back 12) r2
        else if e = 110 then slowStringF fuel (f.push_back 10) r2
        else if e = 114 then slowStringF fuel (f.push_back 13) r2
        else if e = 116 then slowStringF fuel (f.push_back 9) r2
        else if e = 117 then
          match hatoui r2 with
          | some (cp, r3) => slowStringF fuel (f.push_back_u cp) r3
          | none => none
        else none
    else if c = 34 then
      if f.finalize then some (f.str, r) else none
    else slowStringF fuel (f.push_back c) r

/-- The slow-path scan with always-sufficient fuel. -/
def slowString (f : JSONUTF8StringFilter) (l : List Nat) : Option (List Nat × List Nat) :=
  slowStringF (l.length + 1) f l

/-- One-step unfolding of `slowStringF` on a non-empty buffer. -/
theorem slowStringF_succ (fuel : Nat) (f : JSONUTF8StringFilter) (c : Nat) (r : List Nat) :
    slowStringF (fuel + 1) f (c :: r) =
      (if c < 0x20 then none
      else if c = 92 then
        match r with
        | [] => none
        | e :: r2 =>
          if e = 34 then slowStringF fuel (f.push_back 34) r2
          else if e = 92 then slowStringF fuel (f.push_back 92) r2
          else if e = 47 then slowStringF fuel (f.push_back 47) r2
          else if e = 98 then slowStringF fuel (f.push_back 8) r2
          else if e = 102 then slowStringF fuel (f.push_back 12) r2
          else if e = 110 then slowStringF fuel (f.push_back 10) r2
          else if e = 114 then slowStringF fuel (f.push_back 13) r2
          else if e = 116 then slowStringF fuel (f.push_back 9) r2
          else if e = 117 then
            match hatoui r2 with
            | some (cp, r3) => slowStringF fuel (f.push_back_u cp) r3
            | none => none
          else none
      else if c = 34 then
        if f.finalize then some (f.str, r) else none
      else slowStringF fuel (f.push_back c) r) := rfl

/-- Fuel irrelevance for `slowStringF`: any fuel above the buffer length
computes the same result. -/
theorem slowStringF_enough {fuel₁ fuel₂ : Nat} (f : JSONUTF8StringFilter) (l : List Nat)
    (h₁ : l.length < fuel₁) (h₂ : l.length < fuel₂) :
    slowStringF fuel₁ f l = slowStringF fuel₂ f l := by
  induction fuel₁ generalizing fuel₂ f l with
  | zero => omega
  | succ n ih =>
    match fuel₂, l with
    | 0, _ => omega
    | m + 1, [] => rfl
    | m + 1, c :: r =>
      have hr : r.length < n := by simp only [List.length_cons] at h₁; omega
      have hr' : r.length < m := by simp only [List.length_cons] at h₂; omega
      rw [slowStringF_succ, slowStringF_succ]
      by_cases hc1 : c < 0x20
      · simp only [if_pos hc1]
      simp only [if_neg hc1]
      by_cases hc2 : c = 92
      · simp only [if_pos hc2]
        match r with
        | [] => rfl
        | e :: r2 =>
          have h2 : r2.length < n := by simp only [List.length_cons] at hr; omega
          have h2' : r2.length < m := by simp only [List.length_cons] at hr'; omega
          by_cases he1 : e = 34
          · simp only [if_pos he1]; exact ih _ _ h2 h2'
          simp only [if_neg he1]
          by_cases he2 : e = 92
          · simp only [if_pos he2]; exact ih _ _ h2 h2'
          simp only [if_neg he2]
          by_cases he3 : e = 47
          · simp only [if_pos he3]; exact ih _ _ h2 h2'
          simp only [if_neg he3]
          by_cases he4 : e = 98
          · simp only [if_pos he4]; exact ih _ _ h2 h2'
          simp only [if_neg he4]
          by_cases he5 : e = 102
          · simp only [if_pos he5]; exact ih _ _ h2 h2'
          simp only [if_neg he5]
          by_cases he6 : e = 110
          · simp only [if_pos he6]; exact ih _ _ h2 h2'
          simp only [if_neg he6]
          by_cases he7 : e = 114
          · simp only [if_pos he7]; exact ih _ _ h2 h2'
          simp only [if_neg he7]
          by_cases he8 : e = 116
          · simp only [if_pos he8]; exact ih _ _ h2 h2'
          simp only [if_neg he8]
          by_cases he9 : e = 117
          · simp only [if_pos he9]
            match hv : hatoui r2 with
            | some (cp, r3) =>
              have := hatoui_length hv
              exact ih _ _ (by omega) (by omega)
            | none => rfl
          simp only [if_neg he9]
      simp only [if_neg hc2]
      by_cases hc3 : c = 34
      · simp only [if_pos hc3]
      simp only [if_neg hc3]
      exact ih _ _ hr hr'

/-! ## Number lexing (part 1 int / part 2 frac / part 3 exp of `getJsonToken`) -/

/-- Fractional part: an optional `.` followed by one-or-more digits; returns
the consumed bytes and the rest, or `none` when a `.` is not followed by a
digit. -/
def lexFrac (l : List Nat) : Option (List Nat × List Nat) :=
  if peek l = 46 then
    let ds := l.tail.takeWhile json_isdigit
    if ds = [] then none else some (46 :: ds, l.tail.dropWhile json_isdigit)
  else some ([], l)

/-- Exponent part: an optional `e`/`E`, an optional sign, then one-or-more
digits. -/
def lexExp (l : List Nat) : Option (List Nat × List Nat) :=
  if peek l = 101 ∨ peek l = 69 then
    let (sgn, l1) :=
      if peek l.tail = 43 ∨ peek l.tail = 45 then ([peek l.tail], l.tail.tail)
      else ([], l.tail)
    let ds := l1.takeWhile json_isdigit
    if ds = [] then none else some (peek l :: (sgn ++ ds), l1.dropWhile json_isdigit)
  else some ([], l)

/-- The number branch of `getJsonToken`, entered when the cursor is at `-` or
a digit: an optional minus; an integer part with no leading zero on
multi-digit integers and at least one digit; then `lexFrac` and `lexExp`.
The token text is exactly the consumed substring (`tokenVal.assign(first,
buffer)`). -/
def lexNumber (l : List Nat) : Option (List Nat × List Nat) :=
  let firstIsMinus := peek l = 45
  let l1 := if firstIsMinus then l.tail else l
  if peek l1 = 48 ∧ json_isdigit (peek l1.tail) then none
  else
    let ds := l1.takeWhile json_isdigit
    if firstIsMinus ∧ ds = [] then none
    else
      match lexFrac (l1.dropWhile json_isdigit) with
      | none => none
      | some (fr, l2) =>
        match lexExp l2 with
        | none => none
        | some (ex, l3) =>
          some ((if firstIsMinus then [45] else []) ++ ds ++ fr ++ ex, l3)

/-! ## The tokenizer -/

/-- The token dispatch of `getJsonToken`, applied after whitespace skipping:
the cursor is at `l`; produce one token and the advanced cursor. -/
def tokenCore (l : List Nat) : TokRes :=
  match l with
  | [] => ⟨tEOF, [], l⟩
  | c :: r =>
    if c = 0 then ⟨tEOF, [], c :: r⟩
    else if c = 123 then ⟨tObjOpen, [], r⟩
    else if c = 125 then ⟨tObjClose, [], r⟩
    else if c = 91 then ⟨tArrOpen, [], r⟩
    else if c = 93 then ⟨tArrClose, [], r⟩
    else if c = 58 then ⟨tColon, [], r⟩
    else if c = 44 then ⟨tComma, [], r⟩
    else if c = 110 then
      if peek r = 117 ∧ peek r.tail = 108 ∧ peek r.tail.tail = 108 then
        ⟨tKwNull, [], r.tail.tail.tail⟩
      else ⟨tErr, [], c :: r⟩
    else if c = 116 then
      if peek r = 114 ∧ peek r.tail = 117 ∧ peek r.tail.tail = 101 then
        ⟨tKwTrue, [], r.tail.tail.tail⟩
      else ⟨tErr, [], c :: r⟩
    else if c = 102 then
      if peek r = 97 ∧ peek r.tail = 108 ∧ peek r.tail.tail = 115 ∧
          peek r.tail.tail.tail = 101 then
        ⟨tKwFalse, [], r.tail.tail.tail.tail⟩
      else ⟨tErr, [], c :: r⟩
    else if c = 45 ∨ json_isdigit c then
      match lexNumber l with
      | some (tv, rest) => ⟨tNumber, tv, rest⟩
      | none => ⟨tErr, [], c :: r⟩
    else if c = 34 then
      match fastPath r with
      | (0, pre, rest) => ⟨tString, pre, rest.tail⟩
      | (1, pre, rest) => match slowString (JSONUTF8StringFilter.init pre) rest with
        | some (tv, rest') => ⟨tString, tv, rest'⟩
        | none => ⟨tErr, [], c :: r⟩
      | (_, _, _) => ⟨tErr, [], c :: r⟩
    else ⟨tErr, [], c :: r⟩

/-- `getJsonToken`: skip whitespace, then produce one token and advance the
cursor. `tEOF` is returned at the (implicit) NUL terminator, or at an
embedded NUL byte; `tErr` on any lexical error (the cursor value is then
irrelevant — the parser aborts). -/
def getJsonToken (buffer : List Nat) : TokRes :=
  tokenCore (buffer.dropWhile json_isspace)

/-! ## Parser (`UniValue::read`) -/

/-- The parser's expectation bitmask (`expect_bits`), one named Boolean per
bit: `EXP_OBJ_NAME`, `EXP_COLON`, `EXP_ARR_VALUE`, `EXP_VALUE`,
`EXP_NOT_VALUE`. `expect(bit)`/`setExpect`/`clearExpect` become field
reads/updates. -/
structure Expect where
  objName : Bool := false
  colon : Bool := false
  arrValue : Bool := false
  value : Bool := false
  notValue : Bool := false
  deriving DecidableEq, Repr

/-- A stack frame: a reference to the object or array under construction.
The C++ stack holds pointers into the tree being built in place; here each
frame owns its partial contents and the completed container is written into
its parent when the frame pops. -/
inductive Frame where
  | fobj (entries : Entries) : Frame
  | farr (values : Values) : Frame

/-- Write a finished value into the top-of-stack container: into an object it
replaces the value of the most recently appended key
(`entries.rbegin()->second = v`), into an array it is appended
(`values.emplace_back(v)`). -/
def writeTop (fr : Frame) (v : UniValue) : Frame :=
  match fr with
  | .fobj es => .fobj (es.setLast v)
  | .farr vs => .farr (vs.snoc v)

/-- Parser loop state: the target value being built (`*this`), the
expectation mask, and the explicit container stack (top at the head). -/
structure LState where
  root : UniValue
  exp : Expect
  stack : List Frame

/-- `MAX_JSON_DEPTH` from the source. -/
def MAX_JSON_DEPTH : Nat := 512

/-- Process one token, mirroring the body of the token loop in
`UniValue::read`: the expectation-checking chain, then the per-token
`switch`. Returns the updated state, or `none` on any grammar error. -/
def procToken (st : LState) (tok : Jtok) (tv : List Nat) (lastTok : Jtok) :
    Option LState :=
  let isValueOpen := jsonTokenIsValue tok || tok == tObjOpen || tok == tArrOpen
  let chain : Option Expect :=
    if st.exp.value then
      if !isValueOpen then none else some { st.exp with value := false }
    else if st.exp.arrValue then
      if !(isValueOpen || tok == tArrClose) then none
      else some { st.exp with arrValue := false }
    else if st.exp.objName then
      if !(tok == tObjClose || tok == tString) then none else some st.exp
    else if st.exp.colon then
      if tok != tColon then none else some { st.exp with colon := false }
    else if tok == tColon then none
    else some st.exp
  match chain with
  | none => none
  | some exp0 =>
    let checkNV : Option Expect :=
      if exp0.notValue then
        if isValueOpen then none else some { exp0 with notValue := false }
      else some exp0
    match checkNV with
    | none => none
    | some exp =>
      match tok with
      | tObjOpen | tArrOpen =>
        let fr : Frame := if tok == tObjOpen then .fobj .nil else .farr .nil
        let stack' := fr :: st.stack
        if stack'.length > MAX_JSON_DEPTH then none
        else if tok == tObjOpen then
          some { st with exp := { exp with objName := true }, stack := stack' }
        else
          some { st with exp := { exp with arrValue := true }, stack := stack' }
      | tObjClose | tArrClose =>
        match st.stack with
        | [] => none
        | top :: rs =>
          if lastTok == tComma then none
          else
            match top, tok with
            | .fobj es, tObjClose =>
              let closed := vobj es
              match rs with
              | [] => some { root := closed,
                             exp := { exp with objName := false, notValue := true },
                             stack := [] }
              | parent :: rs' =>
                some { st with exp := { exp with objName := false, notValue := true },
                               stack := writeTop parent closed :: rs' }
            | .farr vs, tArrClose =>
              let closed := varr vs
              match rs with
              | [] => some { root := closed,
                             exp := { exp with objName := false, notValue := true },
                             stack := [] }
              | parent :: rs' =>
                some { st with exp := { exp with objName := false, notValue := true },
                               stack := writeTop parent closed :: rs' }
            | _, _ => none
      | tColon =>
        match st.stack with
        | [] => none
        | top :: _ =>
          match top with
          | .fobj _ => some { st with exp := { exp with value := true } }
          | .farr _ => none
      | tComma =>
        match st.stack with
        | [] => none
        | top :: _ =>
          if lastTok == tComma || lastTok == tArrOpen then none
          else
            match top with
            | .fobj _ => some { st with exp := { exp with objName := true } }
            | .farr _ => some { st with exp := { exp with arrValue := true } }
      | tKwNull | tKwTrue | tKwFalse =>
        let tmp : UniValue :=
          match tok with
          | tKwTrue => vtrue
          | tKwFalse => vfalse
          | _ => vnull
        match st.stack with
        | [] => some { st with root := tmp, exp := exp }
        | top :: rs =>
          some { st with exp := { exp with notValue := true },
                         stack := writeTop top tmp :: rs }
      | tNumber =>
        let tmp := vnum tv
        match st.stack with
        | [] => some { st with root := tmp, exp := exp }
        | top :: rs =>
          some { st with exp := { exp with notValue := true },
                         stack := writeTop top tmp :: rs }
      | tString =>
        if exp.objName then
          match st.stack with
          | [] => none
          | .fobj es :: rs =>
            some { st with exp := { exp with objName := false, colon := true,
                                             notValue := true },
                           stack := Frame.fobj (es.snoc tv vnull) :: rs }
          | .farr _ :: _ => none
        else
          let tmp := vstr tv
          match st.stack with
          | [] => some { st with root := tmp, exp := exp }
          | top :: rs =>
            some { st with exp := { exp with notValue := true },
                           stack := writeTop top tmp :: rs }
      | tErr | tEOF => none

/-- The parser's token loop, fuelled to be structurally recursive. Reads one
token; `JTOK_NONE`/`JTOK_ERR` abort; otherwise the token is processed and the
loop continues while the container stack is non-empty (the C++ `do`/`while`
runs the body at least once). On loop exit the built value and the cursor are
returned. Every real token consumes at least one byte, so fuel above the
buffer length never runs out. -/
def parseLoopF : Nat → List Nat → LState → Jtok → Option (UniValue × List Nat)
  | 0, _, _, _ => none
  | fuel + 1, buffer, st, lastTok =>
    let tr := getJsonToken buffer
    if tr.tok = tEOF ∨ tr.tok = tErr then none
    else
      match procToken st tr.tok tr.val lastTok with
      | none => none
      | some st' =>
        match st'.stack with
        | [] => some (st'.root, tr.rest)
        | _ :: _ => parseLoopF fuel tr.rest st' tr.tok

/-- `UniValue::read(const char* buffer)` on a byte list: reset the target to
null, run the token loop, then read one more token and fail unless it is
end-of-input. Returns the built value and the remaining bytes at the final
cursor position (the C++ version returns that cursor). -/
def readC (buffer : List Nat) : Option (UniValue × List Nat) :=
  match parseLoopF (buffer.length + 1) buffer ⟨vnull, {}, []⟩ tEOF with
  | none => none
  | some (v, rest) =>
    let tr := getJsonToken rest
    if tr.tok = tEOF then some (v, tr.rest) else none

/-- `UniValue::read(const std::string&)`: parse the NUL-terminated view and
succeed only if parsing consumed the entire string (this is what rejects
embedded NUL bytes). -/
def readStr (raw : List Nat) : Option UniValue :=
  match readC raw with
  | some (v, rest) => if rest = [] then some v else none
  | none => none

/-! ## Serializer (`UniValue::stringify` and helpers) -/

/-- Lowercase hex digit byte. -/
def hexDigitLC (n : Nat) : Nat := if n < 10 then 48 + n else 87 + n

/-- `\u00XX` escape bytes for a byte value (used by the escape table for
control characters without a short escape, and for 0x7f). -/
def uEsc (b : Nat) : List Nat := [92, 117, 48, 48, hexDigitLC (b / 16), hexDigitLC (b % 16)]

/-- The 256-entry `escapes` table: bytes 0x00-0x1F map to their short escape
(`\b` `\t` `\n` `\f` `\r`) or a lowercase `\u00xx` form, `"` to `\"`,
`\` to `\\`, 0x7f to `\u007f`; every other byte has no escape. -/
def escapes (b : Nat) : Option (List Nat) :=
  if b < 32 then
    if b = 8 then some [92, 98]
    else if b = 9 then some [92, 116]
    else if b = 10 then some [92, 110]
    else if b = 12 then some [92, 102]
    else if b = 13 then some [92, 114]
    else some (uEsc b)
  else if b = 34 then some [92, 34]
  else if b = 92 then some [92, 92]
  else if b = 127 then some (uEsc 127)
  else none

/-- One byte through `jsonEscape`: the table's escape string, or the byte
itself. -/
def escByte (b : Nat) : List Nat :=
  match escapes b with
  | some e => e
  | none => [b]

/-- `UniValue::jsonEscape`: map every byte through the escape table. -/
def jsonEscape (s : List Nat) : List Nat := s.flatMap escByte

/-- `UniValue::startNewLine`: when pretty-printing (prettyIndent nonzero),
emit a newline followed by `indentLevel` spaces; nothing in compact mode. -/
def startNewLine (prettyIndent indentLevel : Nat) : List Nat :=
  if prettyIndent ≠ 0 then 10 :: List.replicate indentLevel 32 else []

mutual
/-- `UniValue::stringify(Stream&, const UniValue&, prettyIndent, indentLevel)`:
null/false/true as keywords, a number as its stored literal verbatim, a
string quoted and escaped, containers via their overloads. -/
def stringifyUV : UniValue → Nat → Nat → List Nat
  | .vnull, _, _ => abytes "null"
  | .vfalse, _, _ => abytes "false"
  | .vtrue, _, _ => abytes "true"
  | .vnum s, _, _ => s
  | .vstr s, _, _ => 34 :: jsonEscape s ++ [34]
  | .vobj es, prettyIndent, indentLevel =>
    123 :: (match es with
      | .nil => []
      | .cons k v r => stringifyEntries (.cons k v r) prettyIndent
          (indentLevel + prettyIndent)) ++
      startNewLine prettyIndent indentLevel ++ [125]
  | .varr vs, prettyIndent, indentLevel =>
    91 :: (match vs with
      | .nil => []
      | .cons v r => stringifyValues (.cons v r) prettyIndent
          (indentLevel + prettyIndent)) ++
      startNewLine prettyIndent indentLevel ++ [93]

/-- The entry loop of the object overload: each entry preceded by
`startNewLine` at the internal indent level, the key quoted and escaped,
`":"` (plus a space when pretty), the value at the internal indent level,
and a comma between consecutive entries. -/
def stringifyEntries : Entries → Nat → Nat → List Nat
  | .nil, _, _ => []
  | .cons k v r, prettyIndent, internalIndentLevel =>
    startNewLine prettyIndent internalIndentLevel ++
      (34 :: jsonEscape k ++ [34, 58]) ++
      (if prettyIndent ≠ 0 then [32] else []) ++
      stringifyUV v prettyIndent internalIndentLevel ++
      (match r with
       | .nil => []
       | .cons k' v' r' => 44 :: stringifyEntries (.cons k' v' r') prettyIndent
           internalIndentLevel)

/-- The element loop of the array overload. -/
def stringifyValues : Values → Nat → Nat → List Nat
  | .nil, _, _ => []
  | .cons v r, prettyIndent, internalIndentLevel =>
    startNewLine prettyIndent internalIndentLevel ++
      stringifyUV v prettyIndent internalIndentLevel ++
      (match r with
       | .nil => []
       | .cons v' r' => 44 :: stringifyValues (.cons v' r') prettyIndent
           internalIndentLevel)
end

/-- The public `UniValue::stringify(value, prettyIndent)`: starts at indent
level 0. -/
def stringify (v : UniValue) (prettyIndent : Nat) : List Nat :=
  stringifyUV v prettyIndent 0

/-! ## `validateAndStripNumStr` and `setNumStr` -/

/-- `univalue_internal::validateAndStripNumStr`: the text must tokenize to
exactly one number token followed by end-of-input (whitespace around the
number is consumed by the tokenizer and thus stripped); returns the number
token's text. -/
def validateAndStripNumStr (s : List Nat) : Option (List Nat) :=
  let t1 := getJsonToken s
  if t1.tok = tNumber then
    let t2 := getJsonToken t1.rest
    if t2.tok = tEOF then some t1.val else none
  else none

/-- `UniValue::setNumStr`: on successful validation the value becomes a
Number holding the stripped literal; on failure the value is left untouched
(the body is a single `if (auto optStr = ...)` with no else branch). -/
def setNumStr (v : UniValue) (s : List Nat) : UniValue :=
  match validateAndStripNumStr s with
  | some t => vnum t
  | none => v

/-! ## Numeric coercion helpers and strict getters -/

/-- C locale `isspace` as used by `strtol`: space, \t, \n, \v, \f, \r. -/
def cIsSpace (c : Nat) : Bool := c == 32 || (9 ≤ c && c ≤ 13)

/-- `ParsePrechecks`: non-empty, no JSON whitespace padding at either end,
no embedded NUL bytes. -/
def ParsePrechecks (s : List Nat) : Bool :=
  match s with
  | [] => false
  | c :: rest =>
    !json_isspace c && !json_isspace ((c :: rest).getLast (by simp)) &&
      !(c :: rest).contains 0

/-- `strtol`/`strtoll` on a 64-bit platform (`long` = `long long` = 64 bits):
skip C whitespace, read an optional sign and a run of decimal digits, clamp
to the 64-bit range setting `ERANGE` on overflow. Returns the (clamped)
value, the rest of the buffer at `endp` (the whole buffer when no digits
were read, since `endp` is then reset to `nptr`), and the `ERANGE` flag. -/
def strtoll64 (s : List Nat) : Int × List Nat × Bool :=
  let l1 := s.dropWhile cIsSpace
  let (neg, l2) :=
    if peek l1 = 45 then (true, l1.tail)
    else if peek l1 = 43 then (false, l1.tail)
    else (false, l1)
  let ds := l2.takeWhile json_isdigit
  if ds = [] then (0, s, false)
  else
    let mag : Nat := ds.foldl (fun a c => a * 10 + (c - 48)) 0
    let v : Int := if neg then -(mag : Int) else (mag : Int)
    let rest := l2.dropWhile json_isdigit
    if v < -(2 ^ 63) then (-(2 ^ 63), rest, true)
    else if (2 ^ 63 - 1 : Int) < v then (2 ^ 63 - 1, rest, true)
    else (v, rest, false)

/-- `univalue_internal::ParseInt32`: prechecks, `strtol`, then require that
the whole string was consumed, no range error, and the value fits `int32_t`.
Returns the parsed value on success (`none` models returning `false`). -/
def ParseInt32 (s : List Nat) : Option Int :=
  if !ParsePrechecks s then none
  else
    let (n, rest, err) := strtoll64 s
    if rest = [] ∧ !err ∧ -(2 ^ 31) ≤ n ∧ n ≤ 2 ^ 31 - 1 then some n else none

/-- `univalue_internal::ParseInt64`: prechecks, `strtoll`, whole string
consumed, no range error, value within `int64_t` (the clamp bounds). -/
def ParseInt64 (s : List Nat) : Option Int :=
  if !ParsePrechecks s then none
  else
    let (n, rest, err) := strtoll64 s
    if rest = [] ∧ !err ∧ -(2 ^ 63) ≤ n ∧ n ≤ 2 ^ 63 - 1 then some n else none

/-- Modelled from the spec: `univalue_internal::ParseUInt` is absent from
src/ (only its caller `UniValue::get_uint` is present). Per the spec's
"locale-independent string→int32/int64/uint64/double parsing" with the
integer getters failing "if the stored numeric literal cannot be represented
in the target width": after the same prechecks the literal must be a plain
run of decimal digits (no sign, no fraction, no exponent — a negative value
is not representable) whose value fits in 32 unsigned bits. -/
def ParseUInt32 (s : List Nat) : Option Nat :=
  if !ParsePrechecks s then none
  else if s ≠ [] ∧ s.all (fun c => json_isdigit c) then
    let mag : Nat := s.foldl (fun a c => a * 10 + (c - 48)) 0
    if mag ≤ 2 ^ 32 - 1 then some mag else none
  else none

/-- Modelled from the spec: `univalue_internal::ParseUInt64` is absent from
src/ (only its caller `UniValue::get_uint64` is present); same shape as
`ParseUInt32` with the 64-bit unsigned bound. -/
def ParseUInt64 (s : List Nat) : Option Nat :=
  if !ParsePrechecks s then none
  else if s ≠ [] ∧ s.all (fun c => json_isdigit c) then
    let mag : Nat := s.foldl (fun a c => a * 10 + (c - 48)) 0
    if mag ≤ 2 ^ 64 - 1 then some mag else none
  else none

/-- `isBool` (`is(MBOOL)`): the tag is VTRUE or VFALSE. -/
def UniValue.isBool : UniValue → Bool
  | .vtrue | .vfalse => true
  | _ => false

/-- `isNum`: the tag is VNUM. -/
def UniValue.isNum : UniValue → Bool
  | .vnum _ => true
  | _ => false

/-- `getBool`: true exactly for VTRUE (non-throwing). -/
def UniValue.getBool : UniValue → Bool
  | .vtrue => true
  | _ => false

/-- `getValStr`: the stored text of a number or string, otherwise the empty
string (non-throwing). -/
def UniValue.getValStr : UniValue → List Nat
  | .vnum s => s
  | .vstr s => s
  | _ => []

/-- `UniValue::get_bool`: TypeMismatch unless the value is a boolean. Pure
function of the value — no getter mutates the value. -/
def get_bool (v : UniValue) : Except String Bool :=
  if !v.isBool then .error "JSON value is not a boolean as expected"
  else .ok v.getBool

/-- `UniValue::get_int`: TypeMismatch unless the value is a number,
OutOfRange (`"JSON integer out of range"`) unless the literal parses as an
`int32_t`. -/
def get_int (v : UniValue) : Except String Int :=
  if !v.isNum then .error "JSON value is not an integer as expected"
  else match ParseInt32 v.getValStr with
    | some n => .ok n
    | none => .error "JSON integer out of range"

/-- `UniValue::get_int64`. -/
def get_int64 (v : UniValue) : Except String Int :=
  if !v.isNum then .error "JSON value is not an integer as expected"
  else match ParseInt64 v.getValStr with
    | some n => .ok n
    | none => .error "JSON integer out of range"

/-- `UniValue::get_uint` (via the spec-modelled `ParseUInt32`). -/
def get_uint (v : UniValue) : Except String Nat :=
  if !v.isNum then .error "JSON value is not an integer as expected"
  else match ParseUInt32 v.getValStr with
    | some n => .ok n
    | none => .error "JSON unsigned integer out of range"

/-- `UniValue::get_uint64` (via the spec-modelled `ParseUInt64`). -/
def get_uint64 (v : UniValue) : Except String Nat :=
  if !v.isNum then .error "JSON value is not an integer as expected"
  else match ParseUInt64 v.getValStr with
    | some n => .ok n
    | none => .error "JSON unsigned integer out of range"

/-! ## Well-formed programmatic values (for the round-trip theorem) -/

/-- Well-formed UTF-8 content (RFC 3629): a concatenation of canonical
encodings of codepoints up to U+10FFFF excluding the surrogate range.
Continuation bytes are 0x80-0xBF; overlong forms and surrogates are ruled
out by the lead/second-byte ranges. -/
def goodStr : List Nat → Bool
  | [] => true
  | b :: r =>
    if b < 0x80 then goodStr r
    else if 0xC2 ≤ b ∧ b ≤ 0xDF then
      match r with
      | b2 :: r2 => (0x80 ≤ b2 && b2 ≤ 0xBF) && goodStr r2
      | [] => false
    else if 0xE0 ≤ b ∧ b ≤ 0xEF then
      match r with
      | b2 :: b3 :: r3 =>
        (if b = 0xE0 then 0xA0 ≤ b2 && b2 ≤ 0xBF
         else if b = 0xED then 0x80 ≤ b2 && b2 ≤ 0x9F
         else 0x80 ≤ b2 && b2 ≤ 0xBF) &&
        (0x80 ≤ b3 && b3 ≤ 0xBF) && goodStr r3
      | _ => false
    else if 0xF0 ≤ b ∧ b ≤ 0xF4 then
      match r with
      | b2 :: b3 :: b4 :: r4 =>
        (if b = 0xF0 then 0x90 ≤ b2 && b2 ≤ 0xBF
         else if b = 0xF4 then 0x80 ≤ b2 && b2 ≤ 0x8F
         else 0x80 ≤ b2 && b2 ≤ 0xBF) &&
        (0x80 ≤ b3 && b3 ≤ 0xBF) && (0x80 ≤ b4 && b4 ≤ 0xBF) && goodStr r4
      | _ => false
    else false

/-- A valid stored number literal: the tokenizer dispatches on it (first
byte `-` or a digit) and accepts it as exactly one number token whose text
is the whole string. All numeric constructors (`setNumStr`, the integer
assignment operators and the finite-double assignment) only ever store such
literals. -/
def goodNum (s : List Nat) : Bool :=
  decide (peek s = 45 ∨ json_isdigit (peek s) = true) && decide (lexNumber s = some (s, []))

mutual
/-- Programmatically constructible values for which the round trip is
claimed: every stored number literal is a valid JSON number token and
every string payload and object key is well-formed UTF-8. -/
def GoodB : UniValue → Bool
  | .vnull | .vfalse | .vtrue => true
  | .vnum s => goodNum s
  | .vstr s => goodStr s
  | .vobj es => GoodEntries es
  | .varr vs => GoodValues vs

/-- All keys are well-formed UTF-8 and all values are good. -/
def GoodEntries : Entries → Bool
  | .nil => true
  | .cons k v r => goodStr k && GoodB v && GoodEntries r

/-- All elements are good. -/
def GoodValues : Values → Bool
  | .nil => true
  | .cons v r => GoodB v && GoodValues r
end

mutual
/-- Container nesting depth of a value: scalars are 0, a container is one
more than the deepest child. -/
def udepth : UniValue → Nat
  | .vnull | .vfalse | .vtrue | .vnum _ | .vstr _ => 0
  | .vobj es => 1 + udepthEntries es
  | .varr vs => 1 + udepthValues vs

/-- Maximum depth over an entry sequence. -/
def udepthEntries : Entries → Nat
  | .nil => 0
  | .cons _ v r => max (udepth v) (udepthEntries r)

/-- Maximum depth over a value sequence. -/
def udepthValues : Values → Nat
  | .nil => 0
  | .cons v r => max (udepth v) (udepthValues r)
end

/-- The canonical nested-array family: `nestA n` is `n + 1` nested arrays
(`nestA 0` = `[]`). -/
def nestA : Nat → UniValue
  | 0 => varr .nil
  | n + 1 => varr (.cons (nestA n) .nil)

/-! ## Equality lemmas (claim C6) -/

mutual
/-- `operator==` coincides with structural identity of the value model. -/
theorem ueq_iff : (a b : UniValue) → (ueq a b = true ↔ a = b)
  | .vnull, b => by cases b <;> simp [ueq]
  | .vfalse, b => by cases b <;> simp [ueq]
  | .vtrue, b => by cases b <;> simp [ueq]
  | .vnum s, b => by cases b <;> simp [ueq]
  | .vstr s, b => by cases b <;> simp [ueq]
  | .vobj es, b => by
    cases b <;> simp [ueq]
    exact ueqEntries_iff es _
  | .varr vs, b => by
    cases b <;> simp [ueq]
    exact ueqValues_iff vs _

/-- Entry-sequence equality coincides with structural identity. -/
theorem ueqEntries_iff : (a b : Entries) → (ueqEntries a b = true ↔ a = b)
  | .nil, b => by cases b <;> simp [ueqEntries]
  | .cons k v r, b => by
    cases b with
    | nil => simp [ueqEntries]
    | cons k' v' r' =>
      simp only [ueqEntries, Bool.and_eq_true, beq_iff_eq, Entries.cons.injEq]
      rw [ueq_iff v v', ueqEntries_iff r r']
      tauto

/-- Value-sequence equality coincides with structural identity. -/
theorem ueqValues_iff : (a b : Values) → (ueqValues a b = true ↔ a = b)
  | .nil, b => by cases b <;> simp [ueqValues]
  | .cons v r, b => by
    cases b with
    | nil => simp [ueqValues]
    | cons v' r' =>
      simp only [ueqValues, Bool.and_eq_true, Values.cons.injEq]
      rw [ueq_iff v v', ueqValues_iff r r']
end

instance : DecidableEq UniValue := fun a b => decidable_of_iff _ (ueq_iff a b)

instance : DecidableEq Entries := fun a b => decidable_of_iff _ (ueqEntries_iff a b)

instance : DecidableEq Values := fun a b => decidable_of_iff _ (ueqValues_iff a b)

/-! ## Generic list lemmas -/

theorem dropWhile_append_all {p : Nat → Bool} {a : List Nat} (b : List Nat)
    (h : ∀ x ∈ a, p x) : (a ++ b).dropWhile p = b.dropWhile p := by
  induction a with
  | nil => rfl
  | cons x xs ih => simp_all [List.dropWhile_cons]

theorem takeWhile_append_all {p : Nat → Bool} {a : List Nat} (b : List Nat)
    (h : ∀ x ∈ a, p x) : (a ++ b).takeWhile p = a ++ b.takeWhile p := by
  induction a with
  | nil => rfl
  | cons x xs ih => simp_all [List.takeWhile_cons]

theorem dropWhile_cons_neg {p : Nat → Bool} {x : Nat} (xs : List Nat) (h : p x = false) :
    (x :: xs).dropWhile p = x :: xs := by simp [List.dropWhile_cons, h]

theorem takeWhile_cons_neg {p : Nat → Bool} {x : Nat} (xs : List Nat) (h : p x = false) :
    (x :: xs).takeWhile p = [] := by simp [List.takeWhile_cons, h]

/-! ## Tokenizer lemmas -/


/-- Shape of a fractional part produced by `lexFrac`. -/
def FracShape (fr : List Nat) : Prop :=
  fr = [] ∨ ∃ ds1, ds1 ≠ [] ∧ (∀ c ∈ ds1, json_isdigit c) ∧ fr = 46 :: ds1

/-- Shape of an exponent part produced by `lexExp`. -/
def ExpShape (ex : List Nat) : Prop :=
  ex = [] ∨ ∃ e sgn ds2, (e = 101 ∨ e = 69) ∧ (sgn = [] ∨ sgn = [43] ∨ sgn = [45]) ∧
    ds2 ≠ [] ∧ (∀ c ∈ ds2, json_isdigit c) ∧ ex = e :: (sgn ++ ds2)

/-- Shape of a whole number token produced by `lexNumber`. -/
def NumShape (tv : List Nat) : Prop :=
  ∃ m ds fr ex, tv = m ++ ds ++ fr ++ ex ∧ (m = [] ∨ m = [45]) ∧
    ds ≠ [] ∧ (∀ c ∈ ds, json_isdigit c) ∧ (peek ds = 48 → ds.length = 1) ∧
    FracShape fr ∧ ExpShape ex

theorem dropWhile_head_false {p : Nat → Bool} {l : List Nat} {c : Nat} {r : List Nat}
    (h : l.dropWhile p = c :: r) : p c = false := by
  induction l with
  | nil => simp at h
  | cons x xs ih =>
    rw [List.dropWhile_cons] at h
    by_cases hx : p x
    · exact ih (by simpa [hx] using h)
    · simp only [hx, if_false] at h
      cases h
      simpa using hx

theorem lexFrac_struct {l fr r : List Nat} (h : lexFrac l = some (fr, r)) :
    FracShape fr ∧ fr ++ r = l := by
  unfold lexFrac at h
  by_cases hdot : peek l = 46
  · simp only [if_pos hdot] at h
    by_cases hds : l.tail.takeWhile json_isdigit = []
    · simp [hds] at h
    · simp only [if_neg hds, Option.some.injEq, Prod.mk.injEq] at h
      obtain ⟨rfl, rfl⟩ := h
      refine ⟨Or.inr ⟨_, hds, fun c hc => List.mem_takeWhile_imp hc, rfl⟩, ?_⟩
      match l with
      | [] => simp [peek] at hdot
      | c :: l' =>
        simp only [peek, List.headD_cons] at hdot
        subst hdot
        simp [List.takeWhile_append_dropWhile]
  · simp only [if_neg hdot, Option.some.injEq, Prod.mk.injEq] at h
    obtain ⟨rfl, rfl⟩ := h
    exact ⟨Or.inl rfl, rfl⟩

theorem lexExp_struct {l ex r : List Nat} (h : lexExp l = some (ex, r)) :
    ExpShape ex ∧ ex ++ r = l := by
  unfold lexExp at h
  by_cases he : peek l = 101 ∨ peek l = 69
  · simp only [if_pos he] at h
    by_cases hsgn : peek l.tail = 43 ∨ peek l.tail = 45
    · simp only [if_pos hsgn] at h
      by_cases hds : l.tail.tail.takeWhile json_isdigit = []
      · simp [hds] at h
      · simp only [if_neg hds, Option.some.injEq, Prod.mk.injEq] at h
        obtain ⟨rfl, rfl⟩ := h
        refine ⟨Or.inr ⟨peek l, [peek l.tail], _, he, by rcases hsgn with h | h <;> simp [h],
          hds, fun c hc => List.mem_takeWhile_imp hc, rfl⟩, ?_⟩
        match l with
        | [] => simp [peek] at he
        | c :: l' =>
          match l' with
          | [] => simp [peek] at hsgn
          | c2 :: l'' =>
            simp only [List.tail_cons, peek, List.headD_cons] at *
            simp [List.takeWhile_append_dropWhile]
    · simp only [if_neg hsgn] at h
      by_cases hds : l.tail.takeWhile json_isdigit = []
      · simp [hds] at h
      · simp only [if_neg hds, Option.some.injEq, Prod.mk.injEq] at h
        obtain ⟨rfl, rfl⟩ := h
        refine ⟨Or.inr ⟨peek l, [], _, he, Or.inl rfl,
          hds, fun c hc => List.mem_takeWhile_imp hc, rfl⟩, ?_⟩
        match l with
        | [] => simp [peek] at he
        | c :: l' =>
          simp only [List.tail_cons, peek, List.headD_cons] at *
          simp [List.takeWhile_append_dropWhile]
  · simp only [if_neg he, Option.some.injEq, Prod.mk.injEq] at h
    obtain ⟨rfl, rfl⟩ := h
    exact ⟨Or.inl rfl, rfl⟩

theorem takeWhile_head_digit {l : List Nat} (h : l.takeWhile json_isdigit ≠ []) :
    peek (l.takeWhile json_isdigit) = peek l ∧ json_isdigit (peek l) := by
  match l with
  | [] => simp at h
  | c :: r =>
    rw [List.takeWhile_cons] at *
    by_cases hc : json_isdigit c
    · simp [hc, peek]
    · simp [hc] at h

theorem lexNumber_struct {l tv r : List Nat}
    (hhead : peek l = 45 ∨ json_isdigit (peek l))
    (h : lexNumber l = some (tv, r)) :
    NumShape tv ∧ tv ++ r = l := by
  unfold lexNumber at h
  by_cases hm : peek l = 45
  · simp only [hm, if_pos rfl, if_true] at h
    by_cases hz : peek l.tail = 48 ∧ json_isdigit (peek l.tail.tail)
    · simp [hz] at h
    · rw [if_neg hz] at h
      by_cases hds : l.tail.takeWhile json_isdigit = []
      · simp [hds] at h
      · rw [if_neg (by simp [hds])] at h
        cases hfr : lexFrac (l.tail.dropWhile json_isdigit) with
        | none => rw [hfr] at h; exact absurd h (by simp)
        | some p =>
          obtain ⟨fr, l2⟩ := p
          rw [hfr] at h
          dsimp only at h
          cases hex : lexExp l2 with
          | none => rw [hex] at h; exact absurd h (by simp)
          | some q =>
            obtain ⟨ex, l3⟩ := q
            rw [hex] at h
            dsimp only at h
            simp only [Option.some.injEq, Prod.mk.injEq] at h
            obtain ⟨rfl, rfl⟩ := h
            obtain ⟨hfrS, hfrV⟩ := lexFrac_struct hfr
            obtain ⟨hexS, hexV⟩ := lexExp_struct hex
            constructor
            · refine ⟨[45], _, fr, ex, by simp, Or.inr rfl, hds,
                fun c hc => List.mem_takeWhile_imp hc, ?_, hfrS, hexS⟩
              intro h48
              obtain ⟨hpk, _⟩ := takeWhile_head_digit hds
              match hdd : l.tail.takeWhile json_isdigit with
              | [] => exact absurd hdd hds
              | [d] => rfl
              | d1 :: d2 :: ds' =>
                exfalso
                rw [hdd] at h48 hpk
                simp only [peek, List.headD_cons] at h48 hpk
                have hsplit : l.tail = (d1 :: d2 :: ds') ++ l.tail.dropWhile json_isdigit := by
                  conv_lhs => rw [← List.takeWhile_append_dropWhile (p := json_isdigit) (l := l.tail)]
                  rw [hdd]
                have hd2 : json_isdigit d2 := by
                  have : d2 ∈ l.tail.takeWhile json_isdigit := by rw [hdd]; simp
                  exact List.mem_takeWhile_imp this
                apply hz
                constructor
                · simp only [peek]; rw [← hpk]; exact h48
                · rw [hsplit]; simpa [peek] using hd2
            · have hl : l = 45 :: l.tail := by
                match l with
                | [] => simp [peek] at hm
                | c :: l' =>
                  simp only [peek, List.headD_cons] at hm
                  rw [hm]
                  rfl
              conv_rhs => rw [hl]
              simp only [List.cons_append, List.singleton_append, List.append_assoc,
                List.nil_append]
              congr 1
              rw [hexV, hfrV, List.takeWhile_append_dropWhile]
  · have hd : json_isdigit (peek l) := hhead.resolve_left hm
    simp only [hm, if_false, if_neg (by simp [hm] : ¬ (peek l = 45))] at h
    by_cases hz : peek l = 48 ∧ json_isdigit (peek l.tail)
    · simp [hz] at h
    · rw [if_neg hz] at h
      rw [if_neg (by simp)] at h
      cases hfr : lexFrac (l.dropWhile json_isdigit) with
      | none => rw [hfr] at h; exact absurd h (by simp)
      | some p =>
        obtain ⟨fr, l2⟩ := p
        rw [hfr] at h
        dsimp only at h
        cases hex : lexExp l2 with
        | none => rw [hex] at h; exact absurd h (by simp)
        | some q =>
          obtain ⟨ex, l3⟩ := q
          rw [hex] at h
          dsimp only at h
          simp only [Option.some.injEq, Prod.mk.injEq] at h
          obtain ⟨rfl, rfl⟩ := h
          obtain ⟨hfrS, hfrV⟩ := lexFrac_struct hfr
          obtain ⟨hexS, hexV⟩ := lexExp_struct hex
          have hds : l.takeWhile json_isdigit ≠ [] := by
            match l with
            | [] => simp [json_isdigit, peek] at hd
            | c :: r =>
              simp only [peek, List.headD_cons] at hd
              simp [List.takeWhile_cons, hd]
          constructor
          · refine ⟨[], _, fr, ex, by simp, Or.inl rfl, hds,
              fun c hc => List.mem_takeWhile_imp hc, ?_, hfrS, hexS⟩
            intro h48
            obtain ⟨hpk, _⟩ := takeWhile_head_digit hds
            match hdd : l.takeWhile json_isdigit with
            | [] => exact absurd hdd hds
            | [d] => rfl
            | d1 :: d2 :: ds' =>
              exfalso
              rw [hdd] at h48 hpk
              simp only [peek, List.headD_cons] at h48 hpk
              have hsplit : l = (d1 :: d2 :: ds') ++ l.dropWhile json_isdigit := by
                conv_lhs => rw [← List.takeWhile_append_dropWhile (p := json_isdigit) (l := l)]
                rw [hdd]
              have hd2 : json_isdigit d2 := by
                have : d2 ∈ l.takeWhile json_isdigit := by rw [hdd]; simp
                exact List.mem_takeWhile_imp this
              apply hz
              constructor
              · simp only [peek]; rw [← hpk]; exact h48
              · rw [hsplit]; simpa [peek] using hd2
          · simp only [List.nil_append, List.append_assoc]
            rw [hexV, hfrV, List.takeWhile_append_dropWhile]

theorem peek_cons (c : Nat) (l : List Nat) : peek (c :: l) = c := rfl

theorem takeWhile_nil_of_peek {rest : List Nat} (h : json_isdigit (peek rest) = false) :
    rest.takeWhile json_isdigit = [] ∧ rest.dropWhile json_isdigit = rest := by
  match rest with
  | [] => exact ⟨rfl, rfl⟩
  | c :: r => simp_all [peek, List.takeWhile_cons, List.dropWhile_cons]

theorem lexFrac_build {fr rest : List Nat} (hs : FracShape fr)
    (h1 : json_isdigit (peek rest) = false) (h2 : peek rest ≠ 46) :
    lexFrac (fr ++ rest) = some (fr, rest) := by
  obtain ⟨htw, hdw⟩ := takeWhile_nil_of_peek h1
  rcases hs with rfl | ⟨ds1, hne, hdig, rfl⟩
  · simp [lexFrac, h2]
  · unfold lexFrac
    rw [List.cons_append]
    simp only [peek_cons, if_pos rfl, List.tail_cons]
    rw [takeWhile_append_all rest hdig, htw, List.append_nil,
      dropWhile_append_all rest hdig, hdw]
    simp [hne]

theorem lexExp_build {ex rest : List Nat} (hs : ExpShape ex)
    (h1 : json_isdigit (peek rest) = false)
    (h2 : peek rest ≠ 101) (h3 : peek rest ≠ 69) :
    lexExp (ex ++ rest) = some (ex, rest) := by
  obtain ⟨htw, hdw⟩ := takeWhile_nil_of_peek h1
  rcases hs with rfl | ⟨e, sgn, ds2, he, hsgn, hne, hdig, rfl⟩
  · unfold lexExp
    rw [if_neg]
    · rfl
    · simp only [List.nil_append]
      rintro (h | h) <;> [exact h2 h; exact h3 h]
  · unfold lexExp
    rw [List.cons_append]
    simp only [peek_cons, List.tail_cons]
    rw [if_pos he]
    rcases hsgn with rfl | rfl | rfl
    · simp only [List.nil_append]
      have hd0 : json_isdigit (peek (ds2 ++ rest)) = true := by
        match ds2, hne with
        | d :: _, _ => simpa [peek_cons] using hdig d (by simp)
      have hcond : ¬(peek (ds2 ++ rest) = 43 ∨ peek (ds2 ++ rest) = 45) := by
        simp only [json_isdigit, Bool.and_eq_true, decide_eq_true_eq] at hd0
        omega
      rw [if_neg hcond]
      dsimp only
      rw [takeWhile_append_all rest hdig, htw, List.append_nil,
        dropWhile_append_all rest hdig, hdw]
      simp [hne]
    · simp only [List.cons_append, List.nil_append, peek_cons, List.tail_cons]
      simp only [true_or, if_true]
      rw [takeWhile_append_all rest hdig, htw, List.append_nil,
        dropWhile_append_all rest hdig, hdw]
      simp [hne]
    · simp only [List.cons_append, List.nil_append, peek_cons, List.tail_cons]
      simp only [or_true, if_true]
      rw [takeWhile_append_all rest hdig, htw, List.append_nil,
        dropWhile_append_all rest hdig, hdw]
      simp [hne]

theorem lexNumber_build {tv rest : List Nat} (hs : NumShape tv)
    (h1 : json_isdigit (peek rest) = false) (h2 : peek rest ≠ 46)
    (h3 : peek rest ≠ 101) (h4 : peek rest ≠ 69) :
    lexNumber (tv ++ rest) = some (tv, rest) := by
  obtain ⟨m, ds, fr, ex, rfl, hm, hdsne, hdsdig, hz1, hfrS, hexS⟩ := hs
  have hB1 : json_isdigit (peek (ex ++ rest)) = false := by
    rcases hexS with rfl | ⟨e, sgn, ds2, he, _, _, _, rfl⟩
    · simpa using h1
    · rcases he with rfl | rfl <;> simp [peek_cons, json_isdigit]
  have hB2 : peek (ex ++ rest) ≠ 46 := by
    rcases hexS with rfl | ⟨e, sgn, ds2, he, _, _, _, rfl⟩
    · simpa using h2
    · rcases he with rfl | rfl <;> simp [peek_cons]
  have hA1 : json_isdigit (peek (fr ++ (ex ++ rest))) = false := by
    rcases hfrS with rfl | ⟨ds1, _, _, rfl⟩
    · simpa using hB1
    · simp [peek_cons, json_isdigit]
  have hfrac : lexFrac (fr ++ (ex ++ rest)) = some (fr, ex ++ rest) :=
    lexFrac_build hfrS hB1 hB2
  have hexp : lexExp (ex ++ rest) = some (ex, rest) :=
    lexExp_build hexS h1 h3 h4
  obtain ⟨htwA, hdwA⟩ := takeWhile_nil_of_peek hA1
  have htake : List.takeWhile json_isdigit (ds ++ (fr ++ (ex ++ rest))) = ds := by
    rw [takeWhile_append_all _ hdsdig, htwA, List.append_nil]
  have hdrop : List.dropWhile json_isdigit (ds ++ (fr ++ (ex ++ rest))) = fr ++ (ex ++ rest) := by
    rw [dropWhile_append_all _ hdsdig, hdwA]
  have hzc : ¬(peek (ds ++ (fr ++ (ex ++ rest))) = 48 ∧
      json_isdigit (peek (ds ++ (fr ++ (ex ++ rest))).tail) = true) := by
    rintro ⟨hp48, hpd⟩
    match ds, hdsne with
    | d :: ds', _ =>
      simp only [List.cons_append, peek_cons] at hp48
      subst hp48
      have := hz1 rfl
      match ds' with
      | [] => simp_all
      | e :: es => simp at this
  rcases hm with rfl | rfl
  · have hpk : json_isdigit (peek ((ds ++ (fr ++ ex)) ++ rest)) = true := by
      match ds, hdsne with
      | d :: ds', _ => simpa [peek_cons] using hdsdig d (by simp)
    have hnm : ¬ peek ((ds ++ (fr ++ ex)) ++ rest) = 45 := by
      simp only [json_isdigit, Bool.and_eq_true, decide_eq_true_eq] at hpk
      omega
    unfold lexNumber
    simp only [List.nil_append, List.append_assoc] at *
    rw [if_neg hnm]
    simp only [if_neg hnm, if_neg hzc, htake, hdrop, hfrac, hexp]
    simp [hdsne]
  · have h45 : ([45] ++ (ds ++ (fr ++ ex))) ++ rest = 45 :: (ds ++ (fr ++ (ex ++ rest))) := by
      simp
    unfold lexNumber
    simp only [List.append_assoc] at *
    rw [h45]
    simp only [peek_cons, List.tail_cons]
    simp only [if_true, true_and, if_neg hzc, htake, hdrop, if_neg hdsne, hfrac, hexp]

/-- One-step unfolding of `fastPath`. -/
theorem fastPath_cons (c : Nat) (r : List Nat) :
    fastPath (c :: r) =
      (if c = 0 then (2, [], c :: r)
      else if c = 34 then (0, [], c :: r)
      else if c = 92 then (1, [], c :: r)
      else if c < 0x20 then (2, [], c :: r)
      else if 0x80 ≤ c then (1, [], c :: r)
      else
        let (st, pre, rest) := fastPath r
        (st, c :: pre, rest)) := rfl

/-- The fast-path prefix plus the unconsumed rest reconstitute the input. -/
theorem fastPath_split (l : List Nat) : (fastPath l).2.1 ++ (fastPath l).2.2 = l := by
  induction l with
  | nil => rfl
  | cons c r ih =>
    rw [fastPath_cons]
    by_cases h0 : c = 0
    · simp [h0]
    rw [if_neg h0]
    by_cases h34 : c = 34
    · simp [h34]
    rw [if_neg h34]
    by_cases h92 : c = 92
    · simp [h92]
    rw [if_neg h92]
    by_cases hlt : c < 0x20
    · simp [hlt]
    rw [if_neg hlt]
    by_cases hge : 0x80 ≤ c
    · simp [hge]
    rw [if_neg hge]
    match hfp : fastPath r with
    | (st, pre, rest) =>
      rw [hfp] at ih
      dsimp only at ih ⊢
      rw [List.cons_append, ih]

/-- A successful slow-path scan never leaves more than it was given. -/
theorem slowStringF_rest_le : ∀ (fuel : Nat) (f : JSONUTF8StringFilter) (l tv rest : List Nat),
    slowStringF fuel f l = some (tv, rest) → rest.length ≤ l.length := by
  intro fuel
  induction fuel with
  | zero => intro f l tv rest h; exact Option.noConfusion h
  | succ n ih =>
    intro f l tv rest h
    match l with
    | [] => exact Option.noConfusion h
    | c :: r =>
      rw [slowStringF_succ] at h
      by_cases hc1 : c < 0x20
      · rw [if_pos hc1] at h; exact Option.noConfusion h
      rw [if_neg hc1] at h
      by_cases hc2 : c = 92
      · rw [if_pos hc2] at h
        match r with
        | [] => exact Option.noConfusion h
        | e :: r2 =>
          dsimp only at h
          have hle : ∀ f', slowStringF n f' r2 = some (tv, rest) →
              rest.length ≤ (c :: e :: r2).length := fun f' hh =>
            le_trans (ih f' r2 tv rest hh) (by simp only [List.length_cons]; omega)
          by_cases he1 : e = 34
          · rw [if_pos he1] at h; exact hle _ h
          rw [if_neg he1] at h
          by_cases he2 : e = 92
          · rw [if_pos he2] at h; exact hle _ h
          rw [if_neg he2] at h
          by_cases he3 : e = 47
          · rw [if_pos he3] at h; exact hle _ h
          rw [if_neg he3] at h
          by_cases he4 : e = 98
          · rw [if_pos he4] at h; exact hle _ h
          rw [if_neg he4] at h
          by_cases he5 : e = 102
          · rw [if_pos he5] at h; exact hle _ h
          rw [if_neg he5] at h
          by_cases he6 : e = 110
          · rw [if_pos he6] at h; exact hle _ h
          rw [if_neg he6] at h
          by_cases he7 : e = 114
          · rw [if_pos he7] at h; exact hle _ h
          rw [if_neg he7] at h
          by_cases he8 : e = 116
          · rw [if_pos he8] at h; exact hle _ h
          rw [if_neg he8] at h
          by_cases he9 : e = 117
          · rw [if_pos he9] at h
            match hv : hatoui r2 with
            | some (cp, r3) =>
              rw [hv] at h
              dsimp only at h
              have h4 := hatoui_length hv
              have := ih (f.push_back_u cp) r3 tv rest h
              simp only [List.length_cons]
              omega
            | none => rw [hv] at h; dsimp only at h; exact Option.noConfusion h
          · rw [if_neg he9] at h; exact Option.noConfusion h
      rw [if_neg hc2] at h
      by_cases hc3 : c = 34
      · rw [if_pos hc3] at h
        by_cases hfin : f.finalize
        · rw [if_pos hfin] at h
          simp only [Option.some.injEq, Prod.mk.injEq] at h
          obtain ⟨rfl, rfl⟩ := h
          simp
        · rw [if_neg hfin] at h; exact Option.noConfusion h
      rw [if_neg hc3] at h
      have := ih (f.push_back c) r tv rest h
      simp only [List.length_cons]
      omega

theorem length_dropWhile_le (l : List Nat) (p : Nat → Bool) :
    (l.dropWhile p).length ≤ l.length := by
  induction l with
  | nil => simp
  | cons x xs ih => rw [List.dropWhile_cons]; split <;> simp <;> omega

theorem length_tail_le (l : List Nat) : l.tail.length ≤ l.length := by
  cases l <;> simp

/-- Every real token (not end-of-input, not an error) consumes at least one
byte from the post-whitespace cursor. -/
theorem tokenCore_rest_lt (l : List Nat)
    (h1 : (tokenCore l).tok ≠ tEOF) (h2 : (tokenCore l).tok ≠ tErr) :
    (tokenCore l).rest.length < l.length := by
  unfold tokenCore at *
  match l with
  | [] => exact absurd rfl h1
  | c :: r =>
    dsimp only at h1 h2 ⊢
    by_cases hc0 : c = 0
    · rw [if_pos hc0] at h1; exact absurd rfl h1
    rw [if_neg hc0] at h1 h2 ⊢
    by_cases hc1 : c = 123
    · rw [if_pos hc1]; simp
    rw [if_neg hc1] at h1 h2 ⊢
    by_cases hc2 : c = 125
    · rw [if_pos hc2]; simp
    rw [if_neg hc2] at h1 h2 ⊢
    by_cases hc3 : c = 91
    · rw [if_pos hc3]; simp
    rw [if_neg hc3] at h1 h2 ⊢
    by_cases hc4 : c = 93
    · rw [if_pos hc4]; simp
    rw [if_neg hc4] at h1 h2 ⊢
    by_cases hc5 : c = 58
    · rw [if_pos hc5]; simp
    rw [if_neg hc5] at h1 h2 ⊢
    by_cases hc6 : c = 44
    · rw [if_pos hc6]; simp
    rw [if_neg hc6] at h1 h2 ⊢
    by_cases hc7 : c = 110
    · rw [if_pos hc7] at h2 ⊢
      split
      · simp only [TokRes.rest, List.length_cons]
        have t1 := length_tail_le r.tail.tail
        have t2 := length_tail_le r.tail
        have t3 := length_tail_le r
        omega
      · rw [if_neg (by assumption)] at h2; exact absurd rfl h2
    rw [if_neg hc7] at h1 h2 ⊢
    by_cases hc8 : c = 116
    · rw [if_pos hc8] at h2 ⊢
      split
      · simp only [TokRes.rest, List.length_cons]
        have t1 := length_tail_le r.tail.tail
        have t2 := length_tail_le r.tail
        have t3 := length_tail_le r
        omega
      · rw [if_neg (by assumption)] at h2; exact absurd rfl h2
    rw [if_neg hc8] at h1 h2 ⊢
    by_cases hc9 : c = 102
    · rw [if_pos hc9] at h2 ⊢
      split
      · simp only [TokRes.rest, List.length_cons]
        have t0 := length_tail_le r.tail.tail.tail
        have t1 := length_tail_le r.tail.tail
        have t2 := length_tail_le r.tail
        have t3 := length_tail_le r
        omega
      · rw [if_neg (by assumption)] at h2; exact absurd rfl h2
    rw [if_neg hc9] at h1 h2 ⊢
    by_cases hcn : c = 45 ∨ json_isdigit c
    · rw [if_pos hcn] at h2 ⊢
      match hn : lexNumber (c :: r) with
      | some (tv, rest) =>
        have hhead : peek (c :: r) = 45 ∨ json_isdigit (peek (c :: r)) := by
          simpa [peek_cons] using hcn
        obtain ⟨⟨m, ds, fr, ex, htv, _, hdsne, _, _, _, _⟩, hver⟩ :=
          lexNumber_struct hhead hn
        dsimp only
        simp only [List.length_cons]
        have htvne : tv ≠ [] := by
          rw [htv]; simp [hdsne]
        have hlen : tv.length + rest.length = r.length + 1 := by
          have := congrArg List.length hver
          simpa using this
        have := List.length_pos.mpr htvne
        omega
      | none => rw [hn] at h2; dsimp only at h2; exact absurd rfl h2
    rw [if_neg hcn] at h1 h2 ⊢
    by_cases hcs : c = 34
    · rw [if_pos hcs] at h2 ⊢
      match hfp : fastPath r with
      | (0, pre, rest) =>
        dsimp only
        simp only [List.length_cons]
        have hsplit := fastPath_split r
        rw [hfp] at hsplit
        dsimp only at hsplit
        have := congrArg List.length hsplit
        simp only [List.length_append] at this
        have := length_tail_le rest
        omega
      | (1, pre, rest) =>
        rw [hfp] at h2
        dsimp only at h2
        match hss : slowString (JSONUTF8StringFilter.init pre) rest with
        | some (tv, rest') =>
          simp only [hss, List.length_cons, TokRes.rest]
          have hb := slowStringF_rest_le _ _ _ _ _ hss
          have hsplit := fastPath_split r
          rw [hfp] at hsplit
          dsimp only at hsplit
          have := congrArg List.length hsplit
          simp only [List.length_append] at this
          omega
        | none => rw [hss] at h2; exact absurd rfl h2
      | (n + 2, pre, rest) => rw [hfp] at h2; exact absurd rfl h2
    rw [if_neg hcs] at h2
    exact absurd rfl h2

/-- Every real token consumes at least one byte of the buffer. -/
theorem getJsonToken_rest_lt (buffer : List Nat)
    (h1 : (getJsonToken buffer).tok ≠ tEOF) (h2 : (getJsonToken buffer).tok ≠ tErr) :
    (getJsonToken buffer).rest.length < buffer.length := by
  unfold getJsonToken at *
  have := tokenCore_rest_lt _ h1 h2
  have := length_dropWhile_le buffer json_isspace
  omega

/-- Fuel irrelevance for the parser loop: any fuel above the buffer length
computes the same result (each iteration consumes at least one byte). -/
theorem parseLoopF_enough {fuel₁ fuel₂ : Nat} (buffer : List Nat) (st : LState) (lt : Jtok)
    (h₁ : buffer.length < fuel₁) (h₂ : buffer.length < fuel₂) :
    parseLoopF fuel₁ buffer st lt = parseLoopF fuel₂ buffer st lt := by
  induction fuel₁ generalizing fuel₂ buffer st lt with
  | zero => omega
  | succ n ih =>
    match fuel₂ with
    | 0 => omega
    | m + 1 =>
      show (let tr := getJsonToken buffer
        if tr.tok = tEOF ∨ tr.tok = tErr then none
        else
          match procToken st tr.tok tr.val lt with
          | none => none
          | some st' =>
            match st'.stack with
            | [] => some (st'.root, tr.rest)
            | _ :: _ => parseLoopF n tr.rest st' tr.tok) =
        (let tr := getJsonToken buffer
        if tr.tok = tEOF ∨ tr.tok = tErr then none
        else
          match procToken st tr.tok tr.val lt with
          | none => none
          | some st' =>
            match st'.stack with
            | [] => some (st'.root, tr.rest)
            | _ :: _ => parseLoopF m tr.rest st' tr.tok)
      by_cases he : (getJsonToken buffer).tok = tEOF ∨ (getJsonToken buffer).tok = tErr
      · simp only [if_pos he]
      · simp only [if_neg he]
        push_neg at he
        have hlt := getJsonToken_rest_lt buffer he.1 he.2
        match hpt : procToken st (getJsonToken buffer).tok (getJsonToken buffer).val lt with
        | none => simp only [hpt]
        | some st' =>
          simp only [hpt]
          match hst : st'.stack with
          | [] => simp only [hst]
          | f :: fs => simp only [hst]; exact ih _ _ _ (by omega) (by omega)

/-- A number token text followed by a byte that cannot extend a number
(not a digit, `.`, `e`, `E`) tokenizes to exactly that number token. -/
theorem tokenCore_number {tv rest : List Nat} (hs : NumShape tv)
    (h1 : json_isdigit (peek rest) = false) (h2 : peek rest ≠ 46)
    (h3 : peek rest ≠ 101) (h4 : peek rest ≠ 69) :
    tokenCore (tv ++ rest) = ⟨tNumber, tv, rest⟩ := by
  have hb := lexNumber_build hs h1 h2 h3 h4
  obtain ⟨m, ds, fr, ex, htv, hm, hdsne, hdig, _, _, _⟩ := hs
  subst htv
  rcases hm with rfl | rfl
  · match ds, hdsne with
    | d :: ds', _ =>
      have hd : json_isdigit d := hdig d (by simp)
      have hdb : 48 ≤ d ∧ d ≤ 57 := by
        simpa [json_isdigit] using hd
      simp only [List.nil_append, List.cons_append, List.append_assoc] at hb ⊢
      unfold tokenCore
      dsimp only
      rw [if_neg (show d ≠ 0 by omega), if_neg (show d ≠ 123 by omega),
        if_neg (show d ≠ 125 by omega), if_neg (show d ≠ 91 by omega),
        if_neg (show d ≠ 93 by omega), if_neg (show d ≠ 58 by omega),
        if_neg (show d ≠ 44 by omega), if_neg (show d ≠ 110 by omega),
        if_neg (show d ≠ 116 by omega), if_neg (show d ≠ 102 by omega),
        if_pos (Or.inr hd), hb]
  · match ds, hdsne with
    | d :: ds', _ =>
      simp only [List.cons_append, List.nil_append, List.append_assoc] at hb ⊢
      unfold tokenCore
      dsimp only
      rw [if_neg (show (45:Nat) ≠ 0 by decide), if_neg (show (45:Nat) ≠ 123 by decide),
        if_neg (show (45:Nat) ≠ 125 by decide), if_neg (show (45:Nat) ≠ 91 by decide),
        if_neg (show (45:Nat) ≠ 93 by decide), if_neg (show (45:Nat) ≠ 58 by decide),
        if_neg (show (45:Nat) ≠ 44 by decide), if_neg (show (45:Nat) ≠ 110 by decide),
        if_neg (show (45:Nat) ≠ 116 by decide), if_neg (show (45:Nat) ≠ 102 by decide),
        if_pos (Or.inl rfl), hb]

/-! ## UTF-8 byte-level bridging facts -/

set_option maxRecDepth 40000

theorem byteFact_cont : ∀ b < 192, 128 ≤ b → (b &&& 0xc0 = 0x80 ∧ b &&& 0x3f = b - 128) := by decide

theorem byteFact_lead2 : ∀ b < 224, 194 ≤ b → b &&& 0x1f = b - 192 := by decide

theorem byteFact_lead3 : ∀ b < 240, 224 ≤ b → b &&& 0x0f = b - 224 := by decide

theorem byteFact_lead4 : ∀ b < 248, 240 ≤ b → b &&& 0x07 = b - 240 := by decide

theorem or_pow_add {k a b : Nat} (h : b < 2 ^ k) : (2 ^ k * a) ||| b = 2 ^ k * a + b :=
  (Nat.mul_add_lt_is_or h a).symm

theorem utf2_bits {b1 b2 : Nat} (h1 : 0xC2 ≤ b1) (h2 : b1 ≤ 0xDF)
    (h3 : 0x80 ≤ b2) (h4 : b2 ≤ 0xBF) :
    b2 &&& 0xc0 = 0x80 ∧
    (((b1 &&& 0x1f) <<< 6) ||| ((b2 &&& 0x3f) <<< 0)) = 64 * (b1 - 192) + (b2 - 128) ∧
    (0x80 ≤ 64 * (b1 - 192) + (b2 - 128) ∧ 64 * (b1 - 192) + (b2 - 128) ≤ 0x7FF) ∧
    0xC0 ||| ((64 * (b1 - 192) + (b2 - 128)) >>> 6) = b1 ∧
    0x80 ||| ((64 * (b1 - 192) + (b2 - 128)) &&& 0x3F) = b2 := by
  obtain ⟨hc, hv⟩ := byteFact_cont b2 (by omega) (by omega)
  have hl := byteFact_lead2 b1 (by omega) (by omega)
  refine ⟨hc, ?_, by omega, ?_, ?_⟩
  · rw [hl, hv, Nat.shiftLeft_eq, Nat.shiftLeft_eq]
    have : (b1 - 192) * 2 ^ 6 = 2 ^ 6 * (b1 - 192) := Nat.mul_comm _ _
    rw [this, Nat.pow_zero, Nat.mul_one, or_pow_add (by omega)]
    omega
  · rw [Nat.shiftRight_eq_div_pow]
    have hdiv : (64 * (b1 - 192) + (b2 - 128)) / 2 ^ 6 = b1 - 192 := by omega
    rw [hdiv, show (0xC0 : Nat) = 2 ^ 6 * 3 from rfl, or_pow_add (by omega)]
    omega
  · rw [Nat.and_pow_two_sub_one_eq_mod (64 * (b1 - 192) + (b2 - 128)) 6]
    have hmod : (64 * (b1 - 192) + (b2 - 128)) % 2 ^ 6 = b2 - 128 := by omega
    rw [hmod, show (0x80 : Nat) = 2 ^ 7 * 1 from rfl, or_pow_add (by omega)]
    omega

theorem utf3_bits {b1 b2 b3 : Nat} (h1 : 0xE0 ≤ b1) (h2 : b1 ≤ 0xEF)
    (h3 : 0x80 ≤ b2) (h4 : b2 ≤ 0xBF) (h5 : 0x80 ≤ b3) (h6 : b3 ≤ 0xBF)
    (h7 : b1 = 0xE0 → 0xA0 ≤ b2) (h8 : b1 = 0xED → b2 ≤ 0x9F) :
    b2 &&& 0xc0 = 0x80 ∧ b3 &&& 0xc0 = 0x80 ∧
    ((((b1 &&& 0x0f) <<< 12) ||| ((b2 &&& 0x3f) <<< 6)) ||| ((b3 &&& 0x3f) <<< 0)) =
      4096 * (b1 - 224) + 64 * (b2 - 128) + (b3 - 128) ∧
    (0x800 ≤ 4096 * (b1 - 224) + 64 * (b2 - 128) + (b3 - 128) ∧
      4096 * (b1 - 224) + 64 * (b2 - 128) + (b3 - 128) ≤ 0xFFFF) ∧
    ¬(0xD800 ≤ 4096 * (b1 - 224) + 64 * (b2 - 128) + (b3 - 128) ∧
      4096 * (b1 - 224) + 64 * (b2 - 128) + (b3 - 128) < 0xE000) ∧
    0xE0 ||| ((4096 * (b1 - 224) + 64 * (b2 - 128) + (b3 - 128)) >>> 12) = b1 ∧
    0x80 ||| (((4096 * (b1 - 224) + 64 * (b2 - 128) + (b3 - 128)) >>> 6) &&& 0x3F) = b2 ∧
    0x80 ||| ((4096 * (b1 - 224) + 64 * (b2 - 128) + (b3 - 128)) &&& 0x3F) = b3 := by
  obtain ⟨hc2, hv2⟩ := byteFact_cont b2 (by omega) (by omega)
  obtain ⟨hc3, hv3⟩ := byteFact_cont b3 (by omega) (by omega)
  have hl := byteFact_lead3 b1 (by omega) (by omega)
  set cp := 4096 * (b1 - 224) + 64 * (b2 - 128) + (b3 - 128) with hcp
  refine ⟨hc2, hc3, ?_, by omega, by omega, ?_, ?_, ?_⟩
  · rw [hl, hv2, hv3, Nat.shiftLeft_eq, Nat.shiftLeft_eq, Nat.shiftLeft_eq]
    rw [show (b1 - 224) * 2 ^ 12 = 2 ^ 12 * (b1 - 224) from Nat.mul_comm _ _]
    rw [show (b2 - 128) * 2 ^ 6 = 2 ^ 6 * (b2 - 128) from Nat.mul_comm _ _]
    rw [Nat.pow_zero, Nat.mul_one]
    rw [or_pow_add (show 2 ^ 6 * (b2 - 128) < 2 ^ 12 by omega)]
    rw [show 2 ^ 12 * (b1 - 224) + 2 ^ 6 * (b2 - 128) =
      2 ^ 6 * (64 * (b1 - 224) + (b2 - 128)) by ring]
    rw [or_pow_add (show b3 - 128 < 2 ^ 6 by omega)]
    omega
  · rw [Nat.shiftRight_eq_div_pow]
    rw [show cp / 2 ^ 12 = b1 - 224 by omega]
    rw [show (0xE0 : Nat) = 2 ^ 5 * 7 from rfl, or_pow_add (by omega)]
    omega
  · rw [Nat.shiftRight_eq_div_pow, Nat.and_pow_two_sub_one_eq_mod (cp / 2 ^ 6) 6]
    rw [show cp / 2 ^ 6 % 2 ^ 6 = b2 - 128 by omega]
    rw [show (0x80 : Nat) = 2 ^ 7 * 1 from rfl, or_pow_add (by omega)]
    omega
  · rw [Nat.and_pow_two_sub_one_eq_mod cp 6]
    rw [show cp % 2 ^ 6 = b3 - 128 by omega]
    rw [show (0x80 : Nat) = 2 ^ 7 * 1 from rfl, or_pow_add (by omega)]
    omega

theorem utf4_bits {b1 b2 b3 b4 : Nat} (h1 : 0xF0 ≤ b1) (h2 : b1 ≤ 0xF4)
    (h3 : 0x80 ≤ b2) (h4 : b2 ≤ 0xBF) (h5 : 0x80 ≤ b3) (h6 : b3 ≤ 0xBF)
    (h7 : 0x80 ≤ b4) (h8 : b4 ≤ 0xBF)
    (h9 : b1 = 0xF0 → 0x90 ≤ b2) (h10 : b1 = 0xF4 → b2 ≤ 0x8F) :
    b2 &&& 0xc0 = 0x80 ∧ b3 &&& 0xc0 = 0x80 ∧ b4 &&& 0xc0 = 0x80 ∧
    (((((b1 &&& 0x07) <<< 18) ||| ((b2 &&& 0x3f) <<< 12)) ||| ((b3 &&& 0x3f) <<< 6)) |||
      ((b4 &&& 0x3f) <<< 0)) =
      262144 * (b1 - 240) + 4096 * (b2 - 128) + 64 * (b3 - 128) + (b4 - 128) ∧
    (0x10000 ≤ 262144 * (b1 - 240) + 4096 * (b2 - 128) + 64 * (b3 - 128) + (b4 - 128) ∧
      262144 * (b1 - 240) + 4096 * (b2 - 128) + 64 * (b3 - 128) + (b4 - 128) ≤ 0x10FFFF) ∧
    0xF0 ||| ((262144 * (b1 - 240) + 4096 * (b2 - 128) + 64 * (b3 - 128) + (b4 - 128)) >>> 18)
      = b1 ∧
    0x80 ||| (((262144 * (b1 - 240) + 4096 * (b2 - 128) + 64 * (b3 - 128) + (b4 - 128)) >>> 12)
      &&& 0x3F) = b2 ∧
    0x80 ||| (((262144 * (b1 - 240) + 4096 * (b2 - 128) + 64 * (b3 - 128) + (b4 - 128)) >>> 6)
      &&& 0x3F) = b3 ∧
    0x80 ||| ((262144 * (b1 - 240) + 4096 * (b2 - 128) + 64 * (b3 - 128) + (b4 - 128)) &&& 0x3F)
      = b4 := by
  obtain ⟨hc2, hv2⟩ := byteFact_cont b2 (by omega) (by omega)
  obtain ⟨hc3, hv3⟩ := byteFact_cont b3 (by omega) (by omega)
  obtain ⟨hc4, hv4⟩ := byteFact_cont b4 (by omega) (by omega)
  have hl := byteFact_lead4 b1 (by omega) (by omega)
  set cp := 262144 * (b1 - 240) + 4096 * (b2 - 128) + 64 * (b3 - 128) + (b4 - 128) with hcp
  refine ⟨hc2, hc3, hc4, ?_, by omega, ?_, ?_, ?_, ?_⟩
  · rw [hl, hv2, hv3, hv4, Nat.shiftLeft_eq, Nat.shiftLeft_eq, Nat.shiftLeft_eq,
      Nat.shiftLeft_eq]
    rw [show (b1 - 240) * 2 ^ 18 = 2 ^ 18 * (b1 - 240) from Nat.mul_comm _ _]
    rw [show (b2 - 128) * 2 ^ 12 = 2 ^ 12 * (b2 - 128) from Nat.mul_comm _ _]
    rw [show (b3 - 128) * 2 ^ 6 = 2 ^ 6 * (b3 - 128) from Nat.mul_comm _ _]
    rw [Nat.pow_zero, Nat.mul_one]
    rw [or_pow_add (show 2 ^ 12 * (b2 - 128) < 2 ^ 18 by omega)]
    rw [show 2 ^ 18 * (b1 - 240) + 2 ^ 12 * (b2 - 128) =
      2 ^ 12 * (64 * (b1 - 240) + (b2 - 128)) by ring]
    rw [or_pow_add (show 2 ^ 6 * (b3 - 128) < 2 ^ 12 by omega)]
    rw [show 2 ^ 12 * (64 * (b1 - 240) + (b2 - 128)) + 2 ^ 6 * (b3 - 128) =
      2 ^ 6 * (64 * (64 * (b1 - 240) + (b2 - 128)) + (b3 - 128)) by ring]
    rw [or_pow_add (show b4 - 128 < 2 ^ 6 by omega)]
    omega
  · rw [Nat.shiftRight_eq_div_pow]
    rw [show cp / 2 ^ 18 = b1 - 240 by omega]
    rw [show (0xF0 : Nat) = 2 ^ 4 * 15 from rfl, or_pow_add (by omega)]
    omega
  · rw [Nat.shiftRight_eq_div_pow, Nat.and_pow_two_sub_one_eq_mod (cp / 2 ^ 12) 6]
    rw [show cp / 2 ^ 12 % 2 ^ 6 = b2 - 128 by omega]
    rw [show (0x80 : Nat) = 2 ^ 7 * 1 from rfl, or_pow_add (by omega)]
    omega
  · rw [Nat.shiftRight_eq_div_pow, Nat.and_pow_two_sub_one_eq_mod (cp / 2 ^ 6) 6]
    rw [show cp / 2 ^ 6 % 2 ^ 6 = b3 - 128 by omega]
    rw [show (0x80 : Nat) = 2 ^ 7 * 1 from rfl, or_pow_add (by omega)]
    omega
  · rw [Nat.and_pow_two_sub_one_eq_mod cp 6]
    rw [show cp % 2 ^ 6 = b4 - 128 by omega]
    rw [show (0x80 : Nat) = 2 ^ 7 * 1 from rfl, or_pow_add (by omega)]
    omega

/-! ## Filter unit-processing lemmas (clean-state filter) -/

theorem pb_ascii (o : List Nat) (c0 b : Nat) (hb : b < 0x80) :
    JSONUTF8StringFilter.push_back ⟨o, true, c0, 0, 0⟩ b = ⟨o ++ [b], true, c0, 0, 0⟩ := by
  simp [JSONUTF8StringFilter.push_back, hb]

theorem pbu_low (o : List Nat) (c0 cp : Nat) (h : cp ≤ 0x7f) :
    JSONUTF8StringFilter.push_back_u ⟨o, true, c0, 0, 0⟩ cp = ⟨o ++ [cp], true, c0, 0, 0⟩ := by
  unfold JSONUTF8StringFilter.push_back_u
  dsimp only
  rw [if_neg (show ¬((0:Nat) ≠ 0) by simp)]
  dsimp only
  rw [if_neg (by omega : ¬ (0xD800 ≤ cp ∧ cp < 0xDC00)),
      if_neg (by omega : ¬ (0xDC00 ≤ cp ∧ cp < 0xE000)),
      if_neg (show ¬((0:Nat) ≠ 0) by simp)]
  unfold JSONUTF8StringFilter.append_codepoint
  rw [if_pos h]

theorem pb2 (o : List Nat) (c0 b1 b2 : Nat) (h1 : 0xC2 ≤ b1) (h2 : b1 ≤ 0xDF)
    (h3 : 0x80 ≤ b2) (h4 : b2 ≤ 0xBF) :
    JSONUTF8StringFilter.push_back
      (JSONUTF8StringFilter.push_back ⟨o, true, c0, 0, 0⟩ b1) b2 =
      ⟨o ++ [b1, b2], true, 64 * (b1 - 192) + (b2 - 128), 0, 0⟩ := by
  obtain ⟨hc, hcp, ⟨hlo, hhi⟩, henc1, henc2⟩ := utf2_bits h1 h2 h3 h4
  have step1 : JSONUTF8StringFilter.push_back ⟨o, true, c0, 0, 0⟩ b1 =
      ⟨o, true, (b1 &&& 0x1f) <<< 6, 6, 0⟩ := by
    unfold JSONUTF8StringFilter.push_back
    rw [if_pos rfl, if_neg (by omega), if_neg (by omega), if_pos (by omega)]
  rw [step1]
  unfold JSONUTF8StringFilter.push_back
  rw [if_neg (show ¬((6:Nat) = 0) by simp)]
  dsimp only
  rw [hc]
  rw [if_neg (show ¬((0x80:Nat) ≠ 0x80) by simp)]
  dsimp only
  rw [if_pos (show (6:Nat) - 6 = 0 by simp)]
  rw [hcp]
  unfold JSONUTF8StringFilter.push_back_u
  dsimp only
  rw [if_neg (show ¬((6:Nat) - 6 ≠ 0) by simp)]
  dsimp only
  rw [if_neg (by omega : ¬ (0xD800 ≤ 64 * (b1 - 192) + (b2 - 128) ∧ 64 * (b1 - 192) + (b2 - 128) < 0xDC00)),
      if_neg (by omega : ¬ (0xDC00 ≤ 64 * (b1 - 192) + (b2 - 128) ∧ 64 * (b1 - 192) + (b2 - 128) < 0xE000)),
      if_neg (show ¬((0:Nat) ≠ 0) by simp)]
  unfold JSONUTF8StringFilter.append_codepoint
  rw [if_neg (by omega : ¬ (64 * (b1 - 192) + (b2 - 128) ≤ 0x7f)), if_pos hhi]
  rw [henc1, henc2]


theorem pb3 (o : List Nat) (c0 b1 b2 b3 : Nat) (h1 : 0xE0 ≤ b1) (h2 : b1 ≤ 0xEF)
    (h3 : 0x80 ≤ b2) (h4 : b2 ≤ 0xBF) (h5 : 0x80 ≤ b3) (h6 : b3 ≤ 0xBF)
    (h7 : b1 = 0xE0 → 0xA0 ≤ b2) (h8 : b1 = 0xED → b2 ≤ 0x9F) :
    JSONUTF8StringFilter.push_back
      (JSONUTF8StringFilter.push_back
        (JSONUTF8StringFilter.push_back ⟨o, true, c0, 0, 0⟩ b1) b2) b3 =
      ⟨o ++ [b1, b2, b3], true, 4096 * (b1 - 224) + 64 * (b2 - 128) + (b3 - 128), 0, 0⟩ := by
  obtain ⟨hc2, hc3, hcp, ⟨hlo, hhi⟩, hns, henc1, henc2, henc3⟩ :=
    utf3_bits h1 h2 h3 h4 h5 h6 h7 h8
  have step1 : JSONUTF8StringFilter.push_back ⟨o, true, c0, 0, 0⟩ b1 =
      ⟨o, true, (b1 &&& 0x0f) <<< 12, 12, 0⟩ := by
    unfold JSONUTF8StringFilter.push_back
    rw [if_pos rfl, if_neg (by omega), if_neg (by omega), if_neg (by omega), if_pos (by omega)]
  rw [step1]
  have step2 : JSONUTF8StringFilter.push_back ⟨o, true, (b1 &&& 0x0f) <<< 12, 12, 0⟩ b2 =
      ⟨o, true, ((b1 &&& 0x0f) <<< 12) ||| ((b2 &&& 0x3f) <<< 6), 6, 0⟩ := by
    unfold JSONUTF8StringFilter.push_back
    rw [if_neg (show ¬((12:Nat) = 0) by simp)]
    dsimp only
    rw [hc2]
    rw [if_neg (show ¬((0x80:Nat) ≠ 0x80) by simp)]
    dsimp only
    rw [if_neg (show ¬((12:Nat) - 6 = 0) by simp)]
  rw [step2]
  unfold JSONUTF8StringFilter.push_back
  rw [if_neg (show ¬((6:Nat) = 0) by simp)]
  dsimp only
  rw [hc3]
  rw [if_neg (show ¬((0x80:Nat) ≠ 0x80) by simp)]
  dsimp only
  rw [if_pos (show (6:Nat) - 6 = 0 by simp)]
  rw [hcp]
  unfold JSONUTF8StringFilter.push_back_u
  dsimp only
  rw [if_neg (show ¬((6:Nat) - 6 ≠ 0) by simp)]
  dsimp only
  rw [if_neg (by omega : ¬ (0xD800 ≤ 4096 * (b1 - 224) + 64 * (b2 - 128) + (b3 - 128) ∧
        4096 * (b1 - 224) + 64 * (b2 - 128) + (b3 - 128) < 0xDC00)),
      if_neg (by omega : ¬ (0xDC00 ≤ 4096 * (b1 - 224) + 64 * (b2 - 128) + (b3 - 128) ∧
        4096 * (b1 - 224) + 64 * (b2 - 128) + (b3 - 128) < 0xE000)),
      if_neg (show ¬((0:Nat) ≠ 0) by simp)]
  unfold JSONUTF8StringFilter.append_codepoint
  rw [if_neg (by omega), if_neg (by omega), if_pos hhi]
  rw [henc1, henc2, henc3]


theorem pb4 (o : List Nat) (c0 b1 b2 b3 b4 : Nat) (h1 : 0xF0 ≤ b1) (h2 : b1 ≤ 0xF4)
    (h3 : 0x80 ≤ b2) (h4 : b2 ≤ 0xBF) (h5 : 0x80 ≤ b3) (h6 : b3 ≤ 0xBF)
    (h7 : 0x80 ≤ b4) (h8 : b4 ≤ 0xBF)
    (h9 : b1 = 0xF0 → 0x90 ≤ b2) (h10 : b1 = 0xF4 → b2 ≤ 0x8F) :
    JSONUTF8StringFilter.push_back
      (JSONUTF8StringFilter.push_back
        (JSONUTF8StringFilter.push_back
          (JSONUTF8StringFilter.push_back ⟨o, true, c0, 0, 0⟩ b1) b2) b3) b4 =
      ⟨o ++ [b1, b2, b3, b4], true,
        262144 * (b1 - 240) + 4096 * (b2 - 128) + 64 * (b3 - 128) + (b4 - 128), 0, 0⟩ := by
  obtain ⟨hc2, hc3, hc4, hcp, ⟨hlo, hhi⟩, henc1, henc2, henc3, henc4⟩ :=
    utf4_bits h1 h2 h3 h4 h5 h6 h7 h8 h9 h10
  have step1 : JSONUTF8StringFilter.push_back ⟨o, true, c0, 0, 0⟩ b1 =
      ⟨o, true, (b1 &&& 0x07) <<< 18, 18, 0⟩ := by
    unfold JSONUTF8StringFilter.push_back
    rw [if_pos rfl, if_neg (by omega), if_neg (by omega), if_neg (by omega), if_neg (by omega),
        if_pos (by omega)]
  rw [step1]
  have step2 : JSONUTF8StringFilter.push_back ⟨o, true, (b1 &&& 0x07) <<< 18, 18, 0⟩ b2 =
      ⟨o, true, ((b1 &&& 0x07) <<< 18) ||| ((b2 &&& 0x3f) <<< 12), 12, 0⟩ := by
    unfold JSONUTF8StringFilter.push_back
    rw [if_neg (show ¬((18:Nat) = 0) by simp)]
    dsimp only
    rw [hc2]
    rw [if_neg (show ¬((0x80:Nat) ≠ 0x80) by simp)]
    dsimp only
    rw [if_neg (show ¬((18:Nat) - 6 = 0) by simp)]
  rw [step2]
  have step3 : JSONUTF8StringFilter.push_back
      ⟨o, true, ((b1 &&& 0x07) <<< 18) ||| ((b2 &&& 0x3f) <<< 12), 12, 0⟩ b3 =
      ⟨o, true, (((b1 &&& 0x07) <<< 18) ||| ((b2 &&& 0x3f) <<< 12)) ||| ((b3 &&& 0x3f) <<< 6),
        6, 0⟩ := by
    unfold JSONUTF8StringFilter.push_back
    rw [if_neg (show ¬((12:Nat) = 0) by simp)]
    dsimp only
    rw [hc3]
    rw [if_neg (show ¬((0x80:Nat) ≠ 0x80) by simp)]
    dsimp only
    rw [if_neg (show ¬((12:Nat) - 6 = 0) by simp)]
  rw [step3]
  unfold JSONUTF8StringFilter.push_back
  rw [if_neg (show ¬((6:Nat) = 0) by simp)]
  dsimp only
  rw [hc4]
  rw [if_neg (show ¬((0x80:Nat) ≠ 0x80) by simp)]
  dsimp only
  rw [if_pos (show (6:Nat) - 6 = 0 by simp)]
  rw [hcp]
  unfold JSONUTF8StringFilter.push_back_u
  dsimp only
  rw [if_neg (show ¬((6:Nat) - 6 ≠ 0) by simp)]
  dsimp only
  rw [if_neg (by omega : ¬ (0xD800 ≤ 262144 * (b1 - 240) + 4096 * (b2 - 128) + 64 * (b3 - 128) + (b4 - 128) ∧
        262144 * (b1 - 240) + 4096 * (b2 - 128) + 64 * (b3 - 128) + (b4 - 128) < 0xDC00)),
      if_neg (by omega : ¬ (0xDC00 ≤ 262144 * (b1 - 240) + 4096 * (b2 - 128) + 64 * (b3 - 128) + (b4 - 128) ∧
        262144 * (b1 - 240) + 4096 * (b2 - 128) + 64 * (b3 - 128) + (b4 - 128) < 0xE000)),
      if_neg (show ¬((0:Nat) ≠ 0) by simp)]
  unfold JSONUTF8StringFilter.append_codepoint
  rw [if_neg (by omega), if_neg (by omega), if_neg (by omega), if_pos (by omega)]
  rw [henc1, henc2, henc3, henc4]

/-! ## Escaped strings through the slow string path -/

theorem jsonEscape_cons (b : Nat) (r : List Nat) :
    jsonEscape (b :: r) = escByte b ++ jsonEscape r := by
  simp [jsonEscape]

theorem escByte_plain {b : Nat} (h1 : 0x20 ≤ b) (h2 : b ≠ 34) (h3 : b ≠ 92) (h4 : b ≠ 127) :
    escByte b = [b] := by
  unfold escByte escapes
  rw [if_neg (by omega : ¬ b < 32), if_neg h2, if_neg h3, if_neg h4]

theorem escByte_length_pos (b : Nat) : 1 ≤ (escByte b).length := by
  unfold escByte escapes
  split
  · rename_i e heq
    repeat' split at heq
    all_goals first
      | (injection heq with h; subst h; simp [uEsc])
      | (exact absurd heq (by simp))
  · simp

/-- One-step unfolding of `goodStr` on a nonempty string. -/
theorem goodStr_cons (b : Nat) (r : List Nat) :
    goodStr (b :: r) =
      (if b < 0x80 then goodStr r
      else if 0xC2 ≤ b ∧ b ≤ 0xDF then
        match r with
        | b2 :: r2 => (0x80 ≤ b2 && b2 ≤ 0xBF) && goodStr r2
        | [] => false
      else if 0xE0 ≤ b ∧ b ≤ 0xEF then
        match r with
        | b2 :: b3 :: r3 =>
          (if b = 0xE0 then 0xA0 ≤ b2 && b2 ≤ 0xBF
           else if b = 0xED then 0x80 ≤ b2 && b2 ≤ 0x9F
           else 0x80 ≤ b2 && b2 ≤ 0xBF) &&
          (0x80 ≤ b3 && b3 ≤ 0xBF) && goodStr r3
        | _ => false
      else if 0xF0 ≤ b ∧ b ≤ 0xF4 then
        match r with
        | b2 :: b3 :: b4 :: r4 =>
          (if b = 0xF0 then 0x90 ≤ b2 && b2 ≤ 0xBF
           else if b = 0xF4 then 0x80 ≤ b2 && b2 ≤ 0x8F
           else 0x80 ≤ b2 && b2 ≤ 0xBF) &&
          (0x80 ≤ b3 && b3 ≤ 0xBF) && (0x80 ≤ b4 && b4 ≤ 0xBF) && goodStr r4
        | _ => false
      else false) := by
  match r with
  | [] => rfl
  | [b2] => rfl
  | [b2, b3] => rfl
  | b2 :: b3 :: b4 :: r4 => rfl

/-- Scanning the quoted form of one sub-0x80 byte advances the clean filter by
exactly that byte. -/
theorem slowEsc_unit (b : Nat) (hb : b < 0x80) (m : Nat) (o l : List Nat) (c0 : Nat) :
    slowStringF (m + 1) ⟨o, true, c0, 0, 0⟩ (escByte b ++ l) =
      slowStringF m ⟨o ++ [b], true, c0, 0, 0⟩ l := by
  by_cases h32 : b < 32
  · interval_cases b <;> rfl
  by_cases h34 : b = 34
  · subst h34; rfl
  by_cases h92 : b = 92
  · subst h92; rfl
  by_cases h127 : b = 127
  · subst h127; rfl
  rw [escByte_plain (by omega) h34 h92 h127]
  rw [show ([b] : List Nat) ++ l = b :: l from rfl]
  rw [slowStringF_succ]
  rw [if_neg (by omega : ¬ b < 0x20), if_neg h92, if_neg h34]
  rw [pb_ascii o c0 b hb]

/-- Scanning the closing quote of a clean filter returns its accumulated
string. -/
theorem slowEsc_nil (m : Nat) (o rest : List Nat) (c0 : Nat) :
    slowStringF (m + 1) ⟨o, true, c0, 0, 0⟩ (34 :: rest) = some (o, rest) := rfl

/-- The slow string scan undoes `jsonEscape` on any valid-UTF-8 payload:
having accumulated `o`, scanning `jsonEscape s` followed by the closing
quote accumulates exactly `o ++ s` and stops past the quote. -/
theorem slowEscapeAux : ∀ (n : Nat) (s : List Nat), s.length ≤ n → goodStr s = true →
    ∀ (fuel : Nat) (o rest : List Nat) (c0 : Nat),
      (jsonEscape s).length + rest.length + 1 < fuel →
      slowStringF fuel ⟨o, true, c0, 0, 0⟩ (jsonEscape s ++ (34 :: rest)) =
        some (o ++ s, rest) := by
  intro n
  induction n with
  | zero =>
    intro s hlen hs fuel o rest c0 hfuel
    have hnil : s = [] := List.eq_nil_of_length_eq_zero (Nat.le_zero.mp hlen)
    subst hnil
    obtain ⟨m, rfl⟩ : ∃ m, fuel = m + 1 := ⟨fuel - 1, by omega⟩
    rw [show jsonEscape [] = [] from rfl, List.nil_append, slowEsc_nil, List.append_nil]
  | succ n ih =>
    intro s hlen hs fuel o rest c0 hfuel
    cases s with
    | nil =>
      obtain ⟨m, rfl⟩ : ∃ m, fuel = m + 1 := ⟨fuel - 1, by omega⟩
      rw [show jsonEscape [] = [] from rfl, List.nil_append, slowEsc_nil, List.append_nil]
    | cons b r =>
      rw [goodStr_cons] at hs
      by_cases hb : b < 0x80
      · rw [if_pos hb] at hs
        have hfr : (jsonEscape r).length + rest.length + 1 + 1 < fuel := by
          rw [jsonEscape_cons] at hfuel
          have h1 := escByte_length_pos b
          simp only [List.length_append] at hfuel
          omega
        obtain ⟨m, rfl⟩ : ∃ m, fuel = m + 1 := ⟨fuel - 1, by omega⟩
        rw [jsonEscape_cons, List.append_assoc, slowEsc_unit b hb]
        rw [ih r (by simp only [List.length_cons] at hlen; omega) hs m (o ++ [b]) rest c0
          (by omega)]
        simp
      · rw [if_neg hb] at hs
        by_cases h2b : 0xC2 ≤ b ∧ b ≤ 0xDF
        · rw [if_pos h2b] at hs
          cases r with
          | nil =>
            dsimp only at hs
            exact Bool.noConfusion hs
          | cons b2 r2 =>
            dsimp only at hs
            simp only [Bool.and_eq_true, decide_eq_true_eq] at hs
            obtain ⟨⟨hb2l, hb2h⟩, hgr⟩ := hs
            have heb : escByte b = [b] :=
              escByte_plain (by omega) (by omega) (by omega) (by omega)
            have heb2 : escByte b2 = [b2] :=
              escByte_plain (by omega) (by omega) (by omega) (by omega)
            rw [jsonEscape_cons, jsonEscape_cons, heb, heb2] at hfuel ⊢
            simp only [List.cons_append, List.nil_append] at hfuel ⊢
            simp only [List.length_cons] at hfuel
            obtain ⟨m, rfl⟩ : ∃ m, fuel = m + 2 := ⟨fuel - 2, by omega⟩
            rw [slowStringF_succ]
            rw [if_neg (by omega : ¬ b < 0x20), if_neg (by omega : ¬ b = 92),
                if_neg (by omega : ¬ b = 34)]
            rw [slowStringF_succ]
            rw [if_neg (by omega : ¬ b2 < 0x20), if_neg (by omega : ¬ b2 = 92),
                if_neg (by omega : ¬ b2 = 34)]
            rw [pb2 o c0 b b2 h2b.1 h2b.2 hb2l hb2h]
            rw [ih r2 (by simp only [List.length_cons] at hlen; omega) hgr m (o ++ [b, b2])
              rest _ (by omega)]
            simp
        · rw [if_neg h2b] at hs
          by_cases h3b : 0xE0 ≤ b ∧ b ≤ 0xEF
          · rw [if_pos h3b] at hs
            cases r with
            | nil =>
              dsimp only at hs
              exact Bool.noConfusion hs
            | cons b2 r' =>
            cases r' with
            | nil =>
              dsimp only at hs
              exact Bool.noConfusion hs
            | cons b3 r3 =>
            dsimp only at hs
            simp only [Bool.and_eq_true, decide_eq_true_eq] at hs
            obtain ⟨⟨hif, hb3l, hb3h⟩, hgr⟩ := hs
            have hE : (b = 0xE0 → 0xA0 ≤ b2 ∧ b2 ≤ 0xBF) ∧
                (b = 0xED → 0x80 ≤ b2 ∧ b2 ≤ 0x9F) ∧
                (¬ b = 0xE0 → ¬ b = 0xED → 0x80 ≤ b2 ∧ b2 ≤ 0xBF) := by
              refine ⟨fun h => ?_, fun h => ?_, fun h h' => ?_⟩
              · have hif' := hif
                rw [if_pos h] at hif'
                simpa using hif'
              · have hif' := hif
                rw [if_neg (by omega : ¬ b = 0xE0), if_pos h] at hif'
                simpa using hif'
              · have hif' := hif
                rw [if_neg h, if_neg h'] at hif'
                simpa using hif'
            have hb2r : 0x80 ≤ b2 ∧ b2 ≤ 0xBF := by
              by_cases hE0 : b = 0xE0
              · have := hE.1 hE0; omega
              by_cases hED : b = 0xED
              · have := hE.2.1 hED; omega
              · exact hE.2.2 hE0 hED
            have h7 : b = 0xE0 → 0xA0 ≤ b2 := fun h => (hE.1 h).1
            have h8 : b = 0xED → b2 ≤ 0x9F := fun h => (hE.2.1 h).2
            have heb : escByte b = [b] :=
              escByte_plain (by omega) (by omega) (by omega) (by omega)
            have heb2 : escByte b2 = [b2] :=
              escByte_plain (by omega) (by omega) (by omega) (by omega)
            have heb3 : escByte b3 = [b3] :=
              escByte_plain (by omega) (by omega) (by omega) (by omega)
            rw [jsonEscape_cons, jsonEscape_cons, jsonEscape_cons, heb, heb2, heb3] at hfuel ⊢
            simp only [List.cons_append, List.nil_append] at hfuel ⊢
            simp only [List.length_cons] at hfuel
            obtain ⟨m, rfl⟩ : ∃ m, fuel = m + 3 := ⟨fuel - 3, by omega⟩
            rw [slowStringF_succ]
            rw [if_neg (by omega : ¬ b < 0x20), if_neg (by omega : ¬ b = 92),
                if_neg (by omega : ¬ b = 34)]
            rw [slowStringF_succ]
            rw [if_neg (by omega : ¬ b2 < 0x20), if_neg (by omega : ¬ b2 = 92),
                if_neg (by omega : ¬ b2 = 34)]
            rw [slowStringF_succ]
            rw [if_neg (by omega : ¬ b3 < 0x20), if_neg (by omega : ¬ b3 = 92),
                if_neg (by omega : ¬ b3 = 34)]
            rw [pb3 o c0 b b2 b3 h3b.1 h3b.2 hb2r.1 hb2r.2 hb3l hb3h h7 h8]
            rw [ih r3 (by simp only [List.length_cons] at hlen; omega) hgr m
              (o ++ [b, b2, b3]) rest _ (by omega)]
            simp
          · rw [if_neg h3b] at hs
            by_cases h4b : 0xF0 ≤ b ∧ b ≤ 0xF4
            · rw [if_pos h4b] at hs
              cases r with
              | nil =>
                dsimp only at hs
                exact Bool.noConfusion hs
              | cons b2 r' =>
              cases r' with
              | nil =>
                dsimp only at hs
                exact Bool.noConfusion hs
              | cons b3 r'' =>
              cases r'' with
              | nil =>
                dsimp only at hs
                exact Bool.noConfusion hs
              | cons b4 r4 =>
              dsimp only at hs
              simp only [Bool.and_eq_true, decide_eq_true_eq] at hs
              obtain ⟨⟨⟨hif, hb3l, hb3h⟩, hb4l, hb4h⟩, hgr⟩ := hs
              have hE : (b = 0xF0 → 0x90 ≤ b2 ∧ b2 ≤ 0xBF) ∧
                  (b = 0xF4 → 0x80 ≤ b2 ∧ b2 ≤ 0x8F) ∧
                  (¬ b = 0xF0 → ¬ b = 0xF4 → 0x80 ≤ b2 ∧ b2 ≤ 0xBF) := by
                refine ⟨fun h => ?_, fun h => ?_, fun h h' => ?_⟩
                · have hif' := hif
                  rw [if_pos h] at hif'
                  simpa using hif'
                · have hif' := hif
                  rw [if_neg (by omega : ¬ b = 0xF0), if_pos h] at hif'
                  simpa using hif'
                · have hif' := hif
                  rw [if_neg h, if_neg h'] at hif'
                  simpa using hif'
              have hb2r : 0x80 ≤ b2 ∧ b2 ≤ 0xBF := by
                by_cases hF0 : b = 0xF0
                · have := hE.1 hF0; omega
                by_cases hF4 : b = 0xF4
                · have := hE.2.1 hF4; omega
                · exact hE.2.2 hF0 hF4
              have h9 : b = 0xF0 → 0x90 ≤ b2 := fun h => (hE.1 h).1
              have h10 : b = 0xF4 → b2 ≤ 0x8F := fun h => (hE.2.1 h).2
              have heb : escByte b = [b] :=
                escByte_plain (by omega) (by omega) (by omega) (by omega)
              have heb2 : escByte b2 = [b2] :=
                escByte_plain (by omega) (by omega) (by omega) (by omega)
              have heb3 : escByte b3 = [b3] :=
                escByte_plain (by omega) (by omega) (by omega) (by omega)
              have heb4 : escByte b4 = [b4] :=
                escByte_plain (by omega) (by omega) (by omega) (by omega)
              rw [jsonEscape_cons, jsonEscape_cons, jsonEscape_cons, jsonEscape_cons,
                heb, heb2, heb3, heb4] at hfuel ⊢
              simp only [List.cons_append, List.nil_append] at hfuel ⊢
              simp only [List.length_cons] at hfuel
              obtain ⟨m, rfl⟩ : ∃ m, fuel = m + 4 := ⟨fuel - 4, by omega⟩
              rw [slowStringF_succ]
              rw [if_neg (by omega : ¬ b < 0x20), if_neg (by omega : ¬ b = 92),
                  if_neg (by omega : ¬ b = 34)]
              rw [slowStringF_succ]
              rw [if_neg (by omega : ¬ b2 < 0x20), if_neg (by omega : ¬ b2 = 92),
                  if_neg (by omega : ¬ b2 = 34)]
              rw [slowStringF_succ]
              rw [if_neg (by omega : ¬ b3 < 0x20), if_neg (by omega : ¬ b3 = 92),
                  if_neg (by omega : ¬ b3 = 34)]
              rw [slowStringF_succ]
              rw [if_neg (by omega : ¬ b4 < 0x20), if_neg (by omega : ¬ b4 = 92),
                  if_neg (by omega : ¬ b4 = 34)]
              rw [pb4 o c0 b b2 b3 b4 h4b.1 h4b.2 hb2r.1 hb2r.2 hb3l hb3h hb4l hb4h h9 h10]
              rw [ih r4 (by simp only [List.length_cons] at hlen; omega) hgr m
                (o ++ [b, b2, b3, b4]) rest _ (by omega)]
              simp
            · rw [if_neg h4b] at hs
              exact Bool.noConfusion hs

/-! ## String token emission -/

/-- A byte the fast path scans over and the escape table leaves alone. -/
def plainByte (b : Nat) : Bool :=
  decide (0x20 ≤ b ∧ b < 0x80 ∧ b ≠ 34 ∧ b ≠ 92 ∧ b ≠ 127)

theorem escByte_plainByte {b : Nat} (h : plainByte b = true) : escByte b = [b] := by
  simp only [plainByte, decide_eq_true_eq] at h
  exact escByte_plain h.1 h.2.2.1 h.2.2.2.1 h.2.2.2.2

theorem jsonEscape_plain (p : List Nat) (h : ∀ b ∈ p, plainByte b = true) :
    jsonEscape p = p := by
  induction p with
  | nil => rfl
  | cons b q ih =>
    rw [jsonEscape_cons, escByte_plainByte (h b (by simp)), ih (fun x hx => h x (by simp [hx]))]
    rfl

theorem fastPath_pref (p t : List Nat) (h : ∀ b ∈ p, plainByte b = true) :
    fastPath (p ++ t) = ((fastPath t).1, p ++ (fastPath t).2.1, (fastPath t).2.2) := by
  induction p with
  | nil => simp
  | cons c q ih =>
    have hc : plainByte c = true := h c (by simp)
    simp only [plainByte, decide_eq_true_eq] at hc
    rw [List.cons_append, fastPath_cons]
    rw [if_neg (by omega : ¬ c = 0), if_neg (by omega : ¬ c = 34),
        if_neg (by omega : ¬ c = 92), if_neg (by omega : ¬ c < 0x20),
        if_neg (by omega : ¬ 0x80 ≤ c)]
    rw [ih (fun x hx => h x (by simp [hx]))]
    simp

theorem goodStr_append_ascii (p s' : List Nat) (h : ∀ b ∈ p, plainByte b = true) :
    goodStr (p ++ s') = goodStr s' := by
  induction p with
  | nil => rfl
  | cons b q ih =>
    have hb : plainByte b = true := h b (by simp)
    simp only [plainByte, decide_eq_true_eq] at hb
    rw [List.cons_append, goodStr_cons, if_pos (by omega : b < 0x80)]
    exact ih (fun x hx => h x (by simp [hx]))

theorem escByte_esc {b : Nat} (hb : b < 0x80) (h : plainByte b = false) :
    ∃ e, escByte b = 92 :: e := by
  simp only [plainByte, decide_eq_false_iff_not] at h
  unfold escByte escapes
  by_cases h32 : b < 32
  · rw [if_pos h32]
    by_cases h8 : b = 8
    · rw [if_pos h8]; exact ⟨_, rfl⟩
    rw [if_neg h8]
    by_cases h9 : b = 9
    · rw [if_pos h9]; exact ⟨_, rfl⟩
    rw [if_neg h9]
    by_cases h10 : b = 10
    · rw [if_pos h10]; exact ⟨_, rfl⟩
    rw [if_neg h10]
    by_cases h12 : b = 12
    · rw [if_pos h12]; exact ⟨_, rfl⟩
    rw [if_neg h12]
    by_cases h13 : b = 13
    · rw [if_pos h13]; exact ⟨_, rfl⟩
    rw [if_neg h13]
    exact ⟨_, rfl⟩
  · rw [if_neg h32]
    by_cases h34 : b = 34
    · rw [if_pos h34]; exact ⟨_, rfl⟩
    rw [if_neg h34]
    by_cases h92 : b = 92
    · rw [if_pos h92]; exact ⟨_, rfl⟩
    rw [if_neg h92]
    by_cases h127 : b = 127
    · rw [if_pos h127]; exact ⟨_, rfl⟩
    · exact absurd h (by simp; omega)

/-- One-step reduction of `tokenCore` at an opening quote. -/
theorem tokenCore_quote (R : List Nat) :
    tokenCore (34 :: R) =
      (match fastPath R with
      | (0, pre, rest1) => ⟨tString, pre, rest1.tail⟩
      | (1, pre, rest1) =>
        (match slowString (JSONUTF8StringFilter.init pre) rest1 with
        | some (tv, rest2) => ⟨tString, tv, rest2⟩
        | none => ⟨tErr, [], 34 :: R⟩)
      | (_, _, _) => ⟨tErr, [], 34 :: R⟩) := rfl

/-- `tokenCore` at the serialized form of a valid-UTF-8 string payload
emits exactly that payload as a string token and stops past the closing
quote. -/
theorem tokenCore_string (s : List Nat) (hs : goodStr s = true) (rest : List Nat) :
    tokenCore (34 :: (jsonEscape s ++ 34 :: rest)) = ⟨tString, s, rest⟩ := by
  have hsplit : s.takeWhile plainByte ++ s.dropWhile plainByte = s :=
    List.takeWhile_append_dropWhile plainByte s
  have hpl : ∀ b ∈ s.takeWhile plainByte, plainByte b = true :=
    fun b hb => List.mem_takeWhile_imp hb
  have hje : jsonEscape s = s.takeWhile plainByte ++ jsonEscape (s.dropWhile plainByte) := by
    conv => lhs; rw [← hsplit]
    rw [show jsonEscape (s.takeWhile plainByte ++ s.dropWhile plainByte) =
      jsonEscape (s.takeWhile plainByte) ++ jsonEscape (s.dropWhile plainByte) by
        simp only [jsonEscape, List.flatMap_append]]
    rw [jsonEscape_plain _ hpl]
  have hgs : goodStr (s.dropWhile plainByte) = true := by
    rw [← goodStr_append_ascii (s.takeWhile plainByte) _ hpl, hsplit]
    exact hs
  rw [tokenCore_quote, hje, List.append_assoc]
  cases hd : s.dropWhile plainByte with
  | nil =>
    rw [hd] at hsplit
    rw [show jsonEscape [] = [] from rfl, List.nil_append]
    rw [fastPath_pref _ _ hpl]
    rw [show fastPath (34 :: rest) = (0, [], 34 :: rest) from rfl]
    dsimp only
    have hts : List.takeWhile plainByte s = s := by simpa using hsplit
    rw [hts, List.append_nil]
    rfl
  | cons b tail =>
    have hnp : plainByte b = false := dropWhile_head_false hd
    have hblk : fastPath (jsonEscape (b :: tail) ++ 34 :: rest) =
        (1, [], jsonEscape (b :: tail) ++ 34 :: rest) := by
      by_cases hb : b < 0x80
      · obtain ⟨e, he⟩ := escByte_esc hb hnp
        rw [jsonEscape_cons, he]
        rfl
      · have hbe : escByte b = [b] := by
          rw [hd] at hgs
          rw [goodStr_cons] at hgs
          rw [if_neg hb] at hgs
          exact escByte_plain (by omega) (by omega) (by omega) (by omega)
        rw [jsonEscape_cons, hbe]
        simp only [List.cons_append, List.nil_append]
        rw [fastPath_cons]
        rw [if_neg (by omega : ¬ b = 0), if_neg (by omega : ¬ b = 34),
            if_neg (by omega : ¬ b = 92), if_neg (by omega : ¬ b < 0x20),
            if_pos (by omega : 0x80 ≤ b)]
    rw [hd] at hgs
    rw [fastPath_pref _ _ hpl, hblk]
    dsimp only
    try simp only [List.append_nil]
    rw [show JSONUTF8StringFilter.init (s.takeWhile plainByte) =
      ⟨s.takeWhile plainByte, true, 0, 0, 0⟩ from rfl]
    unfold slowString
    rw [slowEscapeAux (b :: tail).length (b :: tail) (le_refl _) hgs _
      (s.takeWhile plainByte) rest 0
      (by simp only [List.length_append, List.length_cons]; omega)]
    dsimp only
    rw [← hd, hsplit]

/-! ## Round-trip simulation infrastructure (claim C1) -/

/-- Concatenation of entry sequences. -/
def Entries.cat : Entries → Entries → Entries
  | .nil, e => e
  | .cons k v r, e => .cons k v (Entries.cat r e)

/-- Concatenation of value sequences. -/
def Values.cat : Values → Values → Values
  | .nil, e => e
  | .cons v r, e => .cons v (Values.cat r e)

theorem entries_cat_nil : ∀ (acc : Entries), Entries.cat acc .nil = acc
  | .nil => rfl
  | .cons k v r => by
    show Entries.cons k v (Entries.cat r .nil) = _
    rw [entries_cat_nil r]

theorem values_cat_nil : ∀ (acc : Values), Values.cat acc .nil = acc
  | .nil => rfl
  | .cons v r => by
    show Values.cons v (Values.cat r .nil) = _
    rw [values_cat_nil r]

theorem entries_snoc_cat : ∀ (acc : Entries) (k : List Nat) (v : UniValue) (r : Entries),
    Entries.cat (acc.snoc k v) r = Entries.cat acc (.cons k v r)
  | .nil, _, _, _ => rfl
  | .cons k' v' a, k, v, r => by
    show Entries.cons k' v' (Entries.cat (a.snoc k v) r) = _
    rw [entries_snoc_cat a k v r]
    rfl

theorem values_snoc_cat : ∀ (acc : Values) (v : UniValue) (r : Values),
    Values.cat (acc.snoc v) r = Values.cat acc (.cons v r)
  | .nil, _, _ => rfl
  | .cons v' a, v, r => by
    show Values.cons v' (Values.cat (a.snoc v) r) = _
    rw [values_snoc_cat a v r]
    rfl

theorem Entries.setLast_snoc : ∀ (es : Entries) (k : List Nat) (w v : UniValue),
    (es.snoc k w).setLast v = es.snoc k v
  | .nil, _, _, _ => rfl
  | .cons k' v' .nil, _, _, _ => rfl
  | .cons k' v' (.cons k2 v2 r2), k, w, v => by
    show Entries.cons k' v' (((Entries.cons k2 v2 r2).snoc k w).setLast v) = _
    rw [Entries.setLast_snoc (Entries.cons k2 v2 r2) k w v]
    rfl

/-- The final token of a value's compact serialization. -/
def lastTokOf : UniValue → Jtok
  | .vnull => tKwNull
  | .vfalse => tKwFalse
  | .vtrue => tKwTrue
  | .vnum _ => tNumber
  | .vstr _ => tString
  | .vobj _ => tObjClose
  | .varr _ => tArrClose

/-- The final token of a nonempty entry sequence's serialization. -/
def entriesLastTok : Entries → Jtok
  | .nil => tErr
  | .cons _ v .nil => lastTokOf v
  | .cons _ _ (.cons k2 v2 r) => entriesLastTok (.cons k2 v2 r)

/-- The final token of a nonempty element sequence's serialization. -/
def valuesLastTok : Values → Jtok
  | .nil => tErr
  | .cons v .nil => lastTokOf v
  | .cons _ (.cons v2 r) => valuesLastTok (.cons v2 r)

theorem lastTokOf_notSep (v : UniValue) :
    ((lastTokOf v == tComma) || (lastTokOf v == tArrOpen)) = false := by
  cases v <;> rfl

theorem entriesLastTok_notSep : ∀ (k : List Nat) (v : UniValue) (r : Entries),
    ((entriesLastTok (.cons k v r) == tComma) ||
      (entriesLastTok (.cons k v r) == tArrOpen)) = false
  | _, v, .nil => lastTokOf_notSep v
  | _, _, .cons k2 v2 r2 => entriesLastTok_notSep k2 v2 r2

theorem valuesLastTok_notSep : ∀ (v : UniValue) (r : Values),
    ((valuesLastTok (.cons v r) == tComma) ||
      (valuesLastTok (.cons v r) == tArrOpen)) = false
  | v, .nil => lastTokOf_notSep v
  | _, .cons v2 r2 => valuesLastTok_notSep v2 r2

/-- One-step unfolding of the parser loop. -/
theorem parseLoopF_succ (fuel : Nat) (buffer : List Nat) (st : LState) (lastTok : Jtok) :
    parseLoopF (fuel + 1) buffer st lastTok =
      (let tr := getJsonToken buffer
      if tr.tok = tEOF ∨ tr.tok = tErr then none
      else
        match procToken st tr.tok tr.val lastTok with
        | none => none
        | some st' =>
          match st'.stack with
          | [] => some (st'.root, tr.rest)
          | _ :: _ => parseLoopF fuel tr.rest st' tr.tok) := rfl

/-- Loop driver: a successful token step that keeps the stack non-empty
continues the loop at the token's rest. -/
theorem parseLoopF_go (m : Nat) (buffer : List Nat) (st : LState) (lt : Jtok)
    (tk : TokRes) (st' : LState)
    (htk : getJsonToken buffer = tk) (h1 : tk.tok ≠ tEOF) (h2 : tk.tok ≠ tErr)
    (hproc : procToken st tk.tok tk.val lt = some st') (hstack : st'.stack ≠ []) :
    parseLoopF (m + 1) buffer st lt = parseLoopF m tk.rest st' tk.tok := by
  rw [parseLoopF_succ]
  dsimp only
  rw [htk, if_neg (fun h => h.elim h1 h2), hproc]
  obtain ⟨rt, ex, sk⟩ := st'
  dsimp only at hstack ⊢
  cases sk with
  | nil => exact absurd rfl hstack
  | cons f fs => rfl

/-- Loop driver: a successful token step that empties the stack returns the
built root at the token's rest. -/
theorem parseLoopF_done (m : Nat) (buffer : List Nat) (st : LState) (lt : Jtok)
    (tk : TokRes) (st' : LState)
    (htk : getJsonToken buffer = tk) (h1 : tk.tok ≠ tEOF) (h2 : tk.tok ≠ tErr)
    (hproc : procToken st tk.tok tk.val lt = some st') (hstack : st'.stack = []) :
    parseLoopF (m + 1) buffer st lt = some (st'.root, tk.rest) := by
  rw [parseLoopF_succ]
  dsimp only
  rw [htk, if_neg (fun h => h.elim h1 h2), hproc]
  obtain ⟨rt, ex, sk⟩ := st'
  dsimp only at hstack ⊢
  subst hstack
  rfl

/-- `procToken` on an object-open in a value position pushes an empty object
frame (the depth check passes below the ceiling). -/
theorem procToken_open_obj {S : List Frame} (root : UniValue) (tv : List Nat) (lt : Jtok)
    (E : Expect)
    (hE : E = { value := true } ∨ E = { arrValue := true } ∨ E = {})
    (hlen : S.length + 1 ≤ MAX_JSON_DEPTH) :
    procToken ⟨root, E, S⟩ tObjOpen tv lt =
      some ⟨root, { objName := true }, .fobj .nil :: S⟩ := by
  have hc : ¬ ((Frame.fobj Entries.nil :: S).length > MAX_JSON_DEPTH) := by
    simp only [List.length_cons]
    omega
  rcases hE with rfl | rfl | rfl <;>
  · show (if (Frame.fobj Entries.nil :: S).length > MAX_JSON_DEPTH then none
        else some (⟨root, { objName := true }, Frame.fobj Entries.nil :: S⟩ : LState)) = _
    rw [if_neg hc]

/-- `procToken` on an array-open in a value position pushes an empty array
frame. -/
theorem procToken_open_arr {S : List Frame} (root : UniValue) (tv : List Nat) (lt : Jtok)
    (E : Expect)
    (hE : E = { value := true } ∨ E = { arrValue := true } ∨ E = {})
    (hlen : S.length + 1 ≤ MAX_JSON_DEPTH) :
    procToken ⟨root, E, S⟩ tArrOpen tv lt =
      some ⟨root, { arrValue := true }, .farr .nil :: S⟩ := by
  have hc : ¬ ((Frame.farr Values.nil :: S).length > MAX_JSON_DEPTH) := by
    simp only [List.length_cons]
    omega
  rcases hE with rfl | rfl | rfl <;>
  · show (if (Frame.farr Values.nil :: S).length > MAX_JSON_DEPTH then none
        else some (⟨root, { arrValue := true }, Frame.farr Values.nil :: S⟩ : LState)) = _
    rw [if_neg hc]

/-- `procToken` on a comma inside an object switches back to expecting a
key. -/
theorem procToken_comma_obj (root : UniValue) (acc : Entries) (rs : List Frame)
    (tv : List Nat) (lt : Jtok) (hlt : ((lt == tComma) || (lt == tArrOpen)) = false) :
    procToken ⟨root, { notValue := true }, .fobj acc :: rs⟩ tComma tv lt =
      some ⟨root, { objName := true }, .fobj acc :: rs⟩ := by
  show (if (lt == tComma || lt == tArrOpen) = true then none
      else some (⟨root, { objName := true }, Frame.fobj acc :: rs⟩ : LState)) = _
  rw [hlt]
  rfl

/-- `procToken` on a comma inside an array switches back to expecting an
element. -/
theorem procToken_comma_arr (root : UniValue) (acc : Values) (rs : List Frame)
    (tv : List Nat) (lt : Jtok) (hlt : ((lt == tComma) || (lt == tArrOpen)) = false) :
    procToken ⟨root, { notValue := true }, .farr acc :: rs⟩ tComma tv lt =
      some ⟨root, { arrValue := true }, .farr acc :: rs⟩ := by
  show (if (lt == tComma || lt == tArrOpen) = true then none
      else some (⟨root, { arrValue := true }, Frame.farr acc :: rs⟩ : LState)) = _
  rw [hlt]
  rfl

/-- `procToken` on an object-close with a parent frame writes the finished
object into the parent. -/
theorem procToken_close_obj (root : UniValue) (acc : Entries) (parent : Frame)
    (rs : List Frame) (tv : List Nat) (lt : Jtok) (E : Expect)
    (hE : E = { objName := true } ∨ E = { notValue := true })
    (hlt : (lt == tComma) = false) :
    procToken ⟨root, E, .fobj acc :: parent :: rs⟩ tObjClose tv lt =
      some ⟨root, { notValue := true }, writeTop parent (vobj acc) :: rs⟩ := by
  rcases hE with rfl | rfl <;>
  · show (if (lt == tComma) = true then none
        else some (⟨root, { notValue := true },
          writeTop parent (vobj acc) :: rs⟩ : LState)) = _
    rw [hlt]
    rfl

/-- `procToken` on the closing brace of the outermost object installs it as
the root and empties the stack. -/
theorem procToken_close_obj_root (root : UniValue) (acc : Entries)
    (tv : List Nat) (lt : Jtok) (E : Expect)
    (hE : E = { objName := true } ∨ E = { notValue := true })
    (hlt : (lt == tComma) = false) :
    procToken ⟨root, E, [.fobj acc]⟩ tObjClose tv lt =
      some ⟨vobj acc, { notValue := true }, []⟩ := by
  rcases hE with rfl | rfl <;>
  · show (if (lt == tComma) = true then none
        else some (⟨vobj acc, { notValue := true }, []⟩ : LState)) = _
    rw [hlt]
    rfl

/-- `procToken` on an array-close with a parent frame writes the finished
array into the parent. -/
theorem procToken_close_arr (root : UniValue) (acc : Values) (parent : Frame)
    (rs : List Frame) (tv : List Nat) (lt : Jtok) (E : Expect)
    (hE : E = { arrValue := true } ∨ E = { notValue := true })
    (hlt : (lt == tComma) = false) :
    procToken ⟨root, E, .farr acc :: parent :: rs⟩ tArrClose tv lt =
      some ⟨root, { notValue := true }, writeTop parent (varr acc) :: rs⟩ := by
  rcases hE with rfl | rfl <;>
  · show (if (lt == tComma) = true then none
        else some (⟨root, { notValue := true },
          writeTop parent (varr acc) :: rs⟩ : LState)) = _
    rw [hlt]
    rfl

/-- `procToken` on the closing bracket of the outermost array installs it as
the root and empties the stack. -/
theorem procToken_close_arr_root (root : UniValue) (acc : Values)
    (tv : List Nat) (lt : Jtok) (E : Expect)
    (hE : E = { arrValue := true } ∨ E = { notValue := true })
    (hlt : (lt == tComma) = false) :
    procToken ⟨root, E, [.farr acc]⟩ tArrClose tv lt =
      some ⟨varr acc, { notValue := true }, []⟩ := by
  rcases hE with rfl | rfl <;>
  · show (if (lt == tComma) = true then none
        else some (⟨varr acc, { notValue := true }, []⟩ : LState)) = _
    rw [hlt]
    rfl

/-- `procToken` on a scalar token in a value position writes the scalar into
the top frame. -/
theorem procToken_value_push (root : UniValue) (top : Frame) (rs : List Frame)
    (tv : List Nat) (lt : Jtok) (E : Expect)
    (hE : E = { value := true } ∨ E = { arrValue := true })
    (tok : Jtok) (tmp : UniValue)
    (htok : (tok = tKwNull ∧ tmp = .vnull) ∨ (tok = tKwTrue ∧ tmp = .vtrue) ∨
      (tok = tKwFalse ∧ tmp = .vfalse) ∨ (tok = tNumber ∧ tmp = .vnum tv) ∨
      (tok = tString ∧ tmp = .vstr tv)) :
    procToken ⟨root, E, top :: rs⟩ tok tv lt =
      some ⟨root, { notValue := true }, writeTop top tmp :: rs⟩ := by
  rcases hE with rfl | rfl <;>
    rcases htok with ⟨rfl, rfl⟩ | ⟨rfl, rfl⟩ | ⟨rfl, rfl⟩ | ⟨rfl, rfl⟩ | ⟨rfl, rfl⟩ <;>
    rfl

/-- `getJsonToken` emission at a number literal followed by a non-number
byte. -/
theorem getJsonToken_number {s : List Nat} (hg : goodNum s = true) (rest : List Nat)
    (h1 : json_isdigit (peek rest) = false) (h2 : peek rest ≠ 46)
    (h3 : peek rest ≠ 101) (h4 : peek rest ≠ 69) :
    getJsonToken (s ++ rest) = ⟨tNumber, s, rest⟩ := by
  simp only [goodNum, Bool.and_eq_true, decide_eq_true_eq] at hg
  obtain ⟨hhead, hlex⟩ := hg
  obtain ⟨hshape, -⟩ := lexNumber_struct (by tauto) hlex
  have hcore := tokenCore_number hshape h1 h2 h3 h4
  unfold getJsonToken
  cases s with
  | nil => simp [peek, json_isdigit] at hhead
  | cons c s' =>
    have hsp : json_isspace c = false := by
      simp only [peek, List.headD] at hhead
      rcases hhead with h | h
      · subst h; rfl
      · simp only [json_isdigit, Bool.and_eq_true, decide_eq_true_eq] at h
        simp only [json_isspace]
        simp only [Bool.or_eq_false_iff, beq_eq_false_iff_ne]
        omega
    rw [List.cons_append, dropWhile_cons_neg _ hsp, ← List.cons_append]
    exact hcore

/-- `getJsonToken` emission at a serialized string. -/
theorem getJsonToken_string {s : List Nat} (hs : goodStr s = true) (rest : List Nat) :
    getJsonToken (34 :: (jsonEscape s ++ 34 :: rest)) = ⟨tString, s, rest⟩ := by
  unfold getJsonToken
  rw [dropWhile_cons_neg _ (by rfl)]
  exact tokenCore_string s hs rest

/-! ## Compact serializer text shapes -/

theorem stringify_null : stringifyUV .vnull 0 0 = [110, 117, 108, 108] := rfl

theorem stringify_false : stringifyUV .vfalse 0 0 = [102, 97, 108, 115, 101] := rfl

theorem stringify_true : stringifyUV .vtrue 0 0 = [116, 114, 117, 101] := rfl

theorem stringify_num (s : List Nat) : stringifyUV (.vnum s) 0 0 = s := rfl

theorem stringify_str (s : List Nat) (rest : List Nat) :
    stringifyUV (.vstr s) 0 0 ++ rest = 34 :: (jsonEscape s ++ 34 :: rest) := by
  show (34 :: jsonEscape s ++ [34]) ++ rest = _
  simp

theorem stringify_obj_nil : stringifyUV (.vobj .nil) 0 0 = [123, 125] := rfl

theorem stringify_arr_nil : stringifyUV (.varr .nil) 0 0 = [91, 93] := rfl

theorem stringify_obj_cons (k : List Nat) (v : UniValue) (r : Entries) (rest : List Nat) :
    stringifyUV (.vobj (.cons k v r)) 0 0 ++ rest =
      123 :: (stringifyEntries (.cons k v r) 0 0 ++ 125 :: rest) := by
  show (123 :: stringifyEntries (.cons k v r) 0 (0 + 0) ++ startNewLine 0 0 ++ [125]) ++ rest = _
  simp [startNewLine]

theorem stringify_arr_cons (v : UniValue) (r : Values) (rest : List Nat) :
    stringifyUV (.varr (.cons v r)) 0 0 ++ rest =
      91 :: (stringifyValues (.cons v r) 0 0 ++ 93 :: rest) := by
  show (91 :: stringifyValues (.cons v r) 0 (0 + 0) ++ startNewLine 0 0 ++ [93]) ++ rest = _
  simp [startNewLine]

theorem stringifyEntries_last (k : List Nat) (v : UniValue) (rest : List Nat) :
    stringifyEntries (.cons k v .nil) 0 0 ++ rest =
      34 :: (jsonEscape k ++ 34 :: 58 :: (stringifyUV v 0 0 ++ rest)) := by
  show (startNewLine 0 0 ++ (34 :: jsonEscape k ++ [34, 58]) ++
      (if (0 : Nat) ≠ 0 then [32] else []) ++ stringifyUV v 0 0 ++ []) ++ rest = _
  simp [startNewLine]

theorem stringifyEntries_more (k : List Nat) (v : UniValue) (k2 : List Nat) (v2 : UniValue)
    (r2 : Entries) (rest : List Nat) :
    stringifyEntries (.cons k v (.cons k2 v2 r2)) 0 0 ++ rest =
      34 :: (jsonEscape k ++ 34 :: 58 :: (stringifyUV v 0 0 ++
        44 :: (stringifyEntries (.cons k2 v2 r2) 0 0 ++ rest))) := by
  show (startNewLine 0 0 ++ (34 :: jsonEscape k ++ [34, 58]) ++
      (if (0 : Nat) ≠ 0 then [32] else []) ++ stringifyUV v 0 0 ++
      (44 :: stringifyEntries (.cons k2 v2 r2) 0 0)) ++ rest = _
  simp [startNewLine]

theorem stringifyValues_last (v : UniValue) (rest : List Nat) :
    stringifyValues (.cons v .nil) 0 0 ++ rest = stringifyUV v 0 0 ++ rest := by
  show (startNewLine 0 0 ++ stringifyUV v 0 0 ++ []) ++ rest = _
  simp [startNewLine]

theorem stringifyValues_more (v v2 : UniValue) (r2 : Values) (rest : List Nat) :
    stringifyValues (.cons v (.cons v2 r2)) 0 0 ++ rest =
      stringifyUV v 0 0 ++ 44 :: (stringifyValues (.cons v2 r2) 0 0 ++ rest) := by
  show (startNewLine 0 0 ++ stringifyUV v 0 0 ++
      (44 :: stringifyValues (.cons v2 r2) 0 0)) ++ rest = _
  simp [startNewLine]

/-! ## Round-trip simulation -/

mutual
/-- Parsing the compact serialization of a good value from a value position
inside a container writes exactly that value into the top frame. -/
theorem simVal : ∀ (v : UniValue), GoodB v = true →
    ∀ (root : UniValue) (E : Expect) (top : Frame) (rs : List Frame) (rest : List Nat)
      (lt : Jtok) (fuel : Nat),
      (E = { value := true } ∨ E = { arrValue := true }) →
      (top :: rs).length + udepth v ≤ MAX_JSON_DEPTH →
      json_isdigit (peek rest) = false → peek rest ≠ 46 → peek rest ≠ 101 →
      peek rest ≠ 69 →
      (stringifyUV v 0 0 ++ rest).length < fuel →
      parseLoopF fuel (stringifyUV v 0 0 ++ rest) ⟨root, E, top :: rs⟩ lt =
        parseLoopF (rest.length + 1) rest
          ⟨root, { notValue := true }, writeTop top v :: rs⟩ (lastTokOf v)
  | .vnull, hg => by
    intro root E top rs rest lt fuel hE hdep hs1 hs2 hs3 hs4 hfuel
    have hL : (stringifyUV .vnull 0 0 ++ rest).length = 4 + rest.length := by
      rw [stringify_null]; simp; omega
    obtain ⟨m, rfl⟩ : ∃ m, fuel = m + 1 := ⟨fuel - 1, by omega⟩
    exact (parseLoopF_go m (110 :: 117 :: 108 :: 108 :: rest) ⟨root, E, top :: rs⟩ lt
        ⟨tKwNull, [], rest⟩
        ⟨root, { notValue := true }, writeTop top .vnull :: rs⟩
        rfl (by simp) (by simp)
        (procToken_value_push root top rs [] lt E hE tKwNull .vnull (Or.inl ⟨rfl, rfl⟩))
        (by simp)).trans
      (parseLoopF_enough rest _ _ (by omega) (by omega))
  | .vfalse, hg => by
    intro root E top rs rest lt fuel hE hdep hs1 hs2 hs3 hs4 hfuel
    have hL : (stringifyUV .vfalse 0 0 ++ rest).length = 5 + rest.length := by
      rw [stringify_false]; simp; omega
    obtain ⟨m, rfl⟩ : ∃ m, fuel = m + 1 := ⟨fuel - 1, by omega⟩
    exact (parseLoopF_go m (102 :: 97 :: 108 :: 115 :: 101 :: rest) ⟨root, E, top :: rs⟩ lt
        ⟨tKwFalse, [], rest⟩
        ⟨root, { notValue := true }, writeTop top .vfalse :: rs⟩
        rfl (by simp) (by simp)
        (procToken_value_push root top rs [] lt E hE tKwFalse .vfalse
          (Or.inr (Or.inr (Or.inl ⟨rfl, rfl⟩))))
        (by simp)).trans
      (parseLoopF_enough rest _ _ (by omega) (by omega))
  | .vtrue, hg => by
    intro root E top rs rest lt fuel hE hdep hs1 hs2 hs3 hs4 hfuel
    have hL : (stringifyUV .vtrue 0 0 ++ rest).length = 4 + rest.length := by
      rw [stringify_true]; simp; omega
    obtain ⟨m, rfl⟩ : ∃ m, fuel = m + 1 := ⟨fuel - 1, by omega⟩
    exact (parseLoopF_go m (116 :: 114 :: 117 :: 101 :: rest) ⟨root, E, top :: rs⟩ lt
        ⟨tKwTrue, [], rest⟩
        ⟨root, { notValue := true }, writeTop top .vtrue :: rs⟩
        rfl (by simp) (by simp)
        (procToken_value_push root top rs [] lt E hE tKwTrue .vtrue
          (Or.inr (Or.inl ⟨rfl, rfl⟩)))
        (by simp)).trans
      (parseLoopF_enough rest _ _ (by omega) (by omega))
  | .vnum s, hg => by
    intro root E top rs rest lt fuel hE hdep hs1 hs2 hs3 hs4 hfuel
    have hne : s ≠ [] := by
      intro h
      subst h
      have hg2 : goodNum [] = true := hg
      simp [goodNum, peek, json_isdigit] at hg2
    have h1 : 1 ≤ s.length := List.length_pos.mpr hne
    have hL : (stringifyUV (.vnum s) 0 0 ++ rest).length = s.length + rest.length := by
      rw [stringify_num]
      exact List.length_append s rest
    obtain ⟨m, rfl⟩ : ∃ m, fuel = m + 1 := ⟨fuel - 1, by omega⟩
    exact (parseLoopF_go m (s ++ rest) ⟨root, E, top :: rs⟩ lt
        ⟨tNumber, s, rest⟩
        ⟨root, { notValue := true }, writeTop top (.vnum s) :: rs⟩
        (getJsonToken_number hg rest hs1 hs2 hs3 hs4) (by simp) (by simp)
        (procToken_value_push root top rs s lt E hE tNumber (.vnum s)
          (Or.inr (Or.inr (Or.inr (Or.inl ⟨rfl, rfl⟩)))))
        (by simp)).trans
      (parseLoopF_enough rest _ _ (by omega) (by omega))
  | .vstr s, hg => by
    intro root E top rs rest lt fuel hE hdep hs1 hs2 hs3 hs4 hfuel
    have hL : (stringifyUV (.vstr s) 0 0 ++ rest).length =
        (jsonEscape s).length + rest.length + 2 := by
      rw [stringify_str]; simp; omega
    obtain ⟨m, rfl⟩ : ∃ m, fuel = m + 1 := ⟨fuel - 1, by omega⟩
    rw [stringify_str]
    exact (parseLoopF_go m (34 :: (jsonEscape s ++ 34 :: rest)) ⟨root, E, top :: rs⟩ lt
        ⟨tString, s, rest⟩
        ⟨root, { notValue := true }, writeTop top (.vstr s) :: rs⟩
        (getJsonToken_string hg rest) (by simp) (by simp)
        (procToken_value_push root top rs s lt E hE tString (.vstr s)
          (Or.inr (Or.inr (Or.inr (Or.inr ⟨rfl, rfl⟩)))))
        (by simp)).trans
      (parseLoopF_enough rest _ _ (by omega) (by omega))
  | .vobj es, hg => by
    intro root E top rs rest lt fuel hE hdep hs1 hs2 hs3 hs4 hfuel
    have hE' : E = { value := true } ∨ E = { arrValue := true } ∨ E = {} :=
      hE.elim Or.inl (fun h => Or.inr (Or.inl h))
    cases es with
    | nil =>
      have hL : (stringifyUV (.vobj .nil) 0 0 ++ rest).length = 2 + rest.length := by
        rw [stringify_obj_nil]; simp; omega
      obtain ⟨m, rfl⟩ : ∃ m, fuel = m + 2 := ⟨fuel - 2, by omega⟩
      have hS : (top :: rs).length + 1 ≤ MAX_JSON_DEPTH := by
        have hud : udepth (.vobj .nil) = 1 := rfl
        omega
      exact (parseLoopF_go (m + 1) (123 :: 125 :: rest) ⟨root, E, top :: rs⟩ lt
          ⟨tObjOpen, [], 125 :: rest⟩
          ⟨root, { objName := true }, .fobj .nil :: top :: rs⟩
          rfl (by simp) (by simp)
          (procToken_open_obj root [] lt E hE' hS) (by simp)).trans
        ((parseLoopF_go m (125 :: rest)
          ⟨root, { objName := true }, .fobj .nil :: top :: rs⟩ tObjOpen
          ⟨tObjClose, [], rest⟩
          ⟨root, { notValue := true }, writeTop top (.vobj .nil) :: rs⟩
          rfl (by simp) (by simp)
          (procToken_close_obj root .nil top rs [] tObjOpen _ (Or.inl rfl) rfl)
          (by simp)).trans
        (parseLoopF_enough rest _ _ (by omega) (by omega)))
    | cons k v r =>
      have hud : udepth (.vobj (.cons k v r)) = 1 + udepthEntries (.cons k v r) := rfl
      have hL : (stringifyUV (.vobj (.cons k v r)) 0 0 ++ rest).length =
          (stringifyEntries (.cons k v r) 0 0 ++ 125 :: rest).length + 1 := by
        rw [stringify_obj_cons]; simp
      obtain ⟨m, rfl⟩ : ∃ m, fuel = m + 1 := ⟨fuel - 1, by omega⟩
      rw [stringify_obj_cons]
      have hS : (top :: rs).length + 1 ≤ MAX_JSON_DEPTH := by omega
      have hdep' : (Frame.fobj .nil :: top :: rs).length +
          udepthEntries (.cons k v r) ≤ MAX_JSON_DEPTH := by
        simp only [List.length_cons] at hdep ⊢
        omega
      rw [parseLoopF_go m (123 :: (stringifyEntries (.cons k v r) 0 0 ++ 125 :: rest))
        ⟨root, E, top :: rs⟩ lt
        ⟨tObjOpen, [], stringifyEntries (.cons k v r) 0 0 ++ 125 :: rest⟩
        ⟨root, { objName := true }, .fobj .nil :: top :: rs⟩
        rfl (by simp) (by simp)
        (procToken_open_obj root [] lt E hE' hS) (by simp)]
      rw [simEntries k v r hg root .nil (top :: rs) (125 :: rest) tObjOpen m hdep'
        rfl (by simp [peek]) (by simp [peek]) (by simp [peek]) (by omega)]
      rw [parseLoopF_go ((125 :: rest).length) (125 :: rest)
        ⟨root, { notValue := true },
          .fobj (Entries.cat .nil (.cons k v r)) :: top :: rs⟩
        (entriesLastTok (.cons k v r))
        ⟨tObjClose, [], rest⟩
        ⟨root, { notValue := true },
          writeTop top (.vobj (Entries.cat .nil (.cons k v r))) :: rs⟩
        rfl (by simp) (by simp)
        (procToken_close_obj root (Entries.cat .nil (.cons k v r)) top rs []
          (entriesLastTok (.cons k v r)) _ (Or.inr rfl)
          (Bool.or_eq_false_iff.mp (entriesLastTok_notSep k v r)).1)
        (by simp)]
      rfl
  | .varr vs, hg => by
    intro root E top rs rest lt fuel hE hdep hs1 hs2 hs3 hs4 hfuel
    have hE' : E = { value := true } ∨ E = { arrValue := true } ∨ E = {} :=
      hE.elim Or.inl (fun h => Or.inr (Or.inl h))
    cases vs with
    | nil =>
      have hL : (stringifyUV (.varr .nil) 0 0 ++ rest).length = 2 + rest.length := by
        rw [stringify_arr_nil]; simp; omega
      obtain ⟨m, rfl⟩ : ∃ m, fuel = m + 2 := ⟨fuel - 2, by omega⟩
      have hS : (top :: rs).length + 1 ≤ MAX_JSON_DEPTH := by
        have hud : udepth (.varr .nil) = 1 := rfl
        omega
      exact (parseLoopF_go (m + 1) (91 :: 93 :: rest) ⟨root, E, top :: rs⟩ lt
          ⟨tArrOpen, [], 93 :: rest⟩
          ⟨root, { arrValue := true }, .farr .nil :: top :: rs⟩
          rfl (by simp) (by simp)
          (procToken_open_arr root [] lt E hE' hS) (by simp)).trans
        ((parseLoopF_go m (93 :: rest)
          ⟨root, { arrValue := true }, .farr .nil :: top :: rs⟩ tArrOpen
          ⟨tArrClose, [], rest⟩
          ⟨root, { notValue := true }, writeTop top (.varr .nil) :: rs⟩
          rfl (by simp) (by simp)
          (procToken_close_arr root .nil top rs [] tArrOpen _ (Or.inl rfl) rfl)
          (by simp)).trans
        (parseLoopF_enough rest _ _ (by omega) (by omega)))
    | cons v r =>
      have hud : udepth (.varr (.cons v r)) = 1 + udepthValues (.cons v r) := rfl
      have hL : (stringifyUV (.varr (.cons v r)) 0 0 ++ rest).length =
          (stringifyValues (.cons v r) 0 0 ++ 93 :: rest).length + 1 := by
        rw [stringify_arr_cons]; simp
      obtain ⟨m, rfl⟩ : ∃ m, fuel = m + 1 := ⟨fuel - 1, by omega⟩
      rw [stringify_arr_cons]
      have hS : (top :: rs).length + 1 ≤ MAX_JSON_DEPTH := by omega
      have hdep' : (Frame.farr .nil :: top :: rs).length +
          udepthValues (.cons v r) ≤ MAX_JSON_DEPTH := by
        simp only [List.length_cons] at hdep ⊢
        omega
      rw [parseLoopF_go m (91 :: (stringifyValues (.cons v r) 0 0 ++ 93 :: rest))
        ⟨root, E, top :: rs⟩ lt
        ⟨tArrOpen, [], stringifyValues (.cons v r) 0 0 ++ 93 :: rest⟩
        ⟨root, { arrValue := true }, .farr .nil :: top :: rs⟩
        rfl (by simp) (by simp)
        (procToken_open_arr root [] lt E hE' hS) (by simp)]
      rw [simValues v r hg root .nil (top :: rs) (93 :: rest) tArrOpen m hdep'
        rfl (by simp [peek]) (by simp [peek]) (by simp [peek]) (by omega)]
      rw [parseLoopF_go ((93 :: rest).length) (93 :: rest)
        ⟨root, { notValue := true },
          .farr (Values.cat .nil (.cons v r)) :: top :: rs⟩
        (valuesLastTok (.cons v r))
        ⟨tArrClose, [], rest⟩
        ⟨root, { notValue := true },
          writeTop top (.varr (Values.cat .nil (.cons v r))) :: rs⟩
        rfl (by simp) (by simp)
        (procToken_close_arr root (Values.cat .nil (.cons v r)) top rs []
          (valuesLastTok (.cons v r)) _ (Or.inr rfl)
          (Bool.or_eq_false_iff.mp (valuesLastTok_notSep v r)).1)
        (by simp)]
      rfl

termination_by v hg => sizeOf v

/-- Parsing the serialized entry list of a non-empty object appends exactly
those entries to the open object frame. -/
theorem simEntries : ∀ (k : List Nat) (v : UniValue) (r : Entries),
    GoodEntries (.cons k v r) = true →
    ∀ (root : UniValue) (acc : Entries) (rs : List Frame) (rest : List Nat)
      (lt : Jtok) (fuel : Nat),
      (Frame.fobj acc :: rs).length + udepthEntries (.cons k v r) ≤ MAX_JSON_DEPTH →
      json_isdigit (peek rest) = false → peek rest ≠ 46 → peek rest ≠ 101 →
      peek rest ≠ 69 →
      (stringifyEntries (.cons k v r) 0 0 ++ rest).length < fuel →
      parseLoopF fuel (stringifyEntries (.cons k v r) 0 0 ++ rest)
          ⟨root, { objName := true }, .fobj acc :: rs⟩ lt =
        parseLoopF (rest.length + 1) rest
          ⟨root, { notValue := true }, .fobj (Entries.cat acc (.cons k v r)) :: rs⟩
          (entriesLastTok (.cons k v r))
  | k, v, r, hg => by
    intro root acc rs rest lt fuel hdep hs1 hs2 hs3 hs4 hfuel
    rw [show GoodEntries (.cons k v r) = ((goodStr k && GoodB v) && GoodEntries r)
      from rfl, Bool.and_eq_true, Bool.and_eq_true] at hg
    obtain ⟨⟨hk, hv⟩, hr⟩ := hg
    have hmaxv : udepth v ≤ udepthEntries (.cons k v r) := Nat.le_max_left _ _
    cases r with
    | nil =>
      have hL : (stringifyEntries (.cons k v .nil) 0 0 ++ rest).length =
          (jsonEscape k).length + (stringifyUV v 0 0).length + rest.length + 3 := by
        rw [stringifyEntries_last]; simp; omega
      obtain ⟨m, rfl⟩ : ∃ m, fuel = m + 2 := ⟨fuel - 2, by omega⟩
      rw [stringifyEntries_last]
      rw [parseLoopF_go (m + 1)
        (34 :: (jsonEscape k ++ 34 :: 58 :: (stringifyUV v 0 0 ++ rest)))
        ⟨root, { objName := true }, .fobj acc :: rs⟩ lt
        ⟨tString, k, 58 :: (stringifyUV v 0 0 ++ rest)⟩
        ⟨root, { colon := true, notValue := true }, .fobj (acc.snoc k .vnull) :: rs⟩
        (getJsonToken_string hk _) (by simp) (by simp) rfl (by simp)]
      rw [parseLoopF_go m (58 :: (stringifyUV v 0 0 ++ rest))
        ⟨root, { colon := true, notValue := true }, .fobj (acc.snoc k .vnull) :: rs⟩
        tString
        ⟨tColon, [], stringifyUV v 0 0 ++ rest⟩
        ⟨root, { value := true }, .fobj (acc.snoc k .vnull) :: rs⟩
        rfl (by simp) (by simp) rfl (by simp)]
      rw [simVal v hv root _ (.fobj (acc.snoc k .vnull)) rs rest tColon m
        (Or.inl rfl) (by simp only [List.length_cons] at hdep ⊢; omega)
        hs1 hs2 hs3 hs4 (by rw [hL] at hfuel; simp only [List.length_append]; omega)]
      rw [show writeTop (.fobj (acc.snoc k .vnull)) v = .fobj (acc.snoc k v) from by
        simp only [writeTop]; rw [Entries.setLast_snoc]]
      rw [show Entries.cat acc (.cons k v .nil) = acc.snoc k v from by
        rw [← entries_snoc_cat, entries_cat_nil]]
      rfl
    | cons k2 v2 r2 =>
      have hL : (stringifyEntries (.cons k v (.cons k2 v2 r2)) 0 0 ++ rest).length =
          (jsonEscape k).length + (stringifyUV v 0 0).length +
            (stringifyEntries (.cons k2 v2 r2) 0 0).length + rest.length + 4 := by
        rw [stringifyEntries_more]; simp; omega
      obtain ⟨m, rfl⟩ : ∃ m, fuel = m + 2 := ⟨fuel - 2, by omega⟩
      rw [stringifyEntries_more]
      rw [parseLoopF_go (m + 1)
        (34 :: (jsonEscape k ++ 34 :: 58 :: (stringifyUV v 0 0 ++
          44 :: (stringifyEntries (.cons k2 v2 r2) 0 0 ++ rest))))
        ⟨root, { objName := true }, .fobj acc :: rs⟩ lt
        ⟨tString, k, 58 :: (stringifyUV v 0 0 ++
          44 :: (stringifyEntries (.cons k2 v2 r2) 0 0 ++ rest))⟩
        ⟨root, { colon := true, notValue := true }, .fobj (acc.snoc k .vnull) :: rs⟩
        (getJsonToken_string hk _) (by simp) (by simp) rfl (by simp)]
      rw [parseLoopF_go m
        (58 :: (stringifyUV v 0 0 ++
          44 :: (stringifyEntries (.cons k2 v2 r2) 0 0 ++ rest)))
        ⟨root, { colon := true, notValue := true }, .fobj (acc.snoc k .vnull) :: rs⟩
        tString
        ⟨tColon, [], stringifyUV v 0 0 ++
          44 :: (stringifyEntries (.cons k2 v2 r2) 0 0 ++ rest)⟩
        ⟨root, { value := true }, .fobj (acc.snoc k .vnull) :: rs⟩
        rfl (by simp) (by simp) rfl (by simp)]
      rw [simVal v hv root _ (.fobj (acc.snoc k .vnull)) rs
        (44 :: (stringifyEntries (.cons k2 v2 r2) 0 0 ++ rest)) tColon m
        (Or.inl rfl) (by simp only [List.length_cons] at hdep ⊢; omega)
        rfl (by simp [peek]) (by simp [peek]) (by simp [peek])
        (by rw [hL] at hfuel; simp only [List.length_append, List.length_cons]; omega)]
      rw [show writeTop (.fobj (acc.snoc k .vnull)) v = .fobj (acc.snoc k v) from by
        simp only [writeTop]; rw [Entries.setLast_snoc]]
      rw [parseLoopF_go ((44 :: (stringifyEntries (.cons k2 v2 r2) 0 0 ++ rest)).length)
        (44 :: (stringifyEntries (.cons k2 v2 r2) 0 0 ++ rest))
        ⟨root, { notValue := true }, .fobj (acc.snoc k v) :: rs⟩ (lastTokOf v)
        ⟨tComma, [], stringifyEntries (.cons k2 v2 r2) 0 0 ++ rest⟩
        ⟨root, { objName := true }, .fobj (acc.snoc k v) :: rs⟩
        rfl (by simp) (by simp)
        (procToken_comma_obj root (acc.snoc k v) rs [] (lastTokOf v)
          (lastTokOf_notSep v))
        (by simp)]
      rw [simEntries k2 v2 r2 hr root (acc.snoc k v) rs rest tComma
        ((44 :: (stringifyEntries (.cons k2 v2 r2) 0 0 ++ rest)).length)
        (by
          have hmax : udepthEntries (.cons k2 v2 r2) ≤
            udepthEntries (.cons k v (.cons k2 v2 r2)) := Nat.le_max_right _ _
          simp only [List.length_cons] at hdep ⊢
          omega)
        hs1 hs2 hs3 hs4
        (by simp only [List.length_cons]; omega)]
      rw [entries_snoc_cat]
      rfl

termination_by k v r hg => sizeOf (Entries.cons k v r)

/-- Parsing the serialized element list of a non-empty array appends exactly
those elements to the open array frame. -/
theorem simValues : ∀ (v : UniValue) (r : Values),
    GoodValues (.cons v r) = true →
    ∀ (root : UniValue) (acc : Values) (rs : List Frame) (rest : List Nat)
      (lt : Jtok) (fuel : Nat),
      (Frame.farr acc :: rs).length + udepthValues (.cons v r) ≤ MAX_JSON_DEPTH →
      json_isdigit (peek rest) = false → peek rest ≠ 46 → peek rest ≠ 101 →
      peek rest ≠ 69 →
      (stringifyValues (.cons v r) 0 0 ++ rest).length < fuel →
      parseLoopF fuel (stringifyValues (.cons v r) 0 0 ++ rest)
          ⟨root, { arrValue := true }, .farr acc :: rs⟩ lt =
        parseLoopF (rest.length + 1) rest
          ⟨root, { notValue := true }, .farr (Values.cat acc (.cons v r)) :: rs⟩
          (valuesLastTok (.cons v r))
  | v, r, hg => by
    intro root acc rs rest lt fuel hdep hs1 hs2 hs3 hs4 hfuel
    rw [show GoodValues (.cons v r) = (GoodB v && GoodValues r) from rfl,
      Bool.and_eq_true] at hg
    obtain ⟨hv, hr⟩ := hg
    have hmaxv : udepth v ≤ udepthValues (.cons v r) := Nat.le_max_left _ _
    cases r with
    | nil =>
      rw [stringifyValues_last]
      rw [simVal v hv root _ (.farr acc) rs rest lt fuel
        (Or.inr rfl) (by simp only [List.length_cons] at hdep ⊢; omega)
        hs1 hs2 hs3 hs4 (by rw [stringifyValues_last] at hfuel; exact hfuel)]
      rw [show Values.cat acc (.cons v .nil) = acc.snoc v from by
        rw [← values_snoc_cat, values_cat_nil]]
      rfl
    | cons v2 r2 =>
      have hL : (stringifyValues (.cons v (.cons v2 r2)) 0 0 ++ rest).length =
          (stringifyUV v 0 0).length +
            (stringifyValues (.cons v2 r2) 0 0).length + rest.length + 1 := by
        rw [stringifyValues_more]; simp; omega
      rw [stringifyValues_more]
      rw [simVal v hv root _ (.farr acc) rs
        (44 :: (stringifyValues (.cons v2 r2) 0 0 ++ rest)) lt fuel
        (Or.inr rfl) (by simp only [List.length_cons] at hdep ⊢; omega)
        rfl (by simp [peek]) (by simp [peek]) (by simp [peek])
        (by rw [hL] at hfuel; simp only [List.length_append, List.length_cons]; omega)]
      rw [show writeTop (.farr acc) v = .farr (acc.snoc v) from rfl]
      rw [parseLoopF_go ((44 :: (stringifyValues (.cons v2 r2) 0 0 ++ rest)).length)
        (44 :: (stringifyValues (.cons v2 r2) 0 0 ++ rest))
        ⟨root, { notValue := true }, .farr (acc.snoc v) :: rs⟩ (lastTokOf v)
        ⟨tComma, [], stringifyValues (.cons v2 r2) 0 0 ++ rest⟩
        ⟨root, { arrValue := true }, .farr (acc.snoc v) :: rs⟩
        rfl (by simp) (by simp)
        (procToken_comma_arr root (acc.snoc v) rs [] (lastTokOf v)
          (lastTokOf_notSep v))
        (by simp)]
      rw [simValues v2 r2 hr root (acc.snoc v) rs rest tComma
        ((44 :: (stringifyValues (.cons v2 r2) 0 0 ++ rest)).length)
        (by
          have hmax : udepthValues (.cons v2 r2) ≤
            udepthValues (.cons v (.cons v2 r2)) := Nat.le_max_right _ _
          simp only [List.length_cons] at hdep ⊢
          omega)
        hs1 hs2 hs3 hs4
        (by simp only [List.length_cons]; omega)]
      rw [values_snoc_cat]
      rfl
termination_by v r hg => sizeOf (Values.cons v r)
end

/-- The parser loop on the compact serialization of a good value within the
depth ceiling builds exactly that value and consumes the whole buffer. -/
theorem parseRoot (v : UniValue) (hg : GoodB v = true)
    (hd : udepth v ≤ MAX_JSON_DEPTH) :
    parseLoopF ((stringify v 0).length + 1) (stringify v 0) ⟨.vnull, {}, []⟩ tEOF =
      some (v, []) := by
  cases v with
  | vnull => rfl
  | vfalse => rfl
  | vtrue => rfl
  | vnum s =>
    have htk : getJsonToken s = ⟨tNumber, s, []⟩ := by
      have h := getJsonToken_number hg [] rfl (by decide) (by decide) (by decide)
      rwa [List.append_nil] at h
    exact parseLoopF_done (s.length) s ⟨.vnull, {}, []⟩ tEOF ⟨tNumber, s, []⟩
      ⟨.vnum s, {}, []⟩ htk (by simp) (by simp) rfl rfl
  | vstr s =>
    rw [show (stringify (.vstr s) 0).length = (jsonEscape s).length + 2 from by
      rw [show stringify (.vstr s) 0 = 34 :: jsonEscape s ++ [34] from rfl]
      simp]
    exact parseLoopF_done ((jsonEscape s).length + 2) (34 :: (jsonEscape s ++ 34 :: []))
      ⟨.vnull, {}, []⟩ tEOF ⟨tString, s, []⟩ ⟨.vstr s, {}, []⟩
      (getJsonToken_string hg []) (by simp) (by simp) rfl rfl
  | vobj es =>
    cases es with
    | nil => rfl
    | cons k v r =>
      have hbuf : stringify (.vobj (.cons k v r)) 0 =
          123 :: (stringifyEntries (.cons k v r) 0 0 ++ 125 :: []) := by
        have h := stringify_obj_cons k v r []
        rwa [List.append_nil] at h
      rw [hbuf, List.length_cons]
      have hud : udepth (.vobj (.cons k v r)) = 1 + udepthEntries (.cons k v r) := rfl
      refine (parseLoopF_go ((stringifyEntries (.cons k v r) 0 0 ++ 125 :: []).length + 1)
        (123 :: (stringifyEntries (.cons k v r) 0 0 ++ 125 :: []))
        ⟨.vnull, {}, []⟩ tEOF
        ⟨tObjOpen, [], stringifyEntries (.cons k v r) 0 0 ++ 125 :: []⟩
        ⟨.vnull, { objName := true }, [.fobj .nil]⟩
        rfl (by simp) (by simp)
        (procToken_open_obj .vnull [] tEOF {} (Or.inr (Or.inr rfl)) (by decide))
        (by simp)).trans ?_
      refine (simEntries k v r hg .vnull .nil [] (125 :: []) tObjOpen
        ((stringifyEntries (.cons k v r) 0 0 ++ 125 :: []).length + 1)
        (by simp only [List.length_cons, List.length_nil]; omega)
        rfl (by decide) (by decide) (by decide) (by omega)).trans ?_
      exact parseLoopF_done ((125 :: ([] : List Nat)).length) (125 :: [])
        ⟨.vnull, { notValue := true }, [.fobj (Entries.cat .nil (.cons k v r))]⟩
        (entriesLastTok (.cons k v r))
        ⟨tObjClose, [], []⟩
        ⟨.vobj (Entries.cat .nil (.cons k v r)), { notValue := true }, []⟩
        rfl (by simp) (by simp)
        (procToken_close_obj_root .vnull (Entries.cat .nil (.cons k v r)) []
          (entriesLastTok (.cons k v r)) _ (Or.inr rfl)
          (Bool.or_eq_false_iff.mp (entriesLastTok_notSep k v r)).1)
        rfl
  | varr vs =>
    cases vs with
    | nil => rfl
    | cons v r =>
      have hbuf : stringify (.varr (.cons v r)) 0 =
          91 :: (stringifyValues (.cons v r) 0 0 ++ 93 :: []) := by
        have h := stringify_arr_cons v r []
        rwa [List.append_nil] at h
      rw [hbuf, List.length_cons]
      have hud : udepth (.varr (.cons v r)) = 1 + udepthValues (.cons v r) := rfl
      refine (parseLoopF_go ((stringifyValues (.cons v r) 0 0 ++ 93 :: []).length + 1)
        (91 :: (stringifyValues (.cons v r) 0 0 ++ 93 :: []))
        ⟨.vnull, {}, []⟩ tEOF
        ⟨tArrOpen, [], stringifyValues (.cons v r) 0 0 ++ 93 :: []⟩
        ⟨.vnull, { arrValue := true }, [.farr .nil]⟩
        rfl (by simp) (by simp)
        (procToken_open_arr .vnull [] tEOF {} (Or.inr (Or.inr rfl)) (by decide))
        (by simp)).trans ?_
      refine (simValues v r hg .vnull .nil [] (93 :: []) tArrOpen
        ((stringifyValues (.cons v r) 0 0 ++ 93 :: []).length + 1)
        (by simp only [List.length_cons, List.length_nil]; omega)
        rfl (by decide) (by decide) (by decide) (by omega)).trans ?_
      exact parseLoopF_done ((93 :: ([] : List Nat)).length) (93 :: [])
        ⟨.vnull, { notValue := true }, [.farr (Values.cat .nil (.cons v r))]⟩
        (valuesLastTok (.cons v r))
        ⟨tArrClose, [], []⟩
        ⟨.varr (Values.cat .nil (.cons v r)), { notValue := true }, []⟩
        rfl (by simp) (by simp)
        (procToken_close_arr_root .vnull (Values.cat .nil (.cons v r)) []
          (valuesLastTok (.cons v r)) _ (Or.inr rfl)
          (Bool.or_eq_false_iff.mp (valuesLastTok_notSep v r)).1)
        rfl

/-- `UniValue::read` on the compact serialization of a good value within the
depth ceiling succeeds, builds that value and stops at the end of the
buffer. -/
theorem readC_stringify (v : UniValue) (hg : GoodB v = true)
    (hd : udepth v ≤ MAX_JSON_DEPTH) :
    readC (stringify v 0) = some (v, []) := by
  unfold readC
  rw [parseRoot v hg hd]
  rfl

/-- `read(std::string)` on the compact serialization of a good value within
the depth ceiling succeeds with exactly that value. -/
theorem readStr_stringify (v : UniValue) (hg : GoodB v = true)
    (hd : udepth v ≤ MAX_JSON_DEPTH) :
    readStr (stringify v 0) = some v := by
  unfold readStr
  rw [readC_stringify v hg hd]
  rfl

/-! ## Verbatim number storage (claim C2) -/

/-- Whenever the tokenizer emits a number token, the stored token text
followed by the unconsumed rest is exactly the input: the matched substring
is stored verbatim. -/
theorem tokenCore_number_src : ∀ {l tv rest : List Nat},
    tokenCore l = ⟨tNumber, tv, rest⟩ → tv ++ rest = l := by
  intro l tv rest h
  unfold tokenCore at h
  cases l with
  | nil => exact absurd h (by simp)
  | cons c r =>
    dsimp only at h
    by_cases h0 : c = 0
    · rw [if_pos h0] at h; exact absurd h (by simp)
    rw [if_neg h0] at h
    by_cases h123 : c = 123
    · rw [if_pos h123] at h; exact absurd h (by simp)
    rw [if_neg h123] at h
    by_cases h125 : c = 125
    · rw [if_pos h125] at h; exact absurd h (by simp)
    rw [if_neg h125] at h
    by_cases h91 : c = 91
    · rw [if_pos h91] at h; exact absurd h (by simp)
    rw [if_neg h91] at h
    by_cases h93 : c = 93
    · rw [if_pos h93] at h; exact absurd h (by simp)
    rw [if_neg h93] at h
    by_cases h58 : c = 58
    · rw [if_pos h58] at h; exact absurd h (by simp)
    rw [if_neg h58] at h
    by_cases h44 : c = 44
    · rw [if_pos h44] at h; exact absurd h (by simp)
    rw [if_neg h44] at h
    by_cases h110 : c = 110
    · rw [if_pos h110] at h
      split at h <;> exact absurd h (by simp)
    rw [if_neg h110] at h
    by_cases h116 : c = 116
    · rw [if_pos h116] at h
      split at h <;> exact absurd h (by simp)
    rw [if_neg h116] at h
    by_cases h102 : c = 102
    · rw [if_pos h102] at h
      split at h <;> exact absurd h (by simp)
    rw [if_neg h102] at h
    by_cases hnum : c = 45 ∨ json_isdigit c
    · rw [if_pos hnum] at h
      cases hlex : lexNumber (c :: r) with
      | none => rw [hlex] at h; exact absurd h (by simp)
      | some p =>
        obtain ⟨tv', rest'⟩ := p
        rw [hlex] at h
        dsimp only at h
        injection h with htok hval hrest
        subst hval
        subst hrest
        exact (lexNumber_struct
          (show peek (c :: r) = 45 ∨ json_isdigit (peek (c :: r)) = true from hnum)
          hlex).2
    rw [if_neg hnum] at h
    by_cases h34 : c = 34
    · rw [if_pos h34] at h
      split at h
      · exact absurd h (by simp)
      · split at h <;> exact absurd h (by simp)
      · exact absurd h (by simp)
    rw [if_neg h34] at h
    exact absurd h (by simp)

/-! ## Depth ceiling (claim C3) -/

/-- Any container-open processed with the stack already at the ceiling
fails, whatever the expectation state. -/
theorem procToken_depth (root : UniValue) (E : Expect) (S : List Frame) (tok : Jtok)
    (tv : List Nat) (lt : Jtok) (htok : tok = tObjOpen ∨ tok = tArrOpen)
    (hS : MAX_JSON_DEPTH ≤ S.length) :
    procToken ⟨root, E, S⟩ tok tv lt = none := by
  rcases htok with rfl | rfl <;>
  · unfold procToken
    dsimp only
    split
    · rfl
    split
    · rfl
    rw [if_pos (by simp only [List.length_cons]; omega)]

theorem GoodB_nestA : ∀ n, GoodB (nestA n) = true
  | 0 => rfl
  | n + 1 => by
    show (GoodB (nestA n) && true) = true
    rw [GoodB_nestA n]
    rfl

theorem udepth_nestA : ∀ n, udepth (nestA n) = n + 1
  | 0 => rfl
  | n + 1 => by
    show 1 + max (udepth (nestA n)) 0 = n + 1 + 1
    rw [udepth_nestA n, Nat.max_zero]
    omega

/-- The compact serialization of `nestA n` is `n+1` open brackets followed
by `n+1` close brackets. -/
theorem nestA_text : ∀ n, stringify (nestA n) 0 =
    List.replicate (n + 1) 91 ++ List.replicate (n + 1) 93
  | 0 => rfl
  | n + 1 => by
    have h1 := stringify_arr_cons (nestA n) .nil []
    rw [List.append_nil] at h1
    have h2 := stringifyValues_last (nestA n) (93 :: [])
    show stringifyUV (.varr (.cons (nestA n) .nil)) 0 0 = _
    rw [h1, h2]
    rw [show stringifyUV (nestA n) 0 0 = stringify (nestA n) 0 from rfl]
    rw [nestA_text n]
    rw [show List.replicate (n + 1 + 1) 91 = 91 :: List.replicate (n + 1) 91 from rfl]
    rw [List.replicate_succ' (n + 1) 93]
    simp

/-- Runs of open brackets past the ceiling always fail to parse, from any
stack below the ceiling and any fuel. -/
theorem parseDeep : ∀ (k : Nat) (S : List Frame) (root : UniValue) (E : Expect)
    (lt : Jtok) (fuel : Nat) (suffix : List Nat),
    1 ≤ k → S.length ≤ MAX_JSON_DEPTH → MAX_JSON_DEPTH < S.length + k →
    (E = { value := true } ∨ E = { arrValue := true } ∨ E = {}) →
    parseLoopF fuel (List.replicate k 91 ++ suffix) ⟨root, E, S⟩ lt = none := by
  intro k
  induction k with
  | zero => intro S root E lt fuel suffix h1 h2 h3 hE; omega
  | succ n ih =>
    intro S root E lt fuel suffix h1 h2 h3 hE
    cases fuel with
    | zero => rfl
    | succ m =>
      rw [show List.replicate (n + 1) 91 = 91 :: List.replicate n 91 from rfl,
        List.cons_append]
      by_cases hd : MAX_JSON_DEPTH < S.length + 1
      · rw [parseLoopF_succ]
        dsimp only
        rw [show getJsonToken (91 :: (List.replicate n 91 ++ suffix)) =
          ⟨tArrOpen, [], List.replicate n 91 ++ suffix⟩ from rfl]
        rw [if_neg (by simp)]
        rw [procToken_depth root E S tArrOpen [] lt (Or.inr rfl) (by omega)]
      · rw [parseLoopF_go m (91 :: (List.replicate n 91 ++ suffix)) ⟨root, E, S⟩ lt
          ⟨tArrOpen, [], List.replicate n 91 ++ suffix⟩
          ⟨root, { arrValue := true }, .farr .nil :: S⟩
          rfl (by simp) (by simp)
          (procToken_open_arr root [] lt E hE (by omega)) (by simp)]
        exact ih (.farr .nil :: S) root _ tArrOpen m suffix (by omega)
          (by simp only [List.length_cons]; omega)
          (by simp only [List.length_cons]; omega)
          (Or.inr (Or.inl rfl))

/-- Nesting 513 arrays fails to parse. -/
theorem readStr_nestA512 : readStr (stringify (nestA 512) 0) = none := by
  rw [show stringify (nestA 512) 0 =
    List.replicate 513 91 ++ List.replicate 513 93 from nestA_text 512]
  unfold readStr readC
  rw [parseDeep 513 [] .vnull {} tEOF _ _ (by omega) (by decide) (by decide)
    (Or.inr (Or.inr rfl))]

/-- Nesting exactly 512 arrays round-trips. -/
theorem readStr_nestA511 : readStr (stringify (nestA 511) 0) = some (nestA 511) :=
  readStr_stringify (nestA 511) (GoodB_nestA 511)
    (by rw [udepth_nestA]; decide)

/-! ## Whitespace handling (claims C4, C5) -/

/-- A leading run of JSON whitespace does not affect the parser loop. -/
theorem parseLoopF_ws (ws pre : List Nat) (hws : ∀ c ∈ ws, json_isspace c = true)
    (st : LState) (lt : Jtok) (fuel₁ fuel₂ : Nat)
    (h₁ : (ws ++ pre).length < fuel₁) (h₂ : pre.length < fuel₂) :
    parseLoopF fuel₁ (ws ++ pre) st lt = parseLoopF fuel₂ pre st lt := by
  obtain ⟨a, rfl⟩ : ∃ a, fuel₁ = a + 1 := ⟨fuel₁ - 1, by omega⟩
  obtain ⟨b, rfl⟩ : ∃ b, fuel₂ = b + 1 := ⟨fuel₂ - 1, by omega⟩
  rw [parseLoopF_succ, parseLoopF_succ]
  dsimp only
  have htok : getJsonToken (ws ++ pre) = getJsonToken pre := by
    unfold getJsonToken
    rw [dropWhile_append_all pre hws]
  rw [htok]
  by_cases hEOF : (getJsonToken pre).tok = tEOF ∨ (getJsonToken pre).tok = tErr
  · rw [if_pos hEOF, if_pos hEOF]
  rw [if_neg hEOF, if_neg hEOF]
  cases hproc : procToken st (getJsonToken pre).tok (getJsonToken pre).val lt with
  | none => rfl
  | some st' =>
    dsimp only
    obtain ⟨rt, ex, sk⟩ := st'
    dsimp only
    cases sk with
    | nil => rfl
    | cons f fs =>
      have hrest := getJsonToken_rest_lt pre (fun h => hEOF (Or.inl h))
        (fun h => hEOF (Or.inr h))
      exact parseLoopF_enough _ _ _
        (by simp only [List.length_append] at h₁; omega) (by omega)

/-- `UniValue::read` ignores a leading run of JSON whitespace. -/
theorem readC_ws (ws pre : List Nat) (hws : ∀ c ∈ ws, json_isspace c = true) :
    readC (ws ++ pre) = readC pre := by
  unfold readC
  rw [parseLoopF_ws ws pre hws ⟨.vnull, {}, []⟩ tEOF ((ws ++ pre).length + 1)
    (pre.length + 1) (by omega) (by omega)]

/-- The first byte of an all-whitespace buffer stops a number token. -/
theorem wsStops (ws : List Nat) (h : ∀ c ∈ ws, json_isspace c = true) :
    json_isdigit (peek ws) = false ∧ peek ws ≠ 46 ∧ peek ws ≠ 101 ∧ peek ws ≠ 69 := by
  cases ws with
  | nil => exact ⟨rfl, by decide, by decide, by decide⟩
  | cons c r =>
    have hc := h c (by simp)
    simp only [json_isspace, Bool.or_eq_true, beq_iff_eq] at hc
    rw [peek_cons]
    exact ⟨by simp [json_isdigit]; omega, by omega, by omega, by omega⟩

theorem dropWhile_all_nil {p : Nat → Bool} {l : List Nat}
    (h : ∀ c ∈ l, p c = true) : l.dropWhile p = [] := by
  have h2 := dropWhile_append_all ([] : List Nat) h
  rwa [List.append_nil] at h2

/-- `validateAndStripNumStr` strips surrounding whitespace from a valid
number literal and accepts it. -/
theorem validateStrip_ws (ws1 ws2 t : List Nat)
    (h1 : ∀ c ∈ ws1, json_isspace c = true) (h2 : ∀ c ∈ ws2, json_isspace c = true)
    (ht : goodNum t = true) :
    validateAndStripNumStr (ws1 ++ (t ++ ws2)) = some t := by
  obtain ⟨hd1, hd2, hd3, hd4⟩ := wsStops ws2 h2
  have htk : getJsonToken (ws1 ++ (t ++ ws2)) = ⟨tNumber, t, ws2⟩ := by
    unfold getJsonToken
    rw [dropWhile_append_all (t ++ ws2) h1]
    have h3 := getJsonToken_number ht ws2 hd1 hd2 hd3 hd4
    unfold getJsonToken at h3
    exact h3
  unfold validateAndStripNumStr
  rw [htk]
  dsimp only
  rw [if_pos rfl]
  rw [show getJsonToken ws2 = ⟨tEOF, [], []⟩ from by
    unfold getJsonToken
    rw [dropWhile_all_nil h2]
    rfl]
  rfl

/-! ## Integer getters on fractional/exponent literals (claim C10) -/

/-- `strtoll64` on a number-token decomposition stops exactly at the
fraction/exponent part. -/
theorem strtoll64_rest (m ds fr ex : List Nat) (hm : m = [] ∨ m = [45])
    (hdsne : ds ≠ []) (hdsdig : ∀ c ∈ ds, json_isdigit c = true)
    (hstop : json_isdigit (peek (fr ++ ex)) = false) :
    (strtoll64 (m ++ (ds ++ (fr ++ ex)))).2.1 = fr ++ ex := by
  obtain ⟨d, ds', rfl⟩ : ∃ d ds', ds = d :: ds' := by
    cases ds with
    | nil => exact absurd rfl hdsne
    | cons d ds' => exact ⟨d, ds', rfl⟩
  have hd : 48 ≤ d ∧ d ≤ 57 := by
    have := hdsdig d (by simp)
    simpa [json_isdigit] using this
  have hall : ∀ c ∈ d :: ds', json_isdigit c = true := hdsdig
  have hnsp : cIsSpace d = false := by
    simp only [cIsSpace, Bool.or_eq_false_iff, beq_eq_false_iff_ne,
      Bool.and_eq_false_iff, decide_eq_false_iff_not]
    omega
  rcases hm with rfl | rfl
  · rw [List.nil_append]
    unfold strtoll64
    rw [List.cons_append, dropWhile_cons_neg _ hnsp]
    dsimp only
    rw [if_neg (by rw [peek_cons]; omega : ¬ peek (d :: (ds' ++ (fr ++ ex))) = 45),
        if_neg (by rw [peek_cons]; omega : ¬ peek (d :: (ds' ++ (fr ++ ex))) = 43)]
    dsimp only
    rw [show d :: (ds' ++ (fr ++ ex)) = (d :: ds') ++ (fr ++ ex) from rfl]
    rw [takeWhile_append_all (fr ++ ex) hall, (takeWhile_nil_of_peek hstop).1,
      List.append_nil]
    rw [if_neg (by simp)]
    rw [dropWhile_append_all (fr ++ ex) hall, (takeWhile_nil_of_peek hstop).2]
    repeat' split
    all_goals rfl
  · rw [show [45] ++ ((d :: ds') ++ (fr ++ ex)) = 45 :: ((d :: ds') ++ (fr ++ ex))
      from rfl]
    unfold strtoll64
    rw [dropWhile_cons_neg _ (by rfl)]
    dsimp only
    rw [if_pos (by rw [peek_cons] : peek (45 :: ((d :: ds') ++ (fr ++ ex))) = 45)]
    dsimp only
    rw [show (45 :: ((d :: ds') ++ (fr ++ ex))).tail = (d :: ds') ++ (fr ++ ex) from rfl]
    rw [takeWhile_append_all (fr ++ ex) hall, (takeWhile_nil_of_peek hstop).1,
      List.append_nil]
    rw [if_neg (by simp)]
    rw [dropWhile_append_all (fr ++ ex) hall, (takeWhile_nil_of_peek hstop).2]
    repeat' split
    all_goals rfl

/-- A number literal with a fractional part or an exponent fails every
strict integer getter with the out-of-range error, regardless of its
mathematical value. -/
theorem intGetters_fracExp (s : List Nat) (hg : goodNum s = true)
    (hfe : 46 ∈ s ∨ 101 ∈ s ∨ 69 ∈ s) :
    get_int (.vnum s) = .error "JSON integer out of range" ∧
    get_int64 (.vnum s) = .error "JSON integer out of range" ∧
    get_uint (.vnum s) = .error "JSON unsigned integer out of range" ∧
    get_uint64 (.vnum s) = .error "JSON unsigned integer out of range" := by
  simp only [goodNum, Bool.and_eq_true, decide_eq_true_eq] at hg
  obtain ⟨hhead, hlex⟩ := hg
  obtain ⟨hshape, -⟩ := lexNumber_struct hhead hlex
  obtain ⟨m, ds, fr, ex, hs, hm, hdsne, hdsdig, hz, hfrS, hexS⟩ := hshape
  simp only [List.append_assoc] at hs
  subst hs
  have hmem : ∀ b, b ∈ m ++ (ds ++ (fr ++ ex)) → (b = 46 ∨ b = 101 ∨ b = 69) →
      b ∈ fr ++ ex := by
    intro b hb hbv
    rcases List.mem_append.mp hb with hb | hb
    · exfalso
      rcases hm with rfl | rfl
      · simp at hb
      · simp at hb
        omega
    rcases List.mem_append.mp hb with hb | hb
    · exfalso
      have := hdsdig b hb
      simp [json_isdigit] at this
      omega
    · exact hb
  have hne : fr ++ ex ≠ [] := by
    intro hc
    have hb : (46 : Nat) ∈ fr ++ ex ∨ (101 : Nat) ∈ fr ++ ex ∨ (69 : Nat) ∈ fr ++ ex := by
      rcases hfe with h | h | h
      · exact Or.inl (hmem _ h (Or.inl rfl))
      · exact Or.inr (Or.inl (hmem _ h (Or.inr (Or.inl rfl))))
      · exact Or.inr (Or.inr (hmem _ h (Or.inr (Or.inr rfl))))
    rw [hc] at hb
    simp at hb
  have hstop : json_isdigit (peek (fr ++ ex)) = false := by
    rcases hfrS with rfl | ⟨ds1, hne1, hd1, rfl⟩
    · rcases hexS with rfl | ⟨e, sgn, ds2, he, hsgn, hne2, hd2, rfl⟩
      · exact absurd rfl hne
      · rw [List.nil_append, peek_cons]
        rcases he with rfl | rfl <;> rfl
    · rw [List.cons_append, peek_cons]
      rfl
  have hrest := strtoll64_rest m ds fr ex hm hdsne hdsdig hstop
  have hsr : strtoll64 (m ++ (ds ++ (fr ++ ex))) =
      ((strtoll64 (m ++ (ds ++ (fr ++ ex)))).1, fr ++ ex,
        (strtoll64 (m ++ (ds ++ (fr ++ ex)))).2.2) :=
    Prod.ext rfl (Prod.ext hrest rfl)
  have hbad : ∃ b ∈ m ++ (ds ++ (fr ++ ex)), b = 46 ∨ b = 101 ∨ b = 69 := by
    rcases hfe with h | h | h
    · exact ⟨46, h, Or.inl rfl⟩
    · exact ⟨101, h, Or.inr (Or.inl rfl)⟩
    · exact ⟨69, h, Or.inr (Or.inr rfl)⟩
  have hp32 : ParseInt32 (m ++ (ds ++ (fr ++ ex))) = none := by
    unfold ParseInt32
    cases hpc : ParsePrechecks (m ++ (ds ++ (fr ++ ex))) with
    | false => rfl
    | true =>
      rw [if_neg (by simp)]
      rw [hsr]
      dsimp only
      rw [if_neg (fun h => hne h.1)]
  have hp64 : ParseInt64 (m ++ (ds ++ (fr ++ ex))) = none := by
    unfold ParseInt64
    cases hpc : ParsePrechecks (m ++ (ds ++ (fr ++ ex))) with
    | false => rfl
    | true =>
      rw [if_neg (by simp)]
      rw [hsr]
      dsimp only
      rw [if_neg (fun h => hne h.1)]
  have hu32 : ParseUInt32 (m ++ (ds ++ (fr ++ ex))) = none := by
    unfold ParseUInt32
    cases hpc : ParsePrechecks (m ++ (ds ++ (fr ++ ex))) with
    | false => rfl
    | true =>
      rw [if_neg (by simp)]
      rw [if_neg (by
        intro hcon
        obtain ⟨b, hb, hbv⟩ := hbad
        have := List.all_eq_true.mp hcon.2 b hb
        rcases hbv with rfl | rfl | rfl <;> simp [json_isdigit] at this)]
  have hu64 : ParseUInt64 (m ++ (ds ++ (fr ++ ex))) = none := by
    unfold ParseUInt64
    cases hpc : ParsePrechecks (m ++ (ds ++ (fr ++ ex))) with
    | false => rfl
    | true =>
      rw [if_neg (by simp)]
      rw [if_neg (by
        intro hcon
        obtain ⟨b, hb, hbv⟩ := hbad
        have := List.all_eq_true.mp hcon.2 b hb
        rcases hbv with rfl | rfl | rfl <;> simp [json_isdigit] at this)]
  refine ⟨?_, ?_, ?_, ?_⟩
  · unfold get_int
    rw [if_neg (by simp [UniValue.isNum])]
    rw [show UniValue.getValStr (.vnum (m ++ (ds ++ (fr ++ ex)))) =
      m ++ (ds ++ (fr ++ ex)) from rfl]
    rw [hp32]
  · unfold get_int64
    rw [if_neg (by simp [UniValue.isNum])]
    rw [show UniValue.getValStr (.vnum (m ++ (ds ++ (fr ++ ex)))) =
      m ++ (ds ++ (fr ++ ex)) from rfl]
    rw [hp64]
  · unfold get_uint
    rw [if_neg (by simp [UniValue.isNum])]
    rw [show UniValue.getValStr (.vnum (m ++ (ds ++ (fr ++ ex)))) =
      m ++ (ds ++ (fr ++ ex)) from rfl]
    rw [hu32]
  · unfold get_uint64
    rw [if_neg (by simp [UniValue.isNum])]
    rw [show UniValue.getValStr (.vnum (m ++ (ds ++ (fr ++ ex)))) =
      m ++ (ds ++ (fr ++ ex)) from rfl]
    rw [hu64]

/-! ## Surrogate pairs through the filter (claim C8) -/

/-- A valid UTF-16 surrogate pair fed to `push_back_u` on a clean filter is
combined into a single supplementary-plane codepoint (at least U+10000) and
appended as one 4-byte UTF-8 sequence, leaving the filter clean and valid. -/
theorem push_back_u_surrogate_pair (hi lo : Nat) (o : List Nat)
    (h1 : 0xD800 ≤ hi) (h2 : hi < 0xDC00) (h3 : 0xDC00 ≤ lo) (h4 : lo < 0xE000) :
    ∃ cp, 0x10000 ≤ cp ∧ cp ≤ 0x10FFFF ∧
      JSONUTF8StringFilter.push_back_u
          (JSONUTF8StringFilter.push_back_u (JSONUTF8StringFilter.init o) hi) lo =
        ⟨o ++ [0xF0 ||| (cp >>> 18), 0x80 ||| ((cp >>> 12) &&& 0x3F),
               0x80 ||| ((cp >>> 6) &&& 0x3F), 0x80 ||| (cp &&& 0x3F)], true, 0, 0, 0⟩ := by
  have hbit : (0x10000 ||| ((hi - 0xD800) <<< 10) ||| (lo - 0xDC00)).testBit 16 = true := by
    simp only [Nat.testBit_or, Bool.or_eq_true]
    exact Or.inl (Or.inl (by decide))
  have hlow : 65536 ≤ 0x10000 ||| ((hi - 0xD800) <<< 10) ||| (lo - 0xDC00) := by
    have h := Nat.testBit_implies_ge hbit
    norm_num at h
    exact h
  have hsh : (hi - 0xD800) <<< 10 < 2 ^ 20 := by
    rw [Nat.shiftLeft_eq, show ((2:Nat) ^ 10) = 1024 from by norm_num,
      show ((2:Nat) ^ 20) = 1048576 from by norm_num]
    omega
  have hup20 : 0x10000 ||| ((hi - 0xD800) <<< 10) ||| (lo - 0xDC00) < 2 ^ 20 :=
    Nat.or_lt_two_pow
      (Nat.or_lt_two_pow (show (0x10000:Nat) < 2 ^ 20 from by norm_num) hsh)
      (show lo - 0xDC00 < 2 ^ 20 from by
        rw [show ((2:Nat) ^ 20) = 1048576 from by norm_num]; omega)
  have hup : 0x10000 ||| ((hi - 0xD800) <<< 10) ||| (lo - 0xDC00) < 1048576 := by
    rw [show ((2:Nat) ^ 20) = 1048576 from by norm_num] at hup20
    exact hup20
  refine ⟨0x10000 ||| ((hi - 0xD800) <<< 10) ||| (lo - 0xDC00),
    by omega, by omega, ?_⟩
  have stepA : JSONUTF8StringFilter.push_back_u (JSONUTF8StringFilter.init o) hi =
      ⟨o, true, 0, 0, hi⟩ := by
    unfold JSONUTF8StringFilter.init JSONUTF8StringFilter.push_back_u
    dsimp only
    rw [if_neg (show ¬((0:Nat) ≠ 0) by simp)]
    dsimp only
    rw [if_pos (show 0xD800 ≤ hi ∧ hi < 0xDC00 from ⟨h1, h2⟩),
        if_neg (show ¬((0:Nat) ≠ 0) by simp)]
  rw [stepA]
  unfold JSONUTF8StringFilter.push_back_u
  dsimp only
  rw [if_neg (show ¬((0:Nat) ≠ 0) by simp)]
  dsimp only
  rw [if_neg (show ¬(0xD800 ≤ lo ∧ lo < 0xDC00) by omega),
      if_pos (show 0xDC00 ≤ lo ∧ lo < 0xE000 from ⟨h3, h4⟩),
      if_pos (show hi ≠ 0 by omega)]
  unfold JSONUTF8StringFilter.append_codepoint
  dsimp only
  rw [if_neg (show ¬(0x10000 ||| ((hi - 0xD800) <<< 10) ||| (lo - 0xDC00) ≤ 0x7f) by omega),
      if_neg (show ¬(0x10000 ||| ((hi - 0xD800) <<< 10) ||| (lo - 0xDC00) ≤ 0x7FF) by omega),
      if_neg (show ¬(0x10000 ||| ((hi - 0xD800) <<< 10) ||| (lo - 0xDC00) ≤ 0xFFFF) by omega),
      if_pos (show 0x10000 ||| ((hi - 0xD800) <<< 10) ||| (lo - 0xDC00) ≤ 0x1FFFFF by omega)]

/-! ## The claims -/

/-- Claim C1 (corrected): the round trip holds for programmatically built
values whose number literals are valid JSON number tokens, whose string
payloads and object keys are well-formed UTF-8, and whose container nesting
depth is at most `MAX_JSON_DEPTH`: parsing the compact serialization
succeeds and returns a value equal to the original under `operator==`
(`ueq`). Unrestricted, the claim is false: see the counterexample. -/
theorem claim_C1_roundtrip (v : UniValue) (hg : GoodB v = true)
    (hd : udepth v ≤ MAX_JSON_DEPTH) :
    ∃ w, readStr (stringify v 0) = some w ∧ ueq w v = true :=
  ⟨v, readStr_stringify v hg hd, (ueq_iff v v).mpr rfl⟩

/-- Concrete instance of the corrected round trip: the object
`{"a": 1.5}`. -/
theorem claim_C1_roundtrip_witness :
    GoodB (.vobj (.cons (abytes "a") (.vnum (abytes "1.5")) .nil)) = true ∧
    udepth (.vobj (.cons (abytes "a") (.vnum (abytes "1.5")) .nil)) ≤ MAX_JSON_DEPTH ∧
    (∃ w, readStr (stringify (.vobj (.cons (abytes "a") (.vnum (abytes "1.5")) .nil)) 0)
        = some w ∧
      ueq w (.vobj (.cons (abytes "a") (.vnum (abytes "1.5")) .nil)) = true) :=
  ⟨by decide, by decide, claim_C1_roundtrip _ (by decide) (by decide)⟩

/-- Counterexample to claim C1 as stated: the string value holding the
single byte 0xFF is built programmatically (any `std::string` can be
assigned), but its serialization `"\xff"` does not parse back — the byte is
not valid UTF-8, so the tokenizer rejects the string token. -/
theorem claim_C1_cex : readStr (stringify (.vstr [255]) 0) = none := rfl

/-- Claim C2: verbatim number preservation: a number token's text is
exactly the consumed input prefix; the serializer emits a Number's stored
literal verbatim at any indent; a tokenizer-accepted bare number literal
parses to a Number holding it verbatim and re-serializes to the same bytes,
and likewise inside an array document; in particular `[1.10000000]`
round-trips to `[1.10000000]`, never a renormalized `1.1`. -/
theorem claim_C2_verbatim :
    (∀ l tv rest, tokenCore l = ⟨tNumber, tv, rest⟩ → tv ++ rest = l) ∧
    (∀ t p i, stringifyUV (.vnum t) p i = t) ∧
    (∀ t, goodNum t = true →
      readStr t = some (.vnum t) ∧ stringify (.vnum t) 0 = t) ∧
    (∀ t, goodNum t = true →
      readStr (91 :: (t ++ [93])) = some (.varr (.cons (.vnum t) .nil)) ∧
      stringify (.varr (.cons (.vnum t) .nil)) 0 = 91 :: (t ++ [93])) ∧
    (readStr (abytes "[1.10000000]") =
        some (.varr (.cons (.vnum (abytes "1.10000000")) .nil)) ∧
      stringify (.varr (.cons (.vnum (abytes "1.10000000")) .nil)) 0 =
        abytes "[1.10000000]") := by
  refine ⟨fun l tv rest h => tokenCore_number_src h, fun t p i => rfl, ?_, ?_, rfl, rfl⟩
  · intro t ht
    exact ⟨readStr_stringify (.vnum t) ht (by simp [udepth, MAX_JSON_DEPTH]), rfl⟩
  · intro t ht
    have hg2 : GoodB (.varr (.cons (.vnum t) .nil)) = true := by
      simp [GoodB, GoodValues, ht]
    have hd2 : udepth (.varr (.cons (.vnum t) .nil)) ≤ MAX_JSON_DEPTH := by
      simp only [udepth, udepthValues, MAX_JSON_DEPTH]
      omega
    have h := readStr_stringify _ hg2 hd2
    have hs : stringify (.varr (.cons (.vnum t) .nil)) 0 = 91 :: (t ++ [93]) := by
      simp [stringify, stringifyUV, stringifyValues, startNewLine]
    rw [hs] at h
    exact ⟨h, hs⟩

/-- Claim C3: the depth ceiling: any attempt to open a container with the
stack already `MAX_JSON_DEPTH` (512) deep fails; 512 nested arrays (depth
exactly 512) parse back; 513 nested arrays fail to parse; and serialization
has no depth limit — it is total, producing `2n + 2` bytes for `n + 1`
nested arrays, for every `n`. -/
theorem claim_C3_depth :
    (∀ root E S tok tv lt, (tok = tObjOpen ∨ tok = tArrOpen) →
      MAX_JSON_DEPTH ≤ S.length → procToken ⟨root, E, S⟩ tok tv lt = none) ∧
    readStr (stringify (nestA 511) 0) = some (nestA 511) ∧
    readStr (stringify (nestA 512) 0) = none ∧
    (∀ n, (stringify (nestA n) 0).length = 2 * n + 2) := by
  refine ⟨fun root E S tok tv lt h1 h2 => procToken_depth root E S tok tv lt h1 h2,
    readStr_nestA511, readStr_nestA512, fun n => ?_⟩
  rw [nestA_text]
  simp only [List.length_append, List.length_replicate]
  omega

/-- Claim C4: trailing-content rejection: after a complete top-level
construct, any trailing non-whitespace token makes the parse fail, while
leading and trailing whitespace is consumed silently; leading whitespace
never changes the result of a parse. -/
theorem claim_C4_trailing :
    readStr (abytes "{} garbage") = none ∧
    readStr (abytes "[]{}") = none ∧
    readStr (abytes "{}[]") = none ∧
    readStr (abytes "{} 42") = none ∧
    readStr (abytes "  {}\n  ") = some (.vobj .nil) ∧
    (∀ ws pre, (∀ c ∈ ws, json_isspace c = true) → readC (ws ++ pre) = readC pre) :=
  ⟨rfl, rfl, rfl, rfl, rfl, fun ws pre hws => readC_ws ws pre hws⟩

/-- Claim C5 (corrected): `setNumStr` on text that does not validate as
exactly one whitespace-padded JSON number token leaves the value UNCHANGED
(the body has no else branch), not Null as claimed; on valid text it stores
the literal with the surrounding whitespace stripped. -/
theorem claim_C5_setNumStr :
    (∀ v s, validateAndStripNumStr s = none → setNumStr v s = v) ∧
    (∀ v s t, validateAndStripNumStr s = some t → setNumStr v s = .vnum t) ∧
    (∀ ws1 ws2 t, (∀ c ∈ ws1, json_isspace c = true) →
      (∀ c ∈ ws2, json_isspace c = true) → goodNum t = true →
      validateAndStripNumStr (ws1 ++ (t ++ ws2)) = some t) ∧
    setNumStr .vnull (abytes " -689 ") = .vnum (abytes "-689") ∧
    setNumStr (.vstr (abytes "hi")) (abytes " -690 whitespace then junk") =
      .vstr (abytes "hi") :=
  ⟨fun v s h => by simp [setNumStr, h],
   fun v s t h => by simp [setNumStr, h],
   fun ws1 ws2 t h1 h2 ht => validateStrip_ws ws1 ws2 t h1 h2 ht,
   rfl, rfl⟩

/-- Counterexample to claim C5 as stated: on the spec's own failing input
the value is left unchanged (here, it stays the string `"hi"`), not set to
Null. -/
theorem claim_C5_cex :
    setNumStr (.vstr (abytes "hi")) (abytes " -690 whitespace then junk") =
      .vstr (abytes "hi") ∧
    setNumStr (.vstr (abytes "hi")) (abytes " -690 whitespace then junk") ≠ .vnull :=
  ⟨rfl, by decide⟩

/-- Claim C6: `operator==` (`ueq`) coincides with structural equality: it
requires equal variant tags, byte-exact literal text for Numbers and
Strings, and pairwise-equal order-sensitive sequences for Objects and
Arrays; in particular the Numbers `1.0` and `1` are unequal, and two
objects with the same entries in different orders are unequal. -/
theorem claim_C6_equality :
    (∀ a b, ueq a b = true ↔ a = b) ∧
    ueq (.vnum (abytes "1.0")) (.vnum (abytes "1")) = false ∧
    ueq (.vobj (.cons (abytes "a") .vnull (.cons (abytes "b") .vtrue .nil)))
        (.vobj (.cons (abytes "b") .vtrue (.cons (abytes "a") .vnull .nil))) = false ∧
    ueq (.vstr (abytes "1")) (.vnum (abytes "1")) = false :=
  ⟨fun a b => ueq_iff a b, rfl, rfl, rfl⟩

/-- Claim C7: strict-getter behaviour: `get_bool` on a Number fails with
the type-mismatch error; `get_int` on the Number `2147483648` fails with
the out-of-range error (it exceeds INT32_MAX) while `get_int64` on the
same value succeeds returning 2147483648; the getters are pure functions
of the value. -/
theorem claim_C7_getters :
    get_bool (.vnum (abytes "1")) = .error "JSON value is not a boolean as expected" ∧
    get_int (.vnum (abytes "2147483648")) = .error "JSON integer out of range" ∧
    get_int64 (.vnum (abytes "2147483648")) = .ok 2147483648 ∧
    get_bool .vtrue = .ok true :=
  ⟨rfl, rfl, rfl, rfl⟩

/-- Claim C8: unicode escapes: `["\ud834\udd61"]` parses to a one-element
array holding the 4-byte UTF-8 encoding of U+1D161 (F0 9D 85 A1); any
valid surrogate pair through the filter is combined into one
supplementary-plane codepoint (at least U+10000) emitted as a 4-byte UTF-8
sequence; a lone first or second surrogate half makes the parse fail. -/
theorem claim_C8_unicode :
    readStr (abytes "[\"\\ud834\\udd61\"]") =
      some (.varr (.cons (.vstr [0xF0, 0x9D, 0x85, 0xA1]) .nil)) ∧
    (∀ hi lo o, 0xD800 ≤ hi → hi < 0xDC00 → 0xDC00 ≤ lo → lo < 0xE000 →
      ∃ cp, 0x10000 ≤ cp ∧ cp ≤ 0x10FFFF ∧
        JSONUTF8StringFilter.push_back_u
            (JSONUTF8StringFilter.push_back_u (JSONUTF8StringFilter.init o) hi) lo =
          ⟨o ++ [0xF0 ||| (cp >>> 18), 0x80 ||| ((cp >>> 12) &&& 0x3F),
                 0x80 ||| ((cp >>> 6) &&& 0x3F), 0x80 ||| (cp &&& 0x3F)], true, 0, 0, 0⟩) ∧
    readStr (abytes "[\"\\ud834\"]") = none ∧
    readStr (abytes "[\"\\udd61\"]") = none :=
  ⟨rfl, fun hi lo o h1 h2 h3 h4 => push_back_u_surrogate_pair hi lo o h1 h2 h3 h4,
   rfl, rfl⟩

/-- Claim C9 (corrected): with pretty-indent `N > 0` a non-empty container
— object or array — emits one entry per line at the internal indent level
`iL + N` (with `": "` as the key/value separator in an object) and the
closing delimiter on its own line at the parent's indent level `iL`; but
an EMPTY object or array does NOT emit the bare two delimiters:
`startNewLine` runs unconditionally before the closing delimiter, so `{}`
pretty-prints with an internal newline (plus the parent indent). -/
theorem claim_C9_pretty (N : Nat) (hN : N ≠ 0) :
    (∀ iL, stringifyUV (.vobj .nil) N iL =
      123 :: (10 :: List.replicate iL 32 ++ [125])) ∧
    (∀ iL, stringifyUV (.varr .nil) N iL =
      91 :: (10 :: List.replicate iL 32 ++ [93])) ∧
    (∀ k v es iL, stringifyUV (.vobj (.cons k v es)) N iL =
      123 :: (stringifyEntries (.cons k v es) N (iL + N) ++
        (10 :: List.replicate iL 32 ++ [125]))) ∧
    (∀ k v iL, stringifyEntries (.cons k v .nil) N iL =
      (10 :: List.replicate iL 32) ++ (34 :: jsonEscape k ++ [34, 58]) ++ [32] ++
        stringifyUV v N iL) ∧
    (∀ k v k2 v2 r iL, stringifyEntries (.cons k v (.cons k2 v2 r)) N iL =
      (10 :: List.replicate iL 32) ++ (34 :: jsonEscape k ++ [34, 58]) ++ [32] ++
        stringifyUV v N iL ++ 44 :: stringifyEntries (.cons k2 v2 r) N iL) ∧
    (∀ v vs iL, stringifyUV (.varr (.cons v vs)) N iL =
      91 :: (stringifyValues (.cons v vs) N (iL + N) ++
        (10 :: List.replicate iL 32 ++ [93]))) ∧
    (∀ v iL, stringifyValues (.cons v .nil) N iL =
      (10 :: List.replicate iL 32) ++ stringifyUV v N iL) ∧
    (∀ v v2 r iL, stringifyValues (.cons v (.cons v2 r)) N iL =
      (10 :: List.replicate iL 32) ++ stringifyUV v N iL ++
        44 :: stringifyValues (.cons v2 r) N iL) ∧
    stringify (.vobj (.cons (abytes "a") (.vnum (abytes "1")) .nil)) 4 =
      abytes "\x7b\n    \"a\": 1\n\x7d" ∧
    stringify (.varr (.cons (.vnum (abytes "1")) (.cons (.vnum (abytes "2")) .nil))) 4 =
      abytes "[\n    1,\n    2\n]" := by
  refine ⟨fun iL => ?_, fun iL => ?_, fun k v es iL => ?_, fun k v iL => ?_,
    fun k v k2 v2 r iL => ?_, fun v vs iL => ?_, fun v iL => ?_,
    fun v v2 r iL => ?_, rfl, rfl⟩
  · simp [stringifyUV, startNewLine, hN]
  · simp [stringifyUV, startNewLine, hN]
  · simp [stringifyUV, startNewLine, hN]
  · simp [stringifyEntries, startNewLine, hN]
  · simp [stringifyEntries, startNewLine, hN]
  · simp [stringifyUV, startNewLine, hN]
  · simp [stringifyValues, startNewLine, hN]
  · simp [stringifyValues, startNewLine, hN]

/-- Concrete instances of the corrected pretty-printing claim at indent 4:
a one-entry object and a two-element array. -/
theorem claim_C9_pretty_witness :
    (4 : Nat) ≠ 0 ∧
    stringify (.vobj (.cons (abytes "a") (.vnum (abytes "1")) .nil)) 4 =
      abytes "\x7b\n    \"a\": 1\n\x7d" ∧
    stringify (.varr (.cons (.vnum (abytes "1")) (.cons (.vnum (abytes "2")) .nil))) 4 =
      abytes "[\n    1,\n    2\n]" :=
  ⟨by decide, (claim_C9_pretty 4 (by decide)).2.2.2.2.2.2.2.2.1,
   (claim_C9_pretty 4 (by decide)).2.2.2.2.2.2.2.2.2⟩

/-- Counterexample to claim C9 as stated: with pretty-indent 4 the empty
object serializes to `\x7b`, newline, `\x7d` — three bytes, not the two
characters `\x7b\x7d`; likewise the empty array. -/
theorem claim_C9_cex :
    stringify (.vobj .nil) 4 = [123, 10, 125] ∧
    stringify (.vobj .nil) 4 ≠ abytes "{}" ∧
    stringify (.varr .nil) 4 = [91, 10, 93] :=
  ⟨rfl, by decide, rfl⟩

/-- Claim C10: a Number whose tokenizer-valid literal contains a fractional
part or an exponent (a `.`, `e` or `E` byte) fails all four strict integer
getters with the out-of-range error, whatever its mathematical value: the
underlying integer parse demands that the whole literal be an optional
sign followed by decimal digits only. -/
theorem claim_C10_intGetters (s : List Nat) (hg : goodNum s = true)
    (hfe : 46 ∈ s ∨ 101 ∈ s ∨ 69 ∈ s) :
    get_int (.vnum s) = .error "JSON integer out of range" ∧
    get_int64 (.vnum s) = .error "JSON integer out of range" ∧
    get_uint (.vnum s) = .error "JSON unsigned integer out of range" ∧
    get_uint64 (.vnum s) = .error "JSON unsigned integer out of range" :=
  intGetters_fracExp s hg hfe

/-- Concrete instance: the literal `1.5` (value well inside every integer
range) fails all four strict integer getters. -/
theorem claim_C10_intGetters_witness :
    goodNum (abytes "1.5") = true ∧
    (46 ∈ abytes "1.5" ∨ 101 ∈ abytes "1.5" ∨ 69 ∈ abytes "1.5") ∧
    (get_int (.vnum (abytes "1.5")) = .error "JSON integer out of range" ∧
     get_int64 (.vnum (abytes "1.5")) = .error "JSON integer out of range" ∧
     get_uint (.vnum (abytes "1.5")) = .error "JSON unsigned integer out of range" ∧
     get_uint64 (.vnum (abytes "1.5")) = .error "JSON unsigned integer out of range") :=
  ⟨by decide, Or.inl (by decide),
   claim_C10_intGetters (abytes "1.5") (by decide) (Or.inl (by decide))⟩
